import Mathlib

/-!
# HashGraph: a directed, edge-weighted graph with redundant adjacency indices

A shallow embedding of `src/src/hash_graph.hpp` (class `ics::HashGraph<T>`).

* `NodeName` is `std::string`, `Edge` is `pair<NodeName, NodeName>`.
* `HashMap` and `HashSet` are collaborators whose headers are not part of the
  sources; they are modelled as insertion-ordered association lists / lists.
* The back pointer `LocalInfo::from_graph` is a raw address of the owning
  graph; it carries no abstract state and `connect` is modelled by the
  materialisation of the map entry it is called on.
-/

namespace ics

/-! ## Collaborators -/

/-- Modelled from the spec: the set abstraction `HashSet` (`hash_set.hpp` is not among the
sources): `insert/erase/has/size/iterate`.  A set is the list of its elements in iteration
order. -/
abbrev HashSet (α : Type) := List α

namespace HashSet

variable {α : Type} [DecidableEq α]

/-- Modelled from the spec: `HashSet::contains`. -/
def contains (s : HashSet α) (x : α) : Bool := decide (x ∈ s)

/-- Modelled from the spec: `HashSet::insert`; an element already present is not added again. -/
def insert (s : HashSet α) (x : α) : HashSet α := if x ∈ s then s else s ++ [x]

/-- Modelled from the spec: `HashSet::erase`; erasing an absent element changes nothing. -/
def erase (s : HashSet α) (x : α) : HashSet α := s.filter (fun y => decide (y ≠ x))

/-- Modelled from the spec: `HashSet::size`. -/
def size (s : HashSet α) : Nat := s.length

/-- Modelled from the spec: `HashSet::operator==`: same size and every element of the left
set is contained in the right set. -/
def beq (s₁ s₂ : HashSet α) : Bool :=
  decide (size s₁ = size s₂) && s₁.all (fun x => contains s₂ x)

end HashSet

/-- Modelled from the spec: the key-value mapping abstraction `HashMap` (`hash_map.hpp` is not
among the sources): `get/set/has/erase/size/iterate`.  A map is the list of its entries in
iteration order. -/
abbrev HashMap (κ : Type) (β : Type) := List (κ × β)

namespace HashMap

variable {κ β : Type} [DecidableEq κ]

/-- Modelled from the spec: the keys of a map, in iteration order. -/
def keys (m : HashMap κ β) : List κ := m.map Prod.fst

/-- Modelled from the spec: `HashMap::has_key`. -/
def has_key (m : HashMap κ β) (k : κ) : Bool := decide (k ∈ keys m)

/-- Modelled from the spec: the read-only `HashMap::operator[]`, `none` where the
library raises `KeyError`. -/
def get? : HashMap κ β → κ → Option β
  | [], _ => none
  | (k', v) :: m, k => if k' = k then some v else get? m k

/-- Modelled from the spec: the mutable `HashMap::operator[]` followed by an update `f` of the
referenced value; an absent key is first entered with the default value `d`. -/
def modify : HashMap κ β → κ → (β → β) → β → HashMap κ β
  | [], k, f, d => [(k, f d)]
  | (k', v) :: m, k, f, d =>
    if k' = k then (k', f v) :: m else (k', v) :: modify m k f d

/-- Modelled from the spec: `HashMap::erase`.  Every caller in the graph checks `has_key`
first, so the `KeyError` of the library on an absent key is never reached. -/
def erase (m : HashMap κ β) (k : κ) : HashMap κ β := m.filter (fun p => decide (p.1 ≠ k))

/-- Modelled from the spec: `HashMap::size`. -/
def size (m : HashMap κ β) : Nat := m.length

/-- Modelled from the spec: `HashMap::operator==`: same size and every entry of the left map
is bound to an equal value in the right map. -/
def beq [DecidableEq β] (m₁ m₂ : HashMap κ β) : Bool :=
  decide (size m₁ = size m₂) && m₁.all (fun p => decide (get? m₂ p.1 = some p.2))

/-- Modelled from the spec: a read `m[k]` through `HashMap::operator[]` inside a `const`
member function, in its most liberal reading, in which an absent key is entered with the
default value before it is read (as the `const` subscript of the `BSTMap` of this repository
does): the value read and the map after the read. -/
def read (m : HashMap κ β) (k : κ) (d : β) : Option β × HashMap κ β :=
  (get? (modify m k id d) k, modify m k id d)

end HashMap

/-! ## Data model -/

/-- Embeds `HashGraph::NodeName`. -/
abbrev NodeName := String

/-- Embeds `HashGraph::Edge`. -/
abbrev Edge := NodeName × NodeName

/-- Embeds `HashGraph::LocalInfo`: the adjacency record of one node. -/
structure LocalInfo where
  out_nodes : HashSet NodeName := []
  in_nodes : HashSet NodeName := []
  out_edges : HashSet Edge := []
  in_edges : HashSet Edge := []
  deriving DecidableEq, Repr

instance : Inhabited LocalInfo := ⟨{}⟩

/-- Embeds `LocalInfo::operator==`: only `in_edges` and `out_edges` are compared. -/
def LocalInfo.beq (li rhs : LocalInfo) : Bool :=
  HashSet.beq li.in_edges rhs.in_edges && HashSet.beq li.out_edges rhs.out_edges

/-- The instance variables of `HashGraph<T>`. -/
structure HashGraph (T : Type) where
  node_values : HashMap NodeName LocalInfo := []
  edge_values : HashMap Edge T := []
  deriving DecidableEq, Repr

/-- The failure of a query, `ics::GraphError`. -/
inductive GraphError where
  | edge_not_in_graph
  | node_not_in_graph
  deriving DecidableEq, Repr

namespace HashGraph

variable {T : Type}

/-- The graph built by the default constructor. -/
def empty_graph : HashGraph T := {}

/-! ## Queries -/

/-- Embeds `HashGraph::empty`. -/
def empty (g : HashGraph T) : Bool := g.node_values.isEmpty

/-- Embeds `HashGraph::node_count`. -/
def node_count (g : HashGraph T) : Nat := HashMap.size g.node_values

/-- Embeds `HashGraph::edge_count`. -/
def edge_count (g : HashGraph T) : Nat := HashMap.size g.edge_values

/-- Embeds `HashGraph::has_node`. -/
def has_node (g : HashGraph T) (node_name : NodeName) : Bool :=
  HashMap.has_key g.node_values node_name

/-- Embeds `HashGraph::has_edge`. -/
def has_edge (g : HashGraph T) (origin destination : NodeName) : Bool :=
  HashMap.has_key g.edge_values (origin, destination)

/-- Embeds `HashGraph::edge_value`. -/
def edge_value (g : HashGraph T) (origin destination : NodeName) : Except GraphError T :=
  if !g.has_edge origin destination then .error .edge_not_in_graph
  else match HashMap.get? g.edge_values (origin, destination) with
    | some v => .ok v
    | none => .error .edge_not_in_graph

/-- The record read by `node_values[node_name]` once `has_node` has been checked. -/
def local_info (g : HashGraph T) (node_name : NodeName) : Except GraphError LocalInfo :=
  if !g.has_node node_name then .error .node_not_in_graph
  else match HashMap.get? g.node_values node_name with
    | some li => .ok li
    | none => .error .node_not_in_graph

/-- Embeds `HashGraph::in_degree`. -/
def in_degree (g : HashGraph T) (node_name : NodeName) : Except GraphError Nat :=
  (g.local_info node_name).map (fun li => HashSet.size li.in_edges)

/-- Embeds `HashGraph::out_degree`. -/
def out_degree (g : HashGraph T) (node_name : NodeName) : Except GraphError Nat :=
  (g.local_info node_name).map (fun li => HashSet.size li.out_edges)

/-- Embeds `HashGraph::degree`. -/
def degree (g : HashGraph T) (node_name : NodeName) : Except GraphError Nat :=
  (g.local_info node_name).map
    (fun li => HashSet.size li.in_edges + HashSet.size li.out_edges)

/-- Embeds `HashGraph::out_nodes`. -/
def out_nodes (g : HashGraph T) (node_name : NodeName) : Except GraphError (HashSet NodeName) :=
  (g.local_info node_name).map (fun li => li.out_nodes)

/-- Embeds `HashGraph::in_nodes`. -/
def in_nodes (g : HashGraph T) (node_name : NodeName) : Except GraphError (HashSet NodeName) :=
  (g.local_info node_name).map (fun li => li.in_nodes)

/-- Embeds `HashGraph::out_edges`. -/
def out_edges (g : HashGraph T) (node_name : NodeName) : Except GraphError (HashSet Edge) :=
  (g.local_info node_name).map (fun li => li.out_edges)

/-- Embeds `HashGraph::in_edges`. -/
def in_edges (g : HashGraph T) (node_name : NodeName) : Except GraphError (HashSet Edge) :=
  (g.local_info node_name).map (fun li => li.in_edges)

/-! ## Commands -/

/-- Embeds `HashGraph::add_node`: `node_values[node_name].connect(this)` when the node is absent. -/
def add_node (g : HashGraph T) (node_name : NodeName) : HashGraph T :=
  if !g.has_node node_name then
    { g with node_values := HashMap.modify g.node_values node_name id default }
  else g

/-- Embeds `HashGraph::add_edge`, statement by statement. -/
def add_edge (g : HashGraph T) (origin destination : NodeName) (value : T) : HashGraph T :=
  let new_edge : Edge := (origin, destination)
  let nv := HashMap.modify g.node_values origin id default
  let nv := HashMap.modify nv destination id default
  let ev := HashMap.modify g.edge_values new_edge (fun _ => value) value
  let nv := HashMap.modify nv origin
    (fun li => { li with out_edges := HashSet.insert li.out_edges new_edge }) default
  let nv := HashMap.modify nv destination
    (fun li => { li with in_edges := HashSet.insert li.in_edges new_edge }) default
  let nv := HashMap.modify nv origin
    (fun li => { li with out_nodes := HashSet.insert li.out_nodes destination }) default
  let nv := HashMap.modify nv destination
    (fun li => { li with in_nodes := HashSet.insert li.in_nodes origin }) default
  { node_values := nv, edge_values := ev }

/-- Embeds `HashGraph::remove_edge`, statement by statement. -/
def remove_edge (g : HashGraph T) (origin destination : NodeName) : HashGraph T :=
  if !g.has_node origin || !g.has_node destination || !g.has_edge origin destination then g
  else
    let to_remove : Edge := (origin, destination)
    let ev := HashMap.erase g.edge_values to_remove
    let nv := HashMap.modify g.node_values origin
      (fun li => { li with out_edges := HashSet.erase li.out_edges to_remove }) default
    let nv := HashMap.modify nv destination
      (fun li => { li with in_edges := HashSet.erase li.in_edges to_remove }) default
    let nv := HashMap.modify nv origin
      (fun li => { li with out_nodes := HashSet.erase li.out_nodes destination }) default
    let nv := HashMap.modify nv destination
      (fun li => { li with in_nodes := HashSet.erase li.in_nodes origin }) default
    { node_values := nv, edge_values := ev }

/-- Embeds `HashGraph::remove_node`: the two neighbour sets are copied, every copied out-neighbour
and in-neighbour has its edge removed, then the node is erased. -/
def remove_node (g : HashGraph T) (node_name : NodeName) : HashGraph T :=
  if !g.has_node node_name then g
  else
    let li := (HashMap.get? g.node_values node_name).getD default
    let out_nodes := li.out_nodes
    let in_nodes := li.in_nodes
    let g := out_nodes.foldl (fun g ele => remove_edge g node_name ele) g
    let g := in_nodes.foldl (fun g ele => remove_edge g ele node_name) g
    { g with node_values := HashMap.erase g.node_values node_name }

/-- Embeds `HashGraph::clear`. -/
def clear (_g : HashGraph T) : HashGraph T := { node_values := [], edge_values := [] }

/-! ## Text format and equality -/

/-- The sentinel line that separates the node section from the edge section. -/
def sentinel : String := "NODESABOVEEDGESBELOW"

/-- The lines read by repeated `std::getline(in_file, line)`: a line ends at a newline or at
the end of the text, and reading stops when no character is left.  `acc` holds the characters
of the line being read. -/
def getlines : List Char → List Char → List String
  | [], acc => if acc = [] then [] else [String.mk acc]
  | c :: cs, acc =>
    if c = '\n' then String.mk acc :: getlines cs [] else getlines cs (acc ++ [c])

/-- Modelled from the spec: the helper `ics::split` (its header is not among the sources),
which cuts a line at every occurrence of the separator.  `skip` counts the characters of a
separator occurrence still to be passed over, `acc` holds the field being read. -/
def split_aux (sep : List Char) : List Char → Nat → List Char → List String
  | [], _, acc => [String.mk acc]
  | _ :: cs, skip + 1, acc => split_aux sep cs skip acc
  | c :: cs, 0, acc =>
    if sep ≠ [] ∧ sep.isPrefixOf (c :: cs) = true then
      String.mk acc :: split_aux sep cs (sep.length - 1) []
    else split_aux sep cs 0 (acc ++ [c])

/-- Modelled from the spec: `ics::split(line, separator)`. -/
def split (line separator : String) : List String :=
  split_aux separator.data line.data 0 []

/-- The first loop of `HashGraph::load`: every line before the sentinel is added as a node;
the result is the graph and the lines left after the sentinel. -/
def load_nodes (g : HashGraph T) : List String → HashGraph T × List String
  | [] => (g, [])
  | line :: rest =>
    if line ≠ sentinel then load_nodes (g.add_node line) rest else (g, rest)

/-- The lines of the edge section of an input: those after the first sentinel line. -/
def edge_section : List String → List String
  | [] => []
  | line :: rest => if line ≠ sentinel then edge_section rest else rest

/-- The second loop of `HashGraph::load`: every remaining line is split at the separator and
`add_edge(splitted[0], splitted[1], t)` is called with the `t` of
`T t; std::istringstream s(splitted[2]); s >> t;`.  The variable `t` has no initialiser and
the result of `s >> t` is not tested, so `t` has a value only when the declaration or the
extraction sets it: `extract text` is `some v` when `t` holds `v` after the three statements
for the value text `text`, and `none` when `t` is still unset (for a number type, at a
blank text).  Reading an unset `t`, and indexing a vector of fewer than three fields, are
undefined in the source; the model has no result there. -/
def load_edges (extract : String → Option T) (separator : String) (g : HashGraph T) :
    List String → Option (HashGraph T)
  | [] => some g
  | line :: rest =>
    match split line separator with
    | s0 :: s1 :: s2 :: _ =>
      match extract s2 with
      | some t => load_edges extract separator (g.add_edge s0 s1 t) rest
      | none => none
    | _ => none

/-- Embeds `HashGraph::load` on the text of the input file. -/
def load (extract : String → Option T) (g : HashGraph T) (text separator : String) :
    Option (HashGraph T) :=
  let r := load_nodes g (getlines text.data [])
  load_edges extract separator r.1 r.2

/-- A line of the form `origin<separator>destination<separator>value` in which no field
contains the first character of the separator and the value is a text of `T` that the
extraction reads. -/
def TripleLine (extract : String → Option T) (separator line : String) : Prop :=
  ∃ (o d v : String) (c : Char) (s' : List Char) (t : T),
    separator.data = c :: s' ∧ c ∉ o.data ∧ c ∉ d.data ∧ c ∉ v.data ∧
    line = o ++ separator ++ d ++ separator ++ v ∧ extract v = some t

/-- Embeds `HashGraph::store`: the text written to the output file; `print v` is the text
written by `out_file << v`.  The graph is not changed. -/
def store (print : T → String) (g : HashGraph T) (separator : String) : String :=
  let out := g.node_values.foldl (fun out ele => out ++ ele.1 ++ "\n") ""
  let out := out ++ sentinel
  g.edge_values.foldl
    (fun out ele => out ++ "\n" ++ ele.1.1 ++ "/" ++ ele.1.2 ++ separator ++ print ele.2) out

/-- Embeds `HashGraph::operator==`. -/
def beq [DecidableEq T] (g rhs : HashGraph T) : Bool :=
  if HashMap.size g.node_values ≠ HashMap.size rhs.node_values then false
  else if g.node_values.any (fun ele => !HashMap.has_key rhs.node_values ele.1) then false
  else HashMap.beq g.edge_values rhs.edge_values

/-- Embeds `HashGraph::operator!=`. -/
def bne [DecidableEq T] (g rhs : HashGraph T) : Bool := !(g.beq rhs)

/-! ## Command sequences and reachable states -/

/-- One structural command of the graph. -/
inductive Cmd (T : Type) where
  | add_node (node_name : NodeName)
  | add_edge (origin destination : NodeName) (value : T)
  | remove_edge (origin destination : NodeName)
  | remove_node (node_name : NodeName)
  | clear
  deriving DecidableEq, Repr

/-- The effect of one command. -/
def step (g : HashGraph T) : Cmd T → HashGraph T
  | .add_node n => g.add_node n
  | .add_edge o d v => g.add_edge o d v
  | .remove_edge o d => g.remove_edge o d
  | .remove_node n => g.remove_node n
  | .clear => g.clear

/-- The effect of a finite sequence of commands, first command first. -/
def run (g : HashGraph T) (cs : List (Cmd T)) : HashGraph T := cs.foldl step g

/-- A graph obtained from the empty graph by a finite sequence of commands. -/
def Reachable (g : HashGraph T) : Prop := ∃ cs : List (Cmd T), run empty_graph cs = g

/-! ## The consistency of the redundant indices -/

/-- The adjacency record `li` of node `n` is the projection of the edge keys `E` on `n`,
and lists nothing twice. -/
def RecOK (E : List Edge) (n : NodeName) (li : LocalInfo) : Prop :=
  li.out_nodes.Nodup ∧ li.in_nodes.Nodup ∧ li.out_edges.Nodup ∧ li.in_edges.Nodup ∧
  (∀ e, e ∈ li.out_edges ↔ e ∈ E ∧ e.1 = n) ∧
  (∀ e, e ∈ li.in_edges ↔ e ∈ E ∧ e.2 = n) ∧
  (∀ x, x ∈ li.out_nodes ↔ (n, x) ∈ E) ∧
  (∀ x, x ∈ li.in_nodes ↔ (x, n) ∈ E)

/-- The representation invariant of a graph: both maps have distinct keys, every adjacency
record is the projection of the edge map, and both end points of an edge are nodes. -/
structure Inv (g : HashGraph T) : Prop where
  nodes_nodup : (HashMap.keys g.node_values).Nodup
  edges_nodup : (HashMap.keys g.edge_values).Nodup
  rec_ok : ∀ n li, HashMap.get? g.node_values n = some li →
    RecOK (HashMap.keys g.edge_values) n li
  endpoints : ∀ e ∈ HashMap.keys g.edge_values,
    e.1 ∈ HashMap.keys g.node_values ∧ e.2 ∈ HashMap.keys g.node_values

/-- The record of node `n` after the four insertions of `add_edge origin destination`. -/
def addRec (origin destination n : NodeName) (li : LocalInfo) : LocalInfo :=
  { out_nodes := if n = origin then HashSet.insert li.out_nodes destination else li.out_nodes
    in_nodes := if n = destination then HashSet.insert li.in_nodes origin else li.in_nodes
    out_edges :=
      if n = origin then HashSet.insert li.out_edges (origin, destination) else li.out_edges
    in_edges :=
      if n = destination then HashSet.insert li.in_edges (origin, destination)
      else li.in_edges }

/-- The record of node `n` after the four erasures of `remove_edge origin destination`. -/
def remRec (origin destination n : NodeName) (li : LocalInfo) : LocalInfo :=
  { out_nodes := if n = origin then HashSet.erase li.out_nodes destination else li.out_nodes
    in_nodes := if n = destination then HashSet.erase li.in_nodes origin else li.in_nodes
    out_edges :=
      if n = origin then HashSet.erase li.out_edges (origin, destination) else li.out_edges
    in_edges :=
      if n = destination then HashSet.erase li.in_edges (origin, destination)
      else li.in_edges }

/-! ## Loading as a command sequence, and the stored value of an edge -/

/-- The `add_node` commands issued by the first loop of `load`, and the lines left after the
sentinel. -/
def load_node_cmds : List String → List (Cmd T) × List String
  | [] => ([], [])
  | line :: rest =>
    if line ≠ sentinel then
      (Cmd.add_node line :: (load_node_cmds rest).1, (load_node_cmds rest).2)
    else ([], rest)

/-- The `add_edge` commands issued by the second loop of `load`; no result where a line has
fewer than three fields or a value text that leaves the value unset. -/
def load_edge_cmds (extract : String → Option T) (separator : String) :
    List String → Option (List (Cmd T))
  | [] => some []
  | line :: rest =>
    match split line separator with
    | s0 :: s1 :: s2 :: _ =>
      match extract s2 with
      | some t =>
        (load_edge_cmds extract separator rest).map (fun cs => Cmd.add_edge s0 s1 t :: cs)
      | none => none
    | _ => none

/-- The commands issued by `load` on a text, in order. -/
def load_cmds (extract : String → Option T) (text separator : String) :
    Option (List (Cmd T)) :=
  let r : List (Cmd T) × List String := load_node_cmds (getlines text.data [])
  (load_edge_cmds extract separator r.2).map (fun cs => r.1 ++ cs)

/-- The value most recently stored for the edge key `e`, reading the commands from the most
recent one backwards: an `add_edge` on `e` stores its value; a `remove_edge` on `e`, a
`remove_node` on an end point of `e` or a `clear` leaves nothing stored. -/
def spec_last_stored_rev : List (Cmd T) → Edge → Option T
  | [], _ => none
  | .add_node _ :: rcs, e => spec_last_stored_rev rcs e
  | .add_edge o d v :: rcs, e => if e = (o, d) then some v else spec_last_stored_rev rcs e
  | .remove_edge o d :: rcs, e => if e = (o, d) then none else spec_last_stored_rev rcs e
  | .remove_node n :: rcs, e => if e.1 = n ∨ e.2 = n then none else spec_last_stored_rev rcs e
  | .clear :: _, _ => none

/-- The value most recently stored for the edge key `e` by the command sequence `cs`. -/
def spec_last_stored (cs : List (Cmd T)) (e : Edge) : Option T :=
  spec_last_stored_rev cs.reverse e

/-- The outcome of `edge_value` when `r` is what is stored for the edge: the stored value,
or the `GraphError` of an absent edge. -/
def stored_outcome (r : Option T) : Except GraphError T :=
  match r with
  | some v => .ok v
  | none => .error .edge_not_in_graph

/-! ## Sample values -/

/-- The white space of the classic locale (`std::isspace`): the space and the characters
9 to 13. -/
def isspace (c : Char) : Bool :=
  c.toNat == 32 || (decide (9 ≤ c.toNat) && decide (c.toNat ≤ 13))

/-- A sample of the extraction of `load` for `T = unsigned` (32 bits):
`unsigned t; std::istringstream s(text); s >> t;` with the C++11 rules of `std::num_get`.
Leading white space is skipped; when nothing follows it, the stream fails before any
conversion and `t` is never set (no value).  Otherwise an optional sign and the longest run
of decimal digits are read and `t` is set: to 0 when there is no digit, to `2 ^ 32 - 1` when
the number is above it, to the number negated modulo `2 ^ 32` after a minus sign, and to the
number itself in all other cases. -/
def extract_nat (s : String) : Option Nat :=
  match s.data.dropWhile isspace with
  | [] => none
  | c :: cs =>
    let digits := (if c == '-' || c == '+' then cs else c :: cs).takeWhile Char.isDigit
    let n := digits.foldl (fun n d => 10 * n + (d.toNat - 48)) 0
    if digits.isEmpty then some 0
    else if 2 ^ 32 ≤ n then some (2 ^ 32 - 1)
    else if c == '-' then some ((2 ^ 32 - n) % 2 ^ 32)
    else some n

/-- The commands that build the nodes A, B, C with the edges A→B, B→C, C→A. -/
def triangle_cmds : List (Cmd Nat) :=
  [.add_node "A", .add_node "B", .add_node "C",
   .add_edge "A" "B" 1, .add_edge "B" "C" 2, .add_edge "C" "A" 3]

/-- The graph with nodes A, B, C and edges A→B, B→C, C→A. -/
def triangle : HashGraph Nat := run empty_graph triangle_cmds

/-- The graph with nodes a, b and the single edge a→b of value 5. -/
def ab_graph : HashGraph Nat := run empty_graph [.add_node "a", .add_edge "a" "b" 5]

/-! ## Further notions used in the statements -/

/-- Both maps of the graph hold every key once, as every value of a `HashMap` does. -/
def MapsWF (g : HashGraph T) : Prop :=
  (HashMap.keys g.node_values).Nodup ∧ (HashMap.keys g.edge_values).Nodup

/-- The graph after `remove_node` has been called on every name of `ns`, in that order. -/
def remove_nodes (g : HashGraph T) (ns : List NodeName) : HashGraph T :=
  ns.foldl remove_node g

/-- The edge keys and values stored by the `add_edge` commands of `cs`, in order. -/
def edge_stores : List (Cmd T) → List (Edge × T)
  | [] => []
  | .add_edge o d v :: cs => ((o, d), v) :: edge_stores cs
  | _ :: cs => edge_stores cs

/-- The node names entered by the `add_node` commands of `cs`, in order. -/
def node_stores : List (Cmd T) → List NodeName
  | [] => []
  | .add_node n :: cs => n :: node_stores cs
  | _ :: cs => node_stores cs

/-- Whether a command is an `add_node` or an `add_edge`. -/
def Cmd.adds : Cmd T → Bool
  | .add_node _ => true
  | .add_edge _ _ _ => true
  | _ => false

/-- The value of the last occurrence of the key `e` in a list of stored entries. -/
def spec_last_value (l : List (Edge × T)) (e : Edge) : Option T :=
  HashMap.get? l.reverse e

/-- The lines of the documented output of `store`: the node names, the sentinel, and one
line `origin/destination<separator>value` for each entry of the edge map. -/
def spec_store_lines (print : T → String) (g : HashGraph T) (separator : String) :
    List String :=
  HashMap.keys g.node_values ++ [sentinel] ++
    g.edge_values.map (fun ele => ele.1.1 ++ "/" ++ ele.1.2 ++ separator ++ print ele.2)

/-- The text made of the given lines, a newline between two consecutive lines. -/
def join_lines : List String → String
  | [] => ""
  | [l] => l
  | l :: l' :: ls => l ++ "\n" ++ join_lines (l' :: ls)

/-- The commands that build the triangle graph in another order: edges first, C→A, then B→C,
then A→B, and a node that is added, linked, and removed again. -/
def triangle_alt_cmds : List (Cmd Nat) :=
  [.add_edge "C" "A" 3, .add_node "Z", .add_edge "B" "C" 7, .add_edge "Z" "A" 0,
   .add_edge "A" "B" 1, .remove_node "Z", .add_edge "B" "C" 2]

/-- The triangle graph built by `triangle_alt_cmds`. -/
def triangle_alt : HashGraph Nat := run empty_graph triangle_alt_cmds

/-- The commands of the example scenario on `HashGraph<int>`. -/
def scenario_cmds : List (Cmd Int) :=
  [.add_node "a", .add_edge "a" "b" 5, .add_edge "b" "c" 7]

/-- The graph of the example scenario. -/
def scenario : HashGraph Int := run empty_graph scenario_cmds

/-- The commands that build a node n with a self-loop, an edge to x and an edge from y. -/
def loop_cmds : List (Cmd Nat) :=
  [.add_edge "n" "n" 1, .add_edge "n" "x" 2, .add_edge "y" "n" 3]

/-- The graph with the edges n→n, n→x and y→n. -/
def loop_graph : HashGraph Nat := run empty_graph loop_cmds

/-! ## Calls of the queries, with the graph after the call -/

/-- The outcome of a node query when `r` is what was read for the node. -/
def node_outcome {α : Type} (r : Option α) : Except GraphError α :=
  match r with
  | some a => .ok a
  | none => .error .node_not_in_graph

/-- The common body of `in_degree`, `out_degree`, `degree`, `out_nodes`, `in_nodes`,
`out_edges` and `in_edges`, as a call: the `has_key` guard throws first, otherwise
`node_values[node_name]` is read and `f` of the record is returned.  The second component is
the graph after the call. -/
def node_query_call {α : Type} (f : LocalInfo → α) (g : HashGraph T) (node_name : NodeName) :
    Except GraphError α × HashGraph T :=
  if !g.has_node node_name then (.error .node_not_in_graph, g)
  else
    (node_outcome ((HashMap.read g.node_values node_name default).1.map f),
      { g with node_values := (HashMap.read g.node_values node_name default).2 })

/-- Embeds `HashGraph::edge_value` as a call: the `has_edge` guard throws first, otherwise
`edge_values[Edge(origin, destination)]` is read.  The second component is the graph after
the call. -/
def edge_value_call [Inhabited T] (g : HashGraph T) (origin destination : NodeName) :
    Except GraphError T × HashGraph T :=
  if !g.has_edge origin destination then (.error .edge_not_in_graph, g)
  else
    (stored_outcome (HashMap.read g.edge_values (origin, destination) default).1,
      { g with edge_values := (HashMap.read g.edge_values (origin, destination) default).2 })

/-- The number returned by a degree query, 0 where the query fails. -/
def degree_value (r : Except GraphError Nat) : Nat :=
  match r with
  | .ok k => k
  | .error _ => 0

/-! ## Printing order -/

/-- Embeds `HashGraph::LocalInfo_gt`: `a.first < b.first`, the comparison of `std::string`,
which is the lexicographic order of the characters. -/
def LocalInfo_gt (a b : NodeName × LocalInfo) : Bool := decide (a.1.data < b.1.data)

/-- Modelled from the spec: the entry of one element into the priority abstraction
`HeapPriorityQueue` (its header is not among the sources), kept here as the list of its
elements from the highest priority to the lowest. -/
def pq_enqueue {α : Type} (gt : α → α → Bool) (x : α) : List α → List α
  | [] => [x]
  | y :: ys => if gt x y then x :: y :: ys else y :: pq_enqueue gt x ys

/-- Modelled from the spec: the iteration of a `HeapPriorityQueue` built from the elements
`xs`: the elements from the highest priority to the lowest. -/
def pq_iterate {α : Type} (gt : α → α → Bool) (xs : List α) : List α :=
  xs.foldl (fun q x => pq_enqueue gt x q) []

/-- The entries emitted by `operator<<` on a graph, in the order of emission: the iteration
of the priority queue built from `node_values` with `LocalInfo_gt`.  The iteration of the
queue is the parameter `iterate`. -/
def print_entries
    (iterate : (NodeName × LocalInfo → NodeName × LocalInfo → Bool) →
      List (NodeName × LocalInfo) → List (NodeName × LocalInfo))
    (g : HashGraph T) : List (NodeName × LocalInfo) :=
  iterate LocalInfo_gt g.node_values

/-- What the graph relies on in the priority abstraction, for the queue built by
`operator<<`: the iteration yields every entry once, and no entry has a higher priority
than an entry emitted before it. -/
def PriorityIteration
    (iterate : (NodeName × LocalInfo → NodeName × LocalInfo → Bool) →
      List (NodeName × LocalInfo) → List (NodeName × LocalInfo))
    (g : HashGraph T) : Prop :=
  (iterate LocalInfo_gt g.node_values).Perm g.node_values ∧
  (iterate LocalInfo_gt g.node_values).Pairwise (fun a b => LocalInfo_gt b a = false)

end HashGraph

/-! ## Comparators supplied by template and by constructor -/

/-- A pointer to a comparison function `bool (*)(const α&, const α&)`: its address and the
function it designates.  Two pointers are compared by their addresses; `nullptr` is the
`none` of `Option (FnPtr α)`. -/
structure FnPtr (α : Type) where
  addr : Nat
  call : α → α → Bool

/-- The comparison `a != b` of two function pointers, either of which may be `nullptr`. -/
def FnPtr.differ {α : Type} : Option (FnPtr α) → Option (FnPtr α) → Bool
  | some a, some b => decide (a.addr ≠ b.addr)
  | none, none => false
  | _, _ => true

/-- The exceptions of `ics_exceptions.hpp` raised by the containers; the constructors'
exception carries its message.  `null_dereference` stands for a read through a null pointer,
which is undefined in the source. -/
inductive IcsError where
  | TemplateFunctionError (message : String)
  | KeyError
  | EmptyError
  | null_dereference
  deriving DecidableEq, Repr

/-- A strict total order given as a comparison function. -/
def StrictTotal {α : Type} (lt : α → α → Bool) : Prop :=
  (∀ a, lt a a = false) ∧
  (∀ a b c, lt a b = true → lt b c = true → lt a c = true) ∧
  (∀ a b, a ≠ b → lt a b = true ∨ lt b a = true)

/-- A strict order given as a comparison function: asymmetric and transitive, as every
strict weak ordering is. -/
def StrictOrder {α : Type} (gt : α → α → Bool) : Prop :=
  (∀ a b, gt a b = true → gt b a = false) ∧
  (∀ a b c, gt a b = true → gt b c = true → gt a c = true)

/-! ## BSTMap -/

/-- Embeds `BSTMap::TN`: a tree node, `null` for `nullptr`. -/
inductive TN (K V : Type) where
  | null
  | node (key : K) (value : V) (left right : TN K V)
  deriving DecidableEq, Repr

/-- The instance variables of `BSTMap<KEY,T,tlt>`. -/
structure BSTMap (K V : Type) where
  lt : FnPtr K
  map : TN K V
  used : Int
  mod_count : Int

namespace BSTMap

variable {K V : Type} [DecidableEq K]

/-- Embeds the default constructor `BSTMap(clt)` for the template argument `tlt`. -/
def new (tlt clt : Option (FnPtr K)) : Except IcsError (BSTMap K V) :=
  match (if tlt.isSome then tlt else clt) with
  | none => .error (.TemplateFunctionError "BSTMap::default constructor: neither specified")
  | some lt =>
    if tlt.isSome && clt.isSome && FnPtr.differ tlt clt then
      .error (.TemplateFunctionError
        "HeapPriorityQueue::default constructor: both specified and different")
    else .ok { lt := lt, map := .null, used := 0, mod_count := 0 }

/-- Embeds `BSTMap::find_key`: the subtree whose root holds `key` on the search path, `null`
when the path ends without finding it. -/
def find_key (lt : K → K → Bool) : TN K V → K → TN K V
  | .null, _ => .null
  | .node k v l r, key =>
    if k ≠ key then (if lt key k then find_key lt l key else find_key lt r key)
    else .node k v l r

/-- The value held by the node that `find_key` returns. -/
def find_value (lt : K → K → Bool) (root : TN K V) (key : K) : Option V :=
  match find_key lt root key with
  | .null => none
  | .node _ v _ _ => some v

/-- Embeds `BSTMap::copy`. -/
def copy : TN K V → TN K V
  | .null => .null
  | .node k v l r => .node k v (copy l) (copy r)

/-- Embeds `BSTMap::copy_to_queue`: the entries enqueued, in order. -/
def copy_to_queue : TN K V → List (K × V)
  | .null => []
  | .node k v l r => copy_to_queue l ++ (k, v) :: copy_to_queue r

/-- Embeds `BSTMap::insert`: the tree after the call, `used` after the call, and the value
returned. -/
def insert (lt : K → K → Bool) : TN K V → K → V → Int → TN K V × Int × V
  | .null, key, value, used => (.node key value .null .null, used + 1, value)
  | .node k v l r, key, value, used =>
    if k = key then (.node k value l r, used, v)
    else if lt key k then
      match l with
      | .null => (.node k v (.node key value .null .null) r, used + 1, value)
      | .node _ _ _ _ =>
        (.node k v (insert lt l key value used).1 r, (insert lt l key value used).2)
    else
      match r with
      | .null => (.node k v l (.node key value .null .null), used + 1, value)
      | .node _ _ _ _ =>
        (.node k v l (insert lt r key value used).1, (insert lt r key value used).2)

/-- Embeds `BSTMap::find_addempty`: the tree, `used` and `mod_count` after the call, and the
value referred to by the reference returned. -/
def find_addempty [Inhabited V] (lt : K → K → Bool) :
    TN K V → K → Int → Int → TN K V × Int × Int × V
  | .null, key, used, mod_count =>
    (.node key default .null .null, used + 1, mod_count + 1, default)
  | .node k v l r, key, used, mod_count =>
    if k = key then (.node k v l r, used, mod_count, v)
    else if lt key k then
      match l with
      | .null => (.node k v (.node key default .null .null) r, used + 1, mod_count + 1, default)
      | .node _ _ _ _ =>
        (.node k v (find_addempty lt l key used mod_count).1 r,
          (find_addempty lt l key used mod_count).2)
    else
      match r with
      | .null => (.node k v l (.node key default .null .null), used + 1, mod_count + 1, default)
      | .node _ _ _ _ =>
        (.node k v l (find_addempty lt r key used mod_count).1,
          (find_addempty lt r key used mod_count).2)

/-- Embeds `BSTMap::remove_closest` on the node with entry `(k, v)`, left subtree `l` and the
given right subtree: the entry returned and the tree that replaces the node. -/
def remove_closest (k : K) (v : V) (l : TN K V) : TN K V → (K × V) × TN K V
  | .null => ((k, v), l)
  | .node k' v' l' r' =>
    ((remove_closest k' v' l' r').1, .node k v l (remove_closest k' v' l' r').2)

/-- Embeds `BSTMap::remove`: `KeyError` when the search path ends, otherwise the value
removed and the tree after the call. -/
def remove (lt : K → K → Bool) : TN K V → K → Except IcsError (V × TN K V)
  | .null, _ => .error .KeyError
  | .node k v l r, key =>
    if key = k then
      match l, r with
      | .null, _ => .ok (v, r)
      | .node _ _ _ _, .null => .ok (v, l)
      | .node lk lv ll lr, .node _ _ _ _ =>
        .ok (v, .node (remove_closest lk lv ll lr).1.1 (remove_closest lk lv ll lr).1.2
          (remove_closest lk lv ll lr).2 r)
    else if lt key k then
      match remove lt l key with
      | .ok res => .ok (res.1, .node k v res.2 r)
      | .error e => .error e
    else
      match remove lt r key with
      | .ok res => .ok (res.1, .node k v l res.2)
      | .error e => .error e

/-- Embeds `BSTMap::empty`. -/
def empty (m : BSTMap K V) : Bool := decide (m.used = 0)

/-- Embeds `BSTMap::size`. -/
def size (m : BSTMap K V) : Int := m.used

/-- Embeds `BSTMap::has_key`. -/
def has_key (m : BSTMap K V) (key : K) : Bool :=
  match find_key m.lt.call m.map key with
  | .null => false
  | .node _ _ _ _ => true

/-- Embeds `BSTMap::put`: the value returned and the map after the call. -/
def put (m : BSTMap K V) (key : K) (value : V) : V × BSTMap K V :=
  ((insert m.lt.call m.map key value m.used).2.2,
    { m with
      map := (insert m.lt.call m.map key value m.used).1
      used := (insert m.lt.call m.map key value m.used).2.1
      mod_count := m.mod_count + 1 })

/-- Embeds `BSTMap::erase`: the outcome and the map after the call.  `remove` throws when
it reaches a null pointer, before anything has been assigned, so a failing call leaves the
map as it was. -/
def erase (m : BSTMap K V) (key : K) : Except IcsError V × BSTMap K V :=
  match remove m.lt.call m.map key with
  | .error e => (.error e, m)
  | .ok res =>
    (.ok res.1, { m with map := res.2, mod_count := m.mod_count + 1, used := m.used - 1 })

/-- Embeds `BSTMap::clear`. -/
def clear (m : BSTMap K V) : BSTMap K V := { m with map := .null, used := 0 }

/-- Embeds the mutable `BSTMap::operator[]`: the value referred to and the map after the
call. -/
def index [Inhabited V] (m : BSTMap K V) (key : K) : V × BSTMap K V :=
  ((find_addempty m.lt.call m.map key m.used m.mod_count).2.2.2,
    { m with
      map := (find_addempty m.lt.call m.map key m.used m.mod_count).1
      used := (find_addempty m.lt.call m.map key m.used m.mod_count).2.1
      mod_count := (find_addempty m.lt.call m.map key m.used m.mod_count).2.2.1 })

/-- Embeds `BSTMap::operator=` for two distinct objects (when `this == &rhs` the operator
returns at once and the map is as it was). -/
def assign (m rhs : BSTMap K V) : BSTMap K V :=
  { lt := rhs.lt, map := copy rhs.map, mod_count := m.mod_count + 1, used := rhs.used }

/-- The keys of a tree, in the order of `copy_to_queue`. -/
def tree_keys (t : TN K V) : List K := (copy_to_queue t).map Prod.fst

/-- The search-tree order: every key of the left subtree of a node is `lt` the key of the
node, and the key of the node is `lt` every key of its right subtree. -/
def Ordered (lt : K → K → Bool) : TN K V → Prop
  | .null => True
  | .node k _ l r =>
    (∀ x ∈ tree_keys l, lt x k = true) ∧ (∀ x ∈ tree_keys r, lt k x = true) ∧
    Ordered lt l ∧ Ordered lt r

/-- A map obtained from a successfully constructed empty map, whose comparator is a strict
total order, by `put`, `operator[]`, `erase`, `clear` and `operator=` (from a map obtained
in the same way). -/
inductive Built [Inhabited V] : BSTMap K V → Prop where
  | new (tlt clt : Option (FnPtr K)) (m : BSTMap K V) :
    BSTMap.new tlt clt = .ok m → StrictTotal m.lt.call → Built m
  | put (m : BSTMap K V) (key : K) (value : V) : Built m → Built (m.put key value).2
  | index (m : BSTMap K V) (key : K) : Built m → Built (m.index key).2
  | erase (m : BSTMap K V) (key : K) : Built m → Built (m.erase key).2
  | clear (m : BSTMap K V) : Built m → Built m.clear
  | assign (m rhs : BSTMap K V) : Built m → Built rhs → Built (m.assign rhs)

end BSTMap

/-! ## LinkedPriorityQueue -/

/-- The instance variables of `LinkedPriorityQueue<T,tgt>`; `front` holds the values of the
nodes that follow the header node, from `front->next` on. -/
structure LinkedPriorityQueue (T : Type) where
  gt : FnPtr T
  front : List T
  used : Int
  mod_count : Int

namespace LinkedPriorityQueue

variable {T : Type}

/-- Embeds the default constructor `LinkedPriorityQueue(cgt)` for the template argument
`tgt`. -/
def new (tgt cgt : Option (FnPtr T)) : Except IcsError (LinkedPriorityQueue T) :=
  match (if tgt.isSome then tgt else cgt) with
  | none =>
    .error (.TemplateFunctionError
      "LinkedPriorityQueue::default constructor: neither specified")
  | some gt =>
    if tgt.isSome && cgt.isSome && FnPtr.differ tgt cgt then
      .error (.TemplateFunctionError
        "LinkedPriorityQueue::default constructor: both specified and different")
    else .ok { gt := gt, front := [], used := 0, mod_count := 0 }

/-- Embeds `LinkedPriorityQueue::empty`. -/
def empty (q : LinkedPriorityQueue T) : Bool := decide (q.used = 0)

/-- Embeds `LinkedPriorityQueue::size`. -/
def size (q : LinkedPriorityQueue T) : Int := q.used

/-- Embeds `LinkedPriorityQueue::peek`. -/
def peek (q : LinkedPriorityQueue T) : Except IcsError T :=
  if q.empty then .error .EmptyError
  else
    match q.front with
    | x :: _ => .ok x
    | [] => .error .null_dereference

/-- The loop of `LinkedPriorityQueue::enqueue`: the node holding the new value `x` is
followed by the nodes `rest`; while there is a next node and `x` is not `gt` its value, the
two values are swapped and the loop moves on. -/
def swap_loop (gt : T → T → Bool) (x : T) : List T → List T
  | [] => [x]
  | y :: ys => if !gt x y then y :: swap_loop gt x ys else x :: y :: ys

/-- Embeds `LinkedPriorityQueue::enqueue`: the number returned and the queue after the
call. -/
def enqueue (q : LinkedPriorityQueue T) (element : T) : Int × LinkedPriorityQueue T :=
  (1, { q with
    front := swap_loop q.gt.call element q.front
    used := q.used + 1
    mod_count := q.mod_count + 1 })

/-- Embeds `LinkedPriorityQueue::dequeue`: the outcome and the queue after the call. -/
def dequeue (q : LinkedPriorityQueue T) : Except IcsError T × LinkedPriorityQueue T :=
  if q.empty then (.error .EmptyError, q)
  else
    match q.front with
    | x :: rest =>
      (.ok x, { q with front := rest, used := q.used - 1, mod_count := q.mod_count + 1 })
    | [] => (.error .null_dereference, q)

/-- One call of `enqueue` or `dequeue`. -/
inductive Op (T : Type) where
  | enqueue (element : T)
  | dequeue
  deriving DecidableEq, Repr

/-- The queue after one call. -/
def apply (q : LinkedPriorityQueue T) : Op T → LinkedPriorityQueue T
  | .enqueue x => (q.enqueue x).2
  | .dequeue => q.dequeue.2

/-- The queue after a sequence of calls, first call first. -/
def run (q : LinkedPriorityQueue T) (ops : List (Op T)) : LinkedPriorityQueue T :=
  ops.foldl apply q

end LinkedPriorityQueue

/-! ## Sample comparators and containers -/

/-- The comparison `a < b` of natural numbers, at address 1. -/
def nat_lt : FnPtr Nat := { addr := 1, call := fun a b => decide (a < b) }

/-- The comparison `a > b` of natural numbers, at address 2. -/
def nat_gt : FnPtr Nat := { addr := 2, call := fun a b => decide (a > b) }

/-- The empty map ordered by `nat_lt`. -/
def sample_empty_map : BSTMap Nat Nat := { lt := nat_lt, map := .null, used := 0, mod_count := 0 }

/-- The map with the entries 5→50, 3→30, 8→80, 4→40, put in that order. -/
def sample_map : BSTMap Nat Nat :=
  ((((sample_empty_map.put 5 50).2.put 3 30).2.put 8 80).2.put 4 40).2

/-- The empty priority queue ordered by `nat_gt`. -/
def sample_empty_queue : LinkedPriorityQueue Nat :=
  { gt := nat_gt, front := [], used := 0, mod_count := 0 }

/-- The calls applied to the sample queue. -/
def sample_ops : List (LinkedPriorityQueue.Op Nat) :=
  [.enqueue 3, .enqueue 7, .dequeue, .enqueue 5, .enqueue 3, .enqueue 9]

/-! ## Linked containers: list nodes on a heap -/

/-- Embeds the class `LN` of `LinkedSet` and `LinkedQueue`: a value and the pointer `next`,
`none` for `nullptr`. -/
structure LN (T : Type) where
  value : T
  next : Option Nat
  deriving DecidableEq, Repr

/-- The list nodes that an object has allocated: cell `a` holds the node at address `a`, and
`none` once that node has been deleted.  `new LN` takes the next unused address. -/
abbrev Heap (T : Type) := List (Option (LN T))

/-- How a call on a linked container ends when it does not return: it throws an exception,
it reads or writes through a pointer that is null or points to a deleted node (undefined in
the source), or one of its loops has not ended after the number of steps allowed. -/
inductive Fault where
  | thrown (e : IcsError)
  | bad_pointer
  | no_return
  deriving DecidableEq, Repr

namespace Heap

variable {T : Type}

/-- The node at address `a`, `none` when nothing is allocated there or it has been
deleted. -/
def cell (h : Heap T) (a : Nat) : Option (LN T) := (h[a]?).getD none

/-- The node a pointer points to. -/
def deref (h : Heap T) : Option Nat → Option (LN T)
  | none => none
  | some a => cell h a

/-- The heap after `*a = n`. -/
def write (h : Heap T) (a : Nat) (n : LN T) : Heap T := h.set a (some n)

/-- The heap after `delete a`. -/
def delete (h : Heap T) (a : Nat) : Heap T := h.set a none

/-- The heap after `new LN(...)`; the address of the new node is the length of the heap
before. -/
def alloc (h : Heap T) (n : LN T) : Heap T := h ++ [some n]

/-- The nodes from `p` on are at the addresses, and hold the values, listed in `ns`, each
pointing to the next, and the `next` of the last one is `q` (for an empty `ns`, `p` is
`q`). -/
def Seg (h : Heap T) : Option Nat → List (Nat × T) → Option Nat → Prop
  | p, [], q => p = q
  | p, (a, v) :: ns, q => p = some a ∧ ∃ nx, cell h a = some ⟨v, nx⟩ ∧ Seg h nx ns q

/-- The loop of `delete_list` in `LinkedSet` and `LinkedQueue`:
`for (LN* temp = front; front; temp = front) { front = front->next; delete temp; }`
run for at most the given number of nodes; the result is the heap after it (the pointer
passed by reference is null then). -/
def delete_loop : Nat → Heap T → Option Nat → Except Fault (Heap T)
  | _, h, none => .ok h
  | 0, _, some _ => .error .no_return
  | fuel + 1, h, some a =>
    match cell h a with
    | none => .error .bad_pointer
    | some n => delete_loop fuel (delete h a) n.next

end Heap

/-! ## LinkedSet -/

/-- The instance variables of `LinkedSet<T>`, with the nodes the set has allocated. -/
structure LinkedSet (T : Type) where
  heap : Heap T
  front : Option Nat
  trailer : Option Nat
  used : Int
  mod_count : Int
  deriving DecidableEq, Repr

namespace LinkedSet

variable {T : Type} [DecidableEq T] [Inhabited T]

/-- Embeds the default constructor: `front = new LN()`, `trailer = front`. -/
def new : LinkedSet T :=
  { heap := [some ⟨default, none⟩], front := some 0, trailer := some 0, used := 0,
    mod_count := 0 }

/-- Embeds `LinkedSet::empty`. -/
def empty (s : LinkedSet T) : Bool := decide (s.used = 0)

/-- Embeds `LinkedSet::size`. -/
def size (s : LinkedSet T) : Int := s.used

/-- The loop of `contains` and of `erase`:
`for (traverse = front; traverse->next && traverse->value != element; traverse = traverse->next);`
run for at most the given number of tests; the result is the address `traverse` ends at. -/
def find_loop (h : Heap T) (element : T) : Nat → Option Nat → Except Fault Nat
  | 0, _ => .error .no_return
  | _ + 1, none => .error .bad_pointer
  | fuel + 1, some a =>
    match Heap.cell h a with
    | none => .error .bad_pointer
    | some n =>
      if n.next.isSome ∧ n.value ≠ element then find_loop h element fuel n.next
      else .ok a

/-- Embeds `LinkedSet::contains`. -/
def contains (s : LinkedSet T) (element : T) : Except Fault Bool :=
  match find_loop s.heap element (s.heap.length + 1) s.front with
  | .error f => .error f
  | .ok traverse => .ok (decide (some traverse ≠ s.trailer))

/-- The statements of `insert` after the test of `contains`:
`trailer->value = element; trailer->next = new LN(); trailer = trailer->next;`
and the two counters. -/
def insert_new (s : LinkedSet T) (element : T) : Except Fault (Int × LinkedSet T) :=
  match s.trailer with
  | none => .error .bad_pointer
  | some t =>
    match Heap.cell s.heap t with
    | none => .error .bad_pointer
    | some _ =>
      .ok (1, { heap := Heap.alloc (Heap.write s.heap t ⟨element, some s.heap.length⟩)
                  ⟨default, none⟩
                front := s.front
                trailer := some s.heap.length
                used := s.used + 1
                mod_count := s.mod_count + 1 })

/-- Embeds `LinkedSet::insert`: the number returned and the set after the call. -/
def insert (s : LinkedSet T) (element : T) : Except Fault (Int × LinkedSet T) :=
  match s.contains element with
  | .error f => .error f
  | .ok true => .ok (0, s)
  | .ok false => insert_new s element

/-- Embeds `LinkedSet::erase_at`.  When `p->next == trailer` the trailer is deleted and `p`
becomes the trailer; otherwise `p` takes the value and the `next` of the node after it, and
that node is deleted. -/
def erase_at (s : LinkedSet T) (p : Nat) : Except Fault (Int × LinkedSet T) :=
  match Heap.cell s.heap p with
  | none => .error .bad_pointer
  | some n =>
    if n.next = s.trailer then
      match s.trailer with
      | none =>
        .ok (1, { s with heap := Heap.write s.heap p ⟨n.value, none⟩, trailer := some p,
                         mod_count := s.mod_count + 1, used := s.used - 1 })
      | some t =>
        match Heap.cell s.heap t with
        | none => .error .bad_pointer
        | some _ =>
          .ok (1, { s with heap := Heap.write (Heap.delete s.heap t) p ⟨n.value, none⟩,
                           trailer := some p, mod_count := s.mod_count + 1,
                           used := s.used - 1 })
    else
      match n.next with
      | none => .error .bad_pointer
      | some temp =>
        match Heap.cell s.heap temp with
        | none => .error .bad_pointer
        | some tn =>
          .ok (1, { s with heap := Heap.delete (Heap.write s.heap p ⟨tn.value, tn.next⟩) temp,
                           mod_count := s.mod_count + 1, used := s.used - 1 })

/-- Embeds `LinkedSet::erase`: the number returned and the set after the call. -/
def erase (s : LinkedSet T) (element : T) : Except Fault (Int × LinkedSet T) :=
  match find_loop s.heap element (s.heap.length + 1) s.front with
  | .error f => .error f
  | .ok traverse => if some traverse ≠ s.trailer then erase_at s traverse else .ok (0, s)

/-- Embeds `LinkedSet::clear`: `delete_list(front)`, which deletes every node, the trailer
included, adds one to `mod_count` and sets `used` to 0, then `front = trailer = new LN()`. -/
def clear (s : LinkedSet T) : Except Fault (LinkedSet T) :=
  match Heap.delete_loop (s.heap.length + 1) s.heap s.front with
  | .error f => .error f
  | .ok h =>
    .ok { heap := Heap.alloc h ⟨default, none⟩, front := some h.length,
          trailer := some h.length, used := 0, mod_count := s.mod_count + 1 }

/-- Embeds `LinkedSet::insert_all`, the iterable given by the values it yields: the count
returned and the set after the call. -/
def insert_all : LinkedSet T → List T → Except Fault (Int × LinkedSet T)
  | s, [] => .ok (0, s)
  | s, e :: es =>
    match s.insert e with
    | .error f => .error f
    | .ok r =>
      match insert_all r.2 es with
      | .error f => .error f
      | .ok r' => .ok (r.1 + r'.1, r'.2)

/-- Embeds `LinkedSet::erase_all`, the iterable given by the values it yields: the count
returned and the set after the call. -/
def erase_all : LinkedSet T → List T → Except Fault (Int × LinkedSet T)
  | s, [] => .ok (0, s)
  | s, e :: es =>
    match s.erase e with
    | .error f => .error f
    | .ok r =>
      match erase_all r.2 es with
      | .error f => .error f
      | .ok r' => .ok (r.1 + r'.1, r'.2)

/-- The loop of the copy constructor and the second loop of `operator=`:
`for (; rhs_temp->next; rhs_temp = rhs_temp->next, trailer = trailer->next)
{ trailer->value = rhs_temp->value; trailer->next = new LN(); }`
over the nodes `rh` of the other set, run for at most the given number of tests; the result
is the heap and `trailer` after it. -/
def append_loop (rh : Heap T) : Nat → Heap T → Option Nat → Option Nat →
    Except Fault (Heap T × Option Nat)
  | 0, _, _, _ => .error .no_return
  | fuel + 1, h, trailer, rhs_temp =>
    match Heap.deref rh rhs_temp with
    | none => .error .bad_pointer
    | some rn =>
      if rn.next.isSome then
        match trailer with
        | none => .error .bad_pointer
        | some t =>
          match Heap.cell h t with
          | none => .error .bad_pointer
          | some _ =>
            append_loop rh fuel
              (Heap.alloc (Heap.write h t ⟨rn.value, some h.length⟩) ⟨default, none⟩)
              (some h.length) rn.next
      else .ok (h, trailer)

/-- Embeds the copy constructor `LinkedSet(to_copy)` for an object whose storage has the
nodes `h0` (none for a new object): `front = new LN()`, `trailer = front`,
`used = to_copy.used`, `mod_count = 0`, then the loop. -/
def construct_copy (h0 : Heap T) (to_copy : LinkedSet T) : Except Fault (LinkedSet T) :=
  match append_loop to_copy.heap (to_copy.heap.length + 1) (Heap.alloc h0 ⟨default, none⟩)
      (some h0.length) to_copy.front with
  | .error f => .error f
  | .ok r =>
    .ok { heap := r.1, front := some h0.length, trailer := r.2, used := to_copy.used,
          mod_count := 0 }

/-- Embeds the copy constructor for a new object. -/
def copy (to_copy : LinkedSet T) : Except Fault (LinkedSet T) := construct_copy [] to_copy

/-- The loop `for (auto &element : i) if (contains(element)) to_return.insert(element);` of
`retain_all`: the set `to_return` after it. -/
def retain_loop (s : LinkedSet T) : LinkedSet T → List T → Except Fault (LinkedSet T)
  | to_return, [] => .ok to_return
  | to_return, e :: es =>
    match s.contains e with
    | .error f => .error f
    | .ok false => retain_loop s to_return es
    | .ok true =>
      match to_return.insert e with
      | .error f => .error f
      | .ok r => retain_loop s r.2 es

/-- Embeds `LinkedSet::retain_all`, the iterable given by the values it yields: the loop
into a new set `to_return`, the destructor call on this object (`delete_list(front)`), and
the copy constructor called on its storage with `to_return`; the number returned is
`size()`. -/
def retain_all (s : LinkedSet T) (i : List T) : Except Fault (Int × LinkedSet T) :=
  match retain_loop s new i with
  | .error f => .error f
  | .ok to_return =>
    match Heap.delete_loop (s.heap.length + 1) s.heap s.front with
    | .error f => .error f
    | .ok h =>
      match construct_copy h to_return with
      | .error f => .error f
      | .ok s' => .ok (s'.size, s')

/-- The first loop of `operator=`:
`for (; rhs_temp->next && temp->next; rhs_temp = rhs_temp->next, temp = temp->next)
temp->value = rhs_temp->value;`
over the nodes `rh` of the other set, run for at most the given number of tests; the result
is the heap, `temp` and `rhs_temp` after it. -/
def assign_loop (rh : Heap T) : Nat → Heap T → Option Nat → Option Nat →
    Except Fault (Heap T × Option Nat × Option Nat)
  | 0, _, _, _ => .error .no_return
  | fuel + 1, h, temp, rhs_temp =>
    match Heap.deref rh rhs_temp with
    | none => .error .bad_pointer
    | some rn =>
      if rn.next.isSome then
        match temp with
        | none => .error .bad_pointer
        | some a =>
          match Heap.cell h a with
          | none => .error .bad_pointer
          | some n =>
            if n.next.isSome then
              assign_loop rh fuel (Heap.write h a ⟨rn.value, n.next⟩) n.next rn.next
            else .ok (h, temp, rhs_temp)
      else .ok (h, temp, rhs_temp)

/-- The statements of `operator=` after its first loop, which ended with the heap `h` and
the pointers `temp` and `rhs_temp`: when the other set has nodes left and this one has not,
the second loop; otherwise `delete_list(temp->next); trailer = temp; trailer->next = nullptr;`.
Then `used = rhs.size(), ++mod_count`. -/
def assign_rest (s rhs : LinkedSet T) (h : Heap T) (temp rhs_temp : Option Nat) :
    Except Fault (LinkedSet T) :=
  match Heap.deref rhs.heap rhs_temp, temp with
  | none, _ => .error .bad_pointer
  | some _, none => .error .bad_pointer
  | some rn, some a =>
    match Heap.cell h a with
    | none => .error .bad_pointer
    | some n =>
      if rn.next.isSome ∧ n.next = none then
        match append_loop rhs.heap (rhs.heap.length + 1) h s.trailer rhs_temp with
        | .error f => .error f
        | .ok r =>
          .ok { heap := r.1, front := s.front, trailer := r.2, used := rhs.size,
                mod_count := s.mod_count + 1 }
      else
        match Heap.delete_loop (h.length + 1) h n.next with
        | .error f => .error f
        | .ok h' =>
          match Heap.cell h' a with
          | none => .error .bad_pointer
          | some n' =>
            .ok { heap := Heap.write h' a ⟨n'.value, none⟩, front := s.front,
                  trailer := some a, used := rhs.size, mod_count := s.mod_count + 2 }

/-- Embeds `LinkedSet::operator=` for two distinct objects (for `this == &rhs` the operator
returns at once and the set is as it was). -/
def assign (s rhs : LinkedSet T) : Except Fault (LinkedSet T) :=
  if rhs.empty then
    match Heap.delete_loop (s.heap.length + 1) s.heap s.front with
    | .error f => .error f
    | .ok h =>
      .ok { heap := Heap.alloc h ⟨default, none⟩, front := some h.length,
            trailer := some h.length, used := 0, mod_count := s.mod_count + 1 }
  else
    match assign_loop rhs.heap (rhs.heap.length + 1) s.heap s.front rhs.front with
    | .error f => .error f
    | .ok r => assign_rest s rhs r.1 r.2.1 r.2.2

/-- The values that the loop `for (const auto &i : s)` yields: the iterator starts at
`front`, ends when it is at `trailer`, and `++` moves it to `current->next` unless that is
null; run for at most the given number of steps. -/
def iterate_loop (h : Heap T) (trailer : Option Nat) : Nat → Option Nat → Except Fault (List T)
  | 0, _ => .error .no_return
  | fuel + 1, current =>
    if current = trailer then .ok []
    else
      match Heap.deref h current with
      | none => .error .bad_pointer
      | some n =>
        match iterate_loop h trailer fuel (if n.next.isSome then n.next else current) with
        | .error f => .error f
        | .ok vs => .ok (n.value :: vs)

/-- The values that iterating over the set yields, in order. -/
def elements (s : LinkedSet T) : Except Fault (List T) :=
  iterate_loop s.heap s.trailer (s.heap.length + 1) s.front

/-- The loop `for (auto &element : i) if (!contains(element)) return false; return true;` of
`contains_all` over a set `i` with nodes `h` and trailer `trailer`: the iterator starts at
`front`, ends when it is at `trailer`, and `++` moves it to `current->next` unless that is
null; run for at most the given number of steps. -/
def contains_all_loop (s : LinkedSet T) (h : Heap T) (trailer : Option Nat) :
    Nat → Option Nat → Except Fault Bool
  | 0, _ => .error .no_return
  | fuel + 1, current =>
    if current = trailer then .ok true
    else
      match Heap.deref h current with
      | none => .error .bad_pointer
      | some n =>
        match s.contains n.value with
        | .error f => .error f
        | .ok false => .ok false
        | .ok true =>
          contains_all_loop s h trailer fuel (if n.next.isSome then n.next else current)

/-- Embeds `LinkedSet::contains_all` for an iterable that is a set. -/
def contains_all (s i : LinkedSet T) : Except Fault Bool :=
  contains_all_loop s i.heap i.trailer (i.heap.length + 1) i.front

/-- Embeds `LinkedSet::operator==` for two distinct objects (for `this == &rhs` the result
is true). -/
def eq (s rhs : LinkedSet T) : Except Fault Bool :=
  if s.used ≠ rhs.size then .ok false else s.contains_all rhs

/-- Embeds `LinkedSet::operator<=` for two distinct objects (for `this == &rhs` the result
is true).  The loop of the source is
`for (const auto &i : rhs) if (!rhs.contains(i)) return false;`. -/
def le (s rhs : LinkedSet T) : Except Fault Bool :=
  if s.used > rhs.size then .ok false else rhs.contains_all rhs

/-- Embeds `LinkedSet::operator<` for two distinct objects (for `this == &rhs` the result is
false).  The loop of the source is
`for (const auto &i: rhs) if (!rhs.contains(i)) return false;`. -/
def lt (s rhs : LinkedSet T) : Except Fault Bool :=
  if s.used ≥ rhs.size then .ok false else rhs.contains_all rhs

/-- Embeds `LinkedSet::operator>=`: `rhs <= *this`. -/
def ge (s rhs : LinkedSet T) : Except Fault Bool := le rhs s

/-- Embeds `LinkedSet::operator>`: `rhs < *this`. -/
def gt (s rhs : LinkedSet T) : Except Fault Bool := lt rhs s

/-- Embeds the constructor `LinkedSet(il)` from an initializer list, which inserts each
element in turn. -/
def of_list (il : List T) : Except Fault (LinkedSet T) :=
  match insert_all new il with
  | .error f => .error f
  | .ok r => .ok r.2

/-- The representation invariant of a set whose nodes before the trailer are at the
addresses, and hold the values, listed in `ns`: following `next` from `front` goes through
these nodes and then reaches the node `trailer` points to, whose `next` is null; no address
and no value occurs twice; and `used` is the number of these nodes. -/
def Rep (s : LinkedSet T) (ns : List (Nat × T)) : Prop :=
  Heap.Seg s.heap s.front ns s.trailer ∧
  (∃ t tv, s.trailer = some t ∧ Heap.cell s.heap t = some ⟨tv, none⟩ ∧
    t ∉ ns.map Prod.fst) ∧
  (ns.map Prod.fst).Nodup ∧ (ns.map Prod.snd).Nodup ∧ s.used = (ns.length : Int)

/-- A set obtained from a default-constructed set by calls of `insert`, `erase`, `clear`,
`insert_all`, `erase_all`, `retain_all`, `operator=` (from a set obtained in the same way)
and the copy constructor, each of which returned. -/
inductive Built : LinkedSet T → Prop where
  | new : Built new
  | insert (s : LinkedSet T) (e : T) (r : Int × LinkedSet T) :
    Built s → s.insert e = .ok r → Built r.2
  | erase (s : LinkedSet T) (e : T) (r : Int × LinkedSet T) :
    Built s → s.erase e = .ok r → Built r.2
  | clear (s s' : LinkedSet T) : Built s → s.clear = .ok s' → Built s'
  | insert_all (s : LinkedSet T) (i : List T) (r : Int × LinkedSet T) :
    Built s → s.insert_all i = .ok r → Built r.2
  | erase_all (s : LinkedSet T) (i : List T) (r : Int × LinkedSet T) :
    Built s → s.erase_all i = .ok r → Built r.2
  | retain_all (s : LinkedSet T) (i : List T) (r : Int × LinkedSet T) :
    Built s → s.retain_all i = .ok r → Built r.2
  | assign (s rhs s' : LinkedSet T) : Built s → Built rhs → s.assign rhs = .ok s' → Built s'
  | copy (s s' : LinkedSet T) : Built s → s.copy = .ok s' → Built s'

end LinkedSet

/-! ## LinkedQueue -/

/-- The instance variables of `LinkedQueue<T>`, with the nodes the queue has allocated. -/
structure LinkedQueue (T : Type) where
  heap : Heap T
  front : Option Nat
  rear : Option Nat
  used : Int
  mod_count : Int
  deriving DecidableEq, Repr

namespace LinkedQueue

variable {T : Type}

/-- Embeds the default constructor: `front` and `rear` are null. -/
def new : LinkedQueue T := { heap := [], front := none, rear := none, used := 0, mod_count := 0 }

/-- Embeds `LinkedQueue::empty`. -/
def empty (q : LinkedQueue T) : Bool := decide (q.used = 0)

/-- Embeds `LinkedQueue::size`. -/
def size (q : LinkedQueue T) : Int := q.used

/-- Embeds `LinkedQueue::peek`. -/
def peek (q : LinkedQueue T) : Except Fault T :=
  if q.empty then .error (.thrown .EmptyError)
  else
    match Heap.deref q.heap q.front with
    | none => .error .bad_pointer
    | some n => .ok n.value

/-- Embeds `LinkedQueue::enqueue`,
`rear = (front ? rear->next : front) = new LN(element); ++mod_count, ++used; return 1;`:
the number returned and the queue after the call. -/
def enqueue (q : LinkedQueue T) (element : T) : Except Fault (Int × LinkedQueue T) :=
  match q.front with
  | none =>
    .ok (1, { heap := Heap.alloc q.heap ⟨element, none⟩, front := some q.heap.length,
              rear := some q.heap.length, used := q.used + 1, mod_count := q.mod_count + 1 })
  | some _ =>
    match q.rear with
    | none => .error .bad_pointer
    | some r =>
      match Heap.cell q.heap r with
      | none => .error .bad_pointer
      | some n =>
        .ok (1, { heap := Heap.alloc (Heap.write q.heap r ⟨n.value, some q.heap.length⟩)
                    ⟨element, none⟩
                  front := q.front
                  rear := some q.heap.length
                  used := q.used + 1
                  mod_count := q.mod_count + 1 })

/-- Embeds `LinkedQueue::dequeue`, which reads `front->value` without a test of `empty()`:
the value returned and the queue after the call. -/
def dequeue (q : LinkedQueue T) : Except Fault (T × LinkedQueue T) :=
  match q.front with
  | none => .error .bad_pointer
  | some a =>
    match Heap.cell q.heap a with
    | none => .error .bad_pointer
    | some n =>
      .ok (n.value, { heap := Heap.delete q.heap a, front := n.next, rear := q.rear,
                      used := q.used - 1, mod_count := q.mod_count + 1 })

/-- Embeds `LinkedQueue::delete_list` called on the member `front`: every node from `front`
on is deleted, `front` is null, `used = 0` and `rear = nullptr`. -/
def delete_list_front (q : LinkedQueue T) : Except Fault (LinkedQueue T) :=
  match Heap.delete_loop (q.heap.length + 1) q.heap q.front with
  | .error f => .error f
  | .ok h => .ok { q with heap := h, front := none, used := 0, rear := none }

/-- Embeds `LinkedQueue::clear`. -/
def clear (q : LinkedQueue T) : Except Fault (LinkedQueue T) :=
  match q.delete_list_front with
  | .error f => .error f
  | .ok q' => .ok { q' with mod_count := q'.mod_count + 1 }

/-- The loop of `operator=` for an empty left side:
`for (LN *rhs_temp = rhs.front->next; rhs_temp; rhs_temp = rhs_temp->next, rear = rear->next)
rear->next = new LN(rhs_temp->value);`
over the nodes `rh` of the other queue, run for at most the given number of nodes; the result
is the heap and `rear` after it. -/
def assign_fill_loop (rh : Heap T) : Nat → Heap T → Option Nat → Option Nat →
    Except Fault (Heap T × Option Nat)
  | _, h, rear, none => .ok (h, rear)
  | 0, _, _, some _ => .error .no_return
  | fuel + 1, h, rear, some b =>
    match Heap.cell rh b, rear with
    | none, _ => .error .bad_pointer
    | some _, none => .error .bad_pointer
    | some rn, some r =>
      match Heap.cell h r with
      | none => .error .bad_pointer
      | some n =>
        assign_fill_loop rh fuel
          (Heap.alloc (Heap.write h r ⟨n.value, some h.length⟩) ⟨rn.value, none⟩)
          (some h.length) rn.next

/-- The loop of `operator=` for a left side that is not empty:
`for (LN* temp = front, *rhs_temp = rhs.front; rhs_temp; rhs_temp = rhs_temp->next) {
temp->value = rhs_temp->value;
if (temp->next) rear = temp = temp->next;
else if (rhs_temp->next) rear = temp = temp->next = new LN(); }`
over the nodes `rh` of the other queue, run for at most the given number of nodes; the result
is the heap and `rear` after it. -/
def assign_over_loop [Inhabited T] (rh : Heap T) :
    Nat → Heap T → Option Nat → Option Nat → Option Nat → Except Fault (Heap T × Option Nat)
  | _, h, _, rear, none => .ok (h, rear)
  | 0, _, _, _, some _ => .error .no_return
  | fuel + 1, h, temp, rear, some b =>
    match Heap.cell rh b, temp with
    | none, _ => .error .bad_pointer
    | some _, none => .error .bad_pointer
    | some rn, some a =>
      match Heap.cell h a with
      | none => .error .bad_pointer
      | some n =>
        if n.next.isSome then
          assign_over_loop rh fuel (Heap.write h a ⟨rn.value, n.next⟩) n.next n.next rn.next
        else if rn.next.isSome then
          assign_over_loop rh fuel
            (Heap.alloc (Heap.write h a ⟨rn.value, some h.length⟩) ⟨default, none⟩)
            (some h.length) (some h.length) rn.next
        else
          assign_over_loop rh fuel (Heap.write h a ⟨rn.value, n.next⟩) temp rear rn.next

/-- Embeds `LinkedQueue::delete_list` called on `rear->next`: the nodes after the node
`rear` are deleted, its `next` is null, `used = 0` and `rear = nullptr`. -/
def delete_list_after_rear (h : Heap T) (rear : Option Nat) : Except Fault (Heap T) :=
  match rear with
  | none => .error .bad_pointer
  | some r =>
    match Heap.cell h r with
    | none => .error .bad_pointer
    | some n =>
      match Heap.delete_loop (h.length + 1) h n.next with
      | .error f => .error f
      | .ok h' =>
        match Heap.cell h' r with
        | none => .error .bad_pointer
        | some n' => .ok (Heap.write h' r ⟨n'.value, none⟩)

/-- Embeds `LinkedQueue::operator=` for two distinct objects (for `this == &rhs` the
operator returns at once and the queue is as it was). -/
def assign [Inhabited T] (q rhs : LinkedQueue T) : Except Fault (LinkedQueue T) :=
  if rhs.empty then q.delete_list_front
  else if q.empty then
    match Heap.deref rhs.heap rhs.front with
    | none => .error .bad_pointer
    | some rn =>
      match assign_fill_loop rhs.heap (rhs.heap.length + 1) (Heap.alloc q.heap ⟨rn.value, none⟩)
          (some q.heap.length) rn.next with
      | .error f => .error f
      | .ok r =>
        .ok { heap := r.1, front := some q.heap.length, rear := r.2, used := rhs.size,
              mod_count := q.mod_count + 1 }
  else
    match assign_over_loop rhs.heap (rhs.heap.length + 1) q.heap q.front q.rear rhs.front with
    | .error f => .error f
    | .ok r =>
      match delete_list_after_rear r.1 r.2 with
      | .error f => .error f
      | .ok h =>
        .ok { heap := h, front := q.front, rear := none, used := rhs.size,
              mod_count := q.mod_count + 1 }

/-- The values that iterating over the queue yields, as in `operator<<`: the iterator starts
at `front`, ends when it is null, and `++` moves it to `current->next`; run for at most the
given number of nodes. -/
def iterate_loop (h : Heap T) : Nat → Option Nat → Except Fault (List T)
  | _, none => .ok []
  | 0, some _ => .error .no_return
  | fuel + 1, some a =>
    match Heap.cell h a with
    | none => .error .bad_pointer
    | some n =>
      match iterate_loop h fuel n.next with
      | .error f => .error f
      | .ok vs => .ok (n.value :: vs)

/-- The values from the front of the queue on, in order. -/
def elements (q : LinkedQueue T) : Except Fault (List T) :=
  iterate_loop q.heap (q.heap.length + 1) q.front

/-- One call of `enqueue` or `dequeue`. -/
inductive Op (T : Type) where
  | enqueue (element : T)
  | dequeue
  deriving DecidableEq, Repr

/-- The values returned by the `dequeue` calls of a sequence of calls, first call first, and
the queue after the sequence; a call that does not return ends the sequence. -/
def run : LinkedQueue T → List (Op T) → Except Fault (List T × LinkedQueue T)
  | q, [] => .ok ([], q)
  | q, .enqueue e :: ops =>
    match q.enqueue e with
    | .error f => .error f
    | .ok r => run r.2 ops
  | q, .dequeue :: ops =>
    match q.dequeue with
    | .error f => .error f
    | .ok r =>
      match run r.2 ops with
      | .error f => .error f
      | .ok r' => .ok (r.1 :: r'.1, r'.2)

/-- The first-in first-out queue of the claim, as a list with the oldest value first: the
values the `dequeue` calls return and the values left, or `none` when `dequeue` is called
with no value left. -/
def fifo_spec : List T → List (Op T) → Option (List T × List T)
  | pending, [] => some ([], pending)
  | pending, .enqueue e :: ops => fifo_spec (pending ++ [e]) ops
  | [], .dequeue :: _ => none
  | x :: pending, .dequeue :: ops =>
    match fifo_spec pending ops with
    | none => none
    | some r => some (x :: r.1, r.2)

/-- Whether a call is a call of `enqueue`. -/
def Op.is_enqueue : Op T → Bool
  | .enqueue _ => true
  | .dequeue => false

/-- The representation invariant of a queue whose nodes are at the addresses, and hold the
values, listed in `ns`: following `next` from `front` goes through these nodes and ends at
null, no address occurs twice, `used` is the number of nodes, and when there is a node,
`rear` points to the last one. -/
def Rep (q : LinkedQueue T) (ns : List (Nat × T)) : Prop :=
  Heap.Seg q.heap q.front ns none ∧ (ns.map Prod.fst).Nodup ∧ q.used = (ns.length : Int) ∧
  (∀ pre x, ns = pre ++ [x] → q.rear = some x.1)

/-- The queue reached from the empty queue by enqueueing the values of the list in turn
(the empty queue should a call not return). -/
def of_list (l : List T) : LinkedQueue T :=
  match run new (l.map Op.enqueue) with
  | .error _ => new
  | .ok r => r.2

end LinkedQueue

/-! ## Sample linked containers -/

/-- The set constructed from the initializer list `l` (the empty set should the constructor
not return). -/
def sample_set (l : List Nat) : LinkedSet Nat :=
  match LinkedSet.of_list l with
  | .ok s => s
  | .error _ => LinkedSet.new

/-- The queue reached from the empty queue by enqueueing the values of `l` in turn. -/
def sample_queue (l : List Nat) : LinkedQueue Nat := LinkedQueue.of_list l

/-- Calls on a queue that empty it and then enqueue again. -/
def sample_queue_ops : List (LinkedQueue.Op Nat) :=
  [.enqueue 1, .enqueue 2, .dequeue, .dequeue, .enqueue 3, .enqueue 4, .dequeue]

end ics

/-! ## Lemmas on the set and map collaborators -/

namespace ics

namespace HashSet
variable {α : Type} [DecidableEq α]

theorem mem_insert (s : HashSet α) (x y : α) : y ∈ insert s x ↔ y ∈ s ∨ y = x := by
  unfold insert
  split
  · constructor
    · intro h; exact Or.inl h
    · rintro (h | rfl) <;> assumption
  · simp

theorem mem_erase (s : HashSet α) (x y : α) : y ∈ erase s x ↔ y ∈ s ∧ y ≠ x := by
  simp [erase]

theorem nodup_insert (s : HashSet α) (x : α) (h : s.Nodup) : (insert s x).Nodup := by
  unfold insert
  split
  · exact h
  · rw [List.nodup_append]
    refine ⟨h, List.nodup_singleton x, ?_⟩
    intro a ha hb
    simp at hb
    subst hb
    contradiction

theorem nodup_erase (s : HashSet α) (x : α) (h : s.Nodup) : (erase s x).Nodup :=
  h.filter _

theorem insert_of_mem (s : HashSet α) (x : α) (h : x ∈ s) : insert s x = s := by
  simp [insert, h]

theorem erase_eq_self_of_not_mem (s : HashSet α) (x : α) (h : x ∉ s) : erase s x = s := by
  unfold erase
  rw [List.filter_eq_self]
  intro a ha
  simp
  rintro rfl
  exact h ha

theorem erase_insert_of_not_mem (s : HashSet α) (x : α) (h : x ∉ s) :
    erase (insert s x) x = s := by
  simp [insert, h, erase, List.filter_append]
  intro a ha
  rintro rfl
  exact h ha

theorem length_erase_of_mem (s : HashSet α) (x : α) (hn : s.Nodup) (h : x ∈ s) :
    (erase s x).length + 1 = s.length := by
  induction s with
  | nil => cases h
  | cons a s ih =>
    rw [List.nodup_cons] at hn
    by_cases hax : a = x
    · subst hax
      have : erase (a :: s) a = s := by
        have := erase_eq_self_of_not_mem s a hn.1
        simpa [erase] using this
      rw [this]; rfl
    · have hx : x ∈ s := by
        rcases List.mem_cons.1 h with h | h
        · exact absurd h.symm hax
        · exact h
      have : erase (a :: s) x = a :: erase s x := by
        simp [erase, hax]
      rw [this]
      simp [ih hn.2 hx]

end HashSet

namespace HashMap
variable {κ β : Type} [DecidableEq κ]

theorem has_key_iff (m : HashMap κ β) (k : κ) : has_key m k = true ↔ k ∈ keys m := by
  simp [has_key]

theorem has_key_eq_false_iff (m : HashMap κ β) (k : κ) : has_key m k = false ↔ k ∉ keys m := by
  simp [has_key]

theorem get?_eq_none_iff (m : HashMap κ β) (k : κ) : get? m k = none ↔ k ∉ keys m := by
  induction m with
  | nil => simp [get?, keys]
  | cons p m ih =>
    obtain ⟨k', v⟩ := p
    by_cases h : k' = k
    · simp [get?, keys, h]
    · have h' : ¬ k = k' := fun e => h e.symm
      simpa [get?, keys, h, h'] using ih

theorem get?_isSome_iff (m : HashMap κ β) (k : κ) : (get? m k).isSome = true ↔ k ∈ keys m := by
  rw [← not_iff_not, ← get?_eq_none_iff]
  cases get? m k <;> simp

theorem mem_keys_of_get? {m : HashMap κ β} {k : κ} {v : β} (h : get? m k = some v) :
    k ∈ keys m := by
  rw [← get?_isSome_iff, h]; rfl

theorem get?_of_mem_keys {m : HashMap κ β} {k : κ} (h : k ∈ keys m) :
    ∃ v, get? m k = some v := by
  rw [← get?_isSome_iff] at h
  exact Option.isSome_iff_exists.1 h

theorem get?_modify (m : HashMap κ β) (k k' : κ) (f : β → β) (d : β) :
    get? (modify m k f d) k' =
      if k = k' then some (f ((get? m k).getD d)) else get? m k' := by
  induction m with
  | nil => simp [modify, get?]
  | cons p m ih =>
    obtain ⟨a, v⟩ := p
    by_cases ha : a = k
    · subst ha
      by_cases hk : a = k'
      · simp [modify, get?, hk]
      · simp [modify, get?, hk]
    · by_cases hk : a = k'
      · subst hk
        have : ¬ k = a := fun e => ha e.symm
        simp [modify, get?, ha, this]
      · simp [modify, get?, ha, hk, ih]

theorem keys_modify (m : HashMap κ β) (k : κ) (f : β → β) (d : β) :
    keys (modify m k f d) = if k ∈ keys m then keys m else keys m ++ [k] := by
  induction m with
  | nil => simp [modify, keys]
  | cons p m ih =>
    obtain ⟨a, v⟩ := p
    by_cases ha : a = k
    · subst ha
      simp [modify, keys]
    · have h' : ¬ k = a := fun e => ha e.symm
      have ih' : List.map Prod.fst (modify m k f d) =
          if k ∈ List.map Prod.fst m then List.map Prod.fst m else List.map Prod.fst m ++ [k] := ih
      simp only [modify, keys, ha, if_false, List.map_cons, List.mem_cons, h', false_or, ih']
      split <;> simp

theorem mem_keys_modify (m : HashMap κ β) (k k' : κ) (f : β → β) (d : β) :
    k' ∈ keys (modify m k f d) ↔ k' ∈ keys m ∨ k' = k := by
  rw [keys_modify]
  split
  · constructor
    · exact Or.inl
    · rintro (h | rfl) <;> assumption
  · simp

theorem nodup_keys_modify (m : HashMap κ β) (k : κ) (f : β → β) (d : β)
    (h : (keys m).Nodup) : (keys (modify m k f d)).Nodup := by
  rw [keys_modify]
  split
  · exact h
  · rename_i hk
    rw [List.nodup_append]
    refine ⟨h, List.nodup_singleton k, ?_⟩
    intro a ha hb
    simp at hb
    subst hb
    exact hk ha

theorem size_modify_of_mem (m : HashMap κ β) (k : κ) (f : β → β) (d : β) (h : k ∈ keys m) :
    size (modify m k f d) = size m := by
  have := congrArg List.length (keys_modify m k f d)
  rw [if_pos h] at this
  simpa [keys, size] using this

theorem size_modify_of_not_mem (m : HashMap κ β) (k : κ) (f : β → β) (d : β) (h : k ∉ keys m) :
    size (modify m k f d) = size m + 1 := by
  have := congrArg List.length (keys_modify m k f d)
  rw [if_neg h] at this
  simpa [keys, size] using this

theorem modify_eq_self (m : HashMap κ β) (k : κ) (f : β → β) (d : β)
    (h : ∀ v, get? m k = some v → f v = v) (hk : k ∈ keys m) : modify m k f d = m := by
  induction m with
  | nil => simp [keys] at hk
  | cons p m ih =>
    obtain ⟨a, v⟩ := p
    by_cases ha : a = k
    · subst ha
      have := h v (by simp [get?])
      simp [modify, this]
    · have hk' : k ∈ keys m := by
        have h' : ¬ k = a := fun e => ha e.symm
        simpa [keys, h'] using hk
      have := ih (fun v hv => h v (by simpa [get?, ha] using hv)) hk'
      simp [modify, ha, this]

theorem modify_not_mem (m : HashMap κ β) (k : κ) (f : β → β) (d : β) (hk : k ∉ keys m) :
    modify m k f d = m ++ [(k, f d)] := by
  induction m with
  | nil => simp [modify]
  | cons p m ih =>
    obtain ⟨a, v⟩ := p
    have ha : ¬ a = k := by
      intro e; apply hk; simp [keys, e]
    have hk' : k ∉ keys m := by
      intro e; apply hk; simp only [keys, List.map_cons, List.mem_cons]; exact Or.inr e
    simp [modify, ha, ih hk']

theorem keys_erase (m : HashMap κ β) (k : κ) :
    keys (erase m k) = (keys m).filter (fun a => decide (a ≠ k)) := by
  simp [keys, erase, List.filter_map, Function.comp_def]

theorem mem_keys_erase (m : HashMap κ β) (k k' : κ) :
    k' ∈ keys (erase m k) ↔ k' ∈ keys m ∧ k' ≠ k := by
  rw [keys_erase]; simp

theorem nodup_keys_erase (m : HashMap κ β) (k : κ) (h : (keys m).Nodup) :
    (keys (erase m k)).Nodup := by
  rw [keys_erase]; exact h.filter _

theorem erase_cons_self (m : HashMap κ β) (k : κ) (v : β) :
    erase ((k, v) :: m) k = erase m k := by
  simp [erase]

theorem erase_cons_ne (m : HashMap κ β) (a k : κ) (v : β) (h : a ≠ k) :
    erase ((a, v) :: m) k = (a, v) :: erase m k := by
  simp [erase, h]

theorem get?_erase (m : HashMap κ β) (k k' : κ) :
    get? (erase m k) k' = if k' = k then none else get? m k' := by
  induction m with
  | nil => simp [erase, get?]
  | cons p m ih =>
    obtain ⟨a, v⟩ := p
    by_cases ha : a = k
    · subst ha
      rw [erase_cons_self, ih]
      by_cases hk : a = k'
      · subst hk
        simp
      · have : ¬ k' = a := fun e => hk e.symm
        simp [get?, hk, this]
    · rw [erase_cons_ne _ _ _ _ ha]
      by_cases hk : a = k'
      · subst hk
        simp [get?, ha]
      · simp [get?, hk, ih]

theorem erase_of_not_mem (m : HashMap κ β) (k : κ) (h : k ∉ keys m) : erase m k = m := by
  unfold erase
  rw [List.filter_eq_self]
  intro a ha
  simp
  rintro rfl
  exact h (List.mem_map_of_mem Prod.fst ha)

theorem size_erase_of_mem (m : HashMap κ β) (k : κ) (hn : (keys m).Nodup) (h : k ∈ keys m) :
    size (erase m k) + 1 = size m := by
  have h1 := HashSet.length_erase_of_mem (keys m) k hn h
  have h2 := congrArg List.length (keys_erase m k)
  simp only [keys, List.length_map] at h1 h2
  simp only [size]
  rw [h2]
  simpa [HashSet.erase, keys] using h1

end HashMap

namespace HashSet

theorem mem_of_subset_of_length_le {α : Type} {l₁ l₂ : List α} (d : l₁.Nodup) (hs : l₁ ⊆ l₂)
    (hl : l₂.length ≤ l₁.length) (a : α) (ha : a ∈ l₂) : a ∈ l₁ :=
  ((List.subperm_of_subset d hs).perm_of_length_le hl).mem_iff.2 ha

theorem length_eq_of_mem_iff {α : Type} {l₁ l₂ : List α} (d₁ : l₁.Nodup) (d₂ : l₂.Nodup)
    (h : ∀ a, a ∈ l₁ ↔ a ∈ l₂) : l₁.length = l₂.length :=
  ((List.perm_ext_iff_of_nodup d₁ d₂).2 h).length_eq

theorem beq_of_mem_iff {α : Type} [DecidableEq α] {s₁ s₂ : HashSet α} (d₁ : s₁.Nodup) (d₂ : s₂.Nodup)
    (h : ∀ a, a ∈ s₁ ↔ a ∈ s₂) : beq s₁ s₂ = true := by
  simp only [beq, size, contains, Bool.and_eq_true, decide_eq_true_eq, List.all_eq_true]
  exact ⟨length_eq_of_mem_iff d₁ d₂ h, fun x hx => (h x).1 hx⟩

end HashSet

namespace HashMap
variable {κ β : Type} [DecidableEq κ]

theorem get?_of_mem {m : HashMap κ β} (hn : (keys m).Nodup) {k : κ} {v : β}
    (h : (k, v) ∈ m) : get? m k = some v := by
  induction m with
  | nil => cases h
  | cons p m ih =>
    obtain ⟨a, w⟩ := p
    simp only [keys, List.map_cons, List.nodup_cons] at hn
    rcases List.mem_cons.1 h with h | h
    · cases h; simp [get?]
    · have hk : k ∈ keys m := List.mem_map_of_mem Prod.fst h
      have hne : ¬ a = k := by
        rintro rfl; exact hn.1 hk
      simp only [get?, hne, if_false]
      exact ih hn.2 h

theorem mem_of_get? {m : HashMap κ β} {k : κ} {v : β} (h : get? m k = some v) :
    (k, v) ∈ m := by
  induction m with
  | nil => simp [get?] at h
  | cons p m ih =>
    obtain ⟨a, w⟩ := p
    by_cases ha : a = k
    · subst ha
      simp only [get?, if_true, Option.some.injEq] at h
      subst h
      exact List.mem_cons_self _ _
    · simp only [get?, ha, if_false] at h
      exact List.mem_cons_of_mem _ (ih h)

theorem mem_keys_iff_of_get?_eq {β' : Type} {m₁ : HashMap κ β} {m₂ : HashMap κ β'}
    (h : ∀ k, (get? m₁ k).isSome = (get? m₂ k).isSome) (k : κ) :
    k ∈ keys m₁ ↔ k ∈ keys m₂ := by
  rw [← get?_isSome_iff, ← get?_isSome_iff, h]

theorem beq_iff [DecidableEq β] (m₁ m₂ : HashMap κ β) (d₁ : (keys m₁).Nodup)
    (d₂ : (keys m₂).Nodup) : beq m₁ m₂ = true ↔ ∀ k, get? m₁ k = get? m₂ k := by
  simp only [beq, Bool.and_eq_true, decide_eq_true_eq, List.all_eq_true]
  constructor
  · rintro ⟨hs, ha⟩ k
    have hsub : keys m₁ ⊆ keys m₂ := by
      intro a ha'
      obtain ⟨v, hv⟩ := get?_of_mem_keys ha'
      exact mem_keys_of_get? (ha (a, v) (mem_of_get? hv))
    have hlen : (keys m₂).length ≤ (keys m₁).length := by
      simp only [keys, List.length_map]
      exact le_of_eq hs.symm
    cases h1 : get? m₁ k with
    | some v => exact (ha (k, v) (mem_of_get? h1)).symm
    | none =>
      symm
      rw [get?_eq_none_iff] at h1 ⊢
      intro hk
      exact h1 (HashSet.mem_of_subset_of_length_le d₁ hsub hlen k hk)
  · intro h
    constructor
    · have := HashSet.length_eq_of_mem_iff d₁ d₂
        (mem_keys_iff_of_get?_eq (fun k => by rw [h k]))
      simpa [keys, size] using this
    · rintro ⟨k, v⟩ hp
      rw [← h k]
      exact get?_of_mem d₁ hp

end HashMap

namespace HashGraph

variable {T : Type}

open HashMap

/-! ## Adjacency records under insertion and removal of an edge key -/

theorem recOK_default (E : List Edge) (n : NodeName)
    (h : ∀ e ∈ E, e.1 ≠ n ∧ e.2 ≠ n) : RecOK E n default := by
  refine ⟨List.nodup_nil, List.nodup_nil, List.nodup_nil, List.nodup_nil, ?_, ?_, ?_, ?_⟩
  · intro e
    constructor
    · intro h'; cases h'
    · rintro ⟨he, rfl⟩; exact absurd rfl (h e he).1
  · intro e
    constructor
    · intro h'; cases h'
    · rintro ⟨he, rfl⟩; exact absurd rfl (h e he).2
  · intro x
    constructor
    · intro h'; cases h'
    · intro he; exact absurd rfl (h _ he).1
  · intro x
    constructor
    · intro h'; cases h'
    · intro he; exact absurd rfl (h _ he).2

theorem Inv.recOK_getD {g : HashGraph T} (hg : Inv g) (n : NodeName) :
    RecOK (keys g.edge_values) n ((get? g.node_values n).getD default) := by
  cases h : get? g.node_values n with
  | some li => exact hg.rec_ok n li h
  | none =>
    rw [get?_eq_none_iff] at h
    apply recOK_default
    intro e he
    constructor
    · rintro rfl; exact h (hg.endpoints e he).1
    · rintro rfl; exact h (hg.endpoints e he).2

theorem recOK_addRec {E E' : List Edge} {o d n : NodeName} {li : LocalInfo}
    (hE : ∀ e, e ∈ E' ↔ e ∈ E ∨ e = (o, d)) (h : RecOK E n li) :
    RecOK E' n (addRec o d n li) := by
  obtain ⟨h1, h2, h3, h4, h5, h6, h7, h8⟩ := h
  refine ⟨?_, ?_, ?_, ?_, ?_, ?_, ?_, ?_⟩
  · simp only [addRec]; split
    · exact HashSet.nodup_insert _ _ h1
    · exact h1
  · simp only [addRec]; split
    · exact HashSet.nodup_insert _ _ h2
    · exact h2
  · simp only [addRec]; split
    · exact HashSet.nodup_insert _ _ h3
    · exact h3
  · simp only [addRec]; split
    · exact HashSet.nodup_insert _ _ h4
    · exact h4
  · intro e
    simp only [addRec]
    split
    · rename_i hn
      subst hn
      rw [HashSet.mem_insert, h5, hE]
      constructor
      · rintro (⟨a, b⟩ | rfl)
        · exact ⟨Or.inl a, b⟩
        · exact ⟨Or.inr rfl, rfl⟩
      · rintro ⟨a | a, b⟩
        · exact Or.inl ⟨a, b⟩
        · exact Or.inr a
    · rename_i hn
      rw [h5, hE]
      constructor
      · rintro ⟨a, b⟩; exact ⟨Or.inl a, b⟩
      · rintro ⟨a | a, b⟩
        · exact ⟨a, b⟩
        · subst a; exact absurd b.symm hn
  · intro e
    simp only [addRec]
    split
    · rename_i hn
      subst hn
      rw [HashSet.mem_insert, h6, hE]
      constructor
      · rintro (⟨a, b⟩ | rfl)
        · exact ⟨Or.inl a, b⟩
        · exact ⟨Or.inr rfl, rfl⟩
      · rintro ⟨a | a, b⟩
        · exact Or.inl ⟨a, b⟩
        · exact Or.inr a
    · rename_i hn
      rw [h6, hE]
      constructor
      · rintro ⟨a, b⟩; exact ⟨Or.inl a, b⟩
      · rintro ⟨a | a, b⟩
        · exact ⟨a, b⟩
        · subst a; exact absurd b.symm hn
  · intro x
    simp only [addRec]
    split
    · rename_i hn
      subst hn
      rw [HashSet.mem_insert, h7, hE]
      simp
    · rename_i hn
      rw [h7, hE]
      simp [hn]
  · intro x
    simp only [addRec]
    split
    · rename_i hn
      subst hn
      rw [HashSet.mem_insert, h8, hE]
      simp
    · rename_i hn
      rw [h8, hE]
      simp [hn]

theorem recOK_remRec {E E' : List Edge} {o d n : NodeName} {li : LocalInfo}
    (hE : ∀ e, e ∈ E' ↔ e ∈ E ∧ e ≠ (o, d)) (h : RecOK E n li) :
    RecOK E' n (remRec o d n li) := by
  obtain ⟨h1, h2, h3, h4, h5, h6, h7, h8⟩ := h
  refine ⟨?_, ?_, ?_, ?_, ?_, ?_, ?_, ?_⟩
  · simp only [remRec]; split
    · exact HashSet.nodup_erase _ _ h1
    · exact h1
  · simp only [remRec]; split
    · exact HashSet.nodup_erase _ _ h2
    · exact h2
  · simp only [remRec]; split
    · exact HashSet.nodup_erase _ _ h3
    · exact h3
  · simp only [remRec]; split
    · exact HashSet.nodup_erase _ _ h4
    · exact h4
  · intro e
    simp only [remRec]
    split
    · rw [HashSet.mem_erase, h5, hE]
      tauto
    · rename_i hn
      rw [h5, hE]
      constructor
      · rintro ⟨a, b⟩
        refine ⟨⟨a, ?_⟩, b⟩
        rintro rfl
        exact hn b.symm
      · rintro ⟨⟨a, _⟩, b⟩; exact ⟨a, b⟩
  · intro e
    simp only [remRec]
    split
    · rw [HashSet.mem_erase, h6, hE]
      tauto
    · rename_i hn
      rw [h6, hE]
      constructor
      · rintro ⟨a, b⟩
        refine ⟨⟨a, ?_⟩, b⟩
        rintro rfl
        exact hn b.symm
      · rintro ⟨⟨a, _⟩, b⟩; exact ⟨a, b⟩
  · intro x
    simp only [remRec]
    split
    · rename_i hn
      subst hn
      rw [HashSet.mem_erase, h7, hE]
      simp
    · rename_i hn
      rw [h7, hE]
      simp [hn]
  · intro x
    simp only [remRec]
    split
    · rename_i hn
      subst hn
      rw [HashSet.mem_erase, h8, hE]
      simp
    · rename_i hn
      rw [h8, hE]
      simp [hn]

/-! ## Effect of the commands on the two maps, and preservation of the invariant -/

theorem has_node_iff (g : HashGraph T) (n : NodeName) :
    g.has_node n = true ↔ n ∈ keys g.node_values := by
  simp [has_node, has_key]

theorem has_edge_iff (g : HashGraph T) (o d : NodeName) :
    g.has_edge o d = true ↔ (o, d) ∈ keys g.edge_values := by
  simp [has_edge, has_key]

theorem inv_empty : Inv (empty_graph : HashGraph T) := by
  refine ⟨List.nodup_nil, List.nodup_nil, ?_, ?_⟩
  · intro n li h; simp [empty_graph, get?] at h
  · intro e he; simp [empty_graph, keys] at he

theorem inv_clear (g : HashGraph T) : Inv g.clear := inv_empty

/-! ### add_node -/

theorem add_node_of_mem (g : HashGraph T) (n : NodeName) (h : n ∈ keys g.node_values) :
    g.add_node n = g := by
  simp [add_node, has_node, has_key, h]

theorem add_node_of_not_mem (g : HashGraph T) (n : NodeName) (h : n ∉ keys g.node_values) :
    g.add_node n = { g with node_values := g.node_values ++ [(n, default)] } := by
  simp [add_node, has_node, has_key, h, modify_not_mem]

theorem add_node_edge_values (g : HashGraph T) (n : NodeName) :
    (g.add_node n).edge_values = g.edge_values := by
  unfold add_node; split <;> rfl

theorem mem_keys_add_node (g : HashGraph T) (n k : NodeName) :
    k ∈ keys (g.add_node n).node_values ↔ k ∈ keys g.node_values ∨ k = n := by
  unfold add_node
  split
  · exact mem_keys_modify _ _ _ _ _
  · rename_i h
    have hn : n ∈ keys g.node_values := by
      simpa [has_node, has_key] using h
    constructor
    · exact Or.inl
    · rintro (h | rfl) <;> assumption

theorem get?_add_node (g : HashGraph T) (n k : NodeName) :
    get? (g.add_node n).node_values k =
      if k = n ∧ n ∉ keys g.node_values then some default else get? g.node_values k := by
  unfold add_node
  split
  · rename_i h
    have hn : n ∉ keys g.node_values := by
      simpa [has_node, has_key] using h
    have hnone : get? g.node_values n = none := (get?_eq_none_iff _ _).2 hn
    simp only [get?_modify, hnone, Option.getD_none, id]
    by_cases hk : n = k
    · subst hk; simp [hn]
    · have : ¬ k = n := fun e => hk e.symm
      simp [hk, this]
  · rename_i h
    have hn : n ∈ keys g.node_values := by
      simpa [has_node, has_key] using h
    simp [hn]

theorem inv_add_node {g : HashGraph T} (hg : Inv g) (n : NodeName) : Inv (g.add_node n) := by
  by_cases hn : n ∈ keys g.node_values
  · rw [add_node_of_mem g n hn]; exact hg
  · refine ⟨?_, ?_, ?_, ?_⟩
    · simp only [add_node, has_node, has_key, hn, decide_False, Bool.not_false, if_true]
      exact nodup_keys_modify _ _ _ _ hg.nodes_nodup
    · rw [add_node_edge_values]; exact hg.edges_nodup
    · intro k li h
      rw [add_node_edge_values]
      rw [get?_add_node] at h
      split at h
      · rename_i hk
        obtain ⟨rfl, _⟩ := hk
        cases h
        have := hg.recOK_getD k
        rwa [(get?_eq_none_iff _ _).2 hn] at this
      · exact hg.rec_ok k li h
    · intro e he
      rw [add_node_edge_values] at he
      have := hg.endpoints e he
      exact ⟨(mem_keys_add_node g n _).2 (Or.inl this.1),
        (mem_keys_add_node g n _).2 (Or.inl this.2)⟩

/-! ### add_edge -/

theorem add_edge_edge_values (g : HashGraph T) (o d : NodeName) (v : T) :
    (g.add_edge o d v).edge_values = modify g.edge_values (o, d) (fun _ => v) v := rfl

theorem mem_keys_add_edge_edges (g : HashGraph T) (o d : NodeName) (v : T) (e : Edge) :
    e ∈ keys (g.add_edge o d v).edge_values ↔ e ∈ keys g.edge_values ∨ e = (o, d) := by
  rw [add_edge_edge_values]; exact mem_keys_modify _ _ _ _ _

theorem mem_keys_add_edge_nodes (g : HashGraph T) (o d : NodeName) (v : T) (n : NodeName) :
    n ∈ keys (g.add_edge o d v).node_values ↔ n ∈ keys g.node_values ∨ n = o ∨ n = d := by
  simp only [add_edge, mem_keys_modify]
  tauto

theorem get?_add_edge_nodes (g : HashGraph T) (o d : NodeName) (v : T) (n : NodeName) :
    get? (g.add_edge o d v).node_values n =
      if n = o ∨ n = d then some (addRec o d n ((get? g.node_values n).getD default))
      else get? g.node_values n := by
  simp only [add_edge, get?_modify]
  by_cases h1 : o = n
  · subst h1
    by_cases h2 : d = o
    · subst h2
      simp [addRec]
    · have h2' : ¬ o = d := fun e => h2 e.symm
      simp [addRec, h2, h2']
  · have h1' : ¬ n = o := fun e => h1 e.symm
    by_cases h2 : d = n
    · subst h2
      simp [addRec, h1, h1']
    · have h2' : ¬ n = d := fun e => h2 e.symm
      simp [h1, h2, h1', h2']

theorem inv_add_edge {g : HashGraph T} (hg : Inv g) (o d : NodeName) (v : T) :
    Inv (g.add_edge o d v) := by
  refine ⟨?_, ?_, ?_, ?_⟩
  · simp only [add_edge]
    iterate 6 apply nodup_keys_modify
    exact hg.nodes_nodup
  · rw [add_edge_edge_values]
    exact nodup_keys_modify _ _ _ _ hg.edges_nodup
  · intro n li h
    have hE := mem_keys_add_edge_edges g o d v
    have h0 := hg.recOK_getD n
    rw [get?_add_edge_nodes] at h
    split at h
    · cases h
      exact recOK_addRec hE h0
    · rename_i hn
      rw [h] at h0
      have := recOK_addRec (o := o) (d := d) hE h0
      have e : addRec o d n li = li := by
        have h1 : ¬ n = o := fun e => hn (Or.inl e)
        have h2 : ¬ n = d := fun e => hn (Or.inr e)
        simp [addRec, h1, h2]
      simpa only [Option.getD_some, e] using this
  · intro e he
    rw [mem_keys_add_edge_edges] at he
    simp only [mem_keys_add_edge_nodes]
    rcases he with he | rfl
    · have := hg.endpoints e he
      exact ⟨Or.inl this.1, Or.inl this.2⟩
    · exact ⟨Or.inr (Or.inl rfl), Or.inr (Or.inr rfl)⟩

/-! ### remove_edge -/

theorem remove_edge_of_not (g : HashGraph T) (o d : NodeName)
    (h : o ∉ keys g.node_values ∨ d ∉ keys g.node_values ∨ (o, d) ∉ keys g.edge_values) :
    g.remove_edge o d = g := by
  unfold remove_edge
  rw [if_pos]
  simp only [has_node, has_edge, has_key, Bool.or_eq_true, Bool.not_eq_true', decide_eq_false_iff_not]
  tauto

theorem remove_edge_edge_values (g : HashGraph T) (o d : NodeName) :
    (g.remove_edge o d).edge_values =
      if o ∈ keys g.node_values ∧ d ∈ keys g.node_values then erase g.edge_values (o, d)
      else g.edge_values := by
  unfold remove_edge
  by_cases ho : o ∈ keys g.node_values
  · by_cases hd : d ∈ keys g.node_values
    · by_cases he : (o, d) ∈ keys g.edge_values
      · simp [has_node, has_edge, has_key, ho, hd, he]
      · simp [has_node, has_edge, has_key, ho, hd, he, erase_of_not_mem]
    · simp [has_node, has_edge, has_key, ho, hd]
  · simp [has_node, has_edge, has_key, ho]

theorem keys_remove_edge_nodes (g : HashGraph T) (o d : NodeName) :
    keys (g.remove_edge o d).node_values = keys g.node_values := by
  unfold remove_edge
  split
  · rfl
  · rename_i h
    simp only [has_node, has_edge, has_key, Bool.or_eq_true, Bool.not_eq_true',
      decide_eq_false_iff_not, not_or, not_not] at h
    obtain ⟨⟨ho, hd⟩, _⟩ := h
    simp only [keys_modify, ho, hd, if_true]

theorem get?_remove_edge_nodes (g : HashGraph T) (o d : NodeName) (n : NodeName)
    (ho : o ∈ keys g.node_values) (hd : d ∈ keys g.node_values)
    (he : (o, d) ∈ keys g.edge_values) :
    get? (g.remove_edge o d).node_values n =
      if n = o ∨ n = d then some (remRec o d n ((get? g.node_values n).getD default))
      else get? g.node_values n := by
  unfold remove_edge
  rw [if_neg (by simp [has_node, has_edge, has_key, ho, hd, he])]
  simp only [get?_modify]
  by_cases h1 : o = n
  · subst h1
    by_cases h2 : d = o
    · subst h2
      simp [remRec]
    · have h2' : ¬ o = d := fun e => h2 e.symm
      simp [remRec, h2, h2']
  · have h1' : ¬ n = o := fun e => h1 e.symm
    by_cases h2 : d = n
    · subst h2
      simp [remRec, h1, h1']
    · have h2' : ¬ n = d := fun e => h2 e.symm
      simp [h1, h2, h1', h2']

theorem Inv.keys_remove_edge_edges {g : HashGraph T} (hg : Inv g) (o d : NodeName) :
    (g.remove_edge o d).edge_values = erase g.edge_values (o, d) := by
  rw [remove_edge_edge_values]
  split
  · rfl
  · rename_i h
    symm
    apply erase_of_not_mem
    intro he
    exact h (hg.endpoints _ he)

theorem inv_remove_edge {g : HashGraph T} (hg : Inv g) (o d : NodeName) :
    Inv (g.remove_edge o d) := by
  by_cases hc : o ∈ keys g.node_values ∧ d ∈ keys g.node_values ∧ (o, d) ∈ keys g.edge_values
  · obtain ⟨ho, hd, he⟩ := hc
    have hE : ∀ e, e ∈ keys (g.remove_edge o d).edge_values ↔
        e ∈ keys g.edge_values ∧ e ≠ (o, d) := by
      intro e
      rw [hg.keys_remove_edge_edges]; exact mem_keys_erase _ _ _
    refine ⟨?_, ?_, ?_, ?_⟩
    · rw [keys_remove_edge_nodes]; exact hg.nodes_nodup
    · rw [hg.keys_remove_edge_edges]; exact nodup_keys_erase _ _ hg.edges_nodup
    · intro n li h
      have h0 := hg.recOK_getD n
      rw [get?_remove_edge_nodes g o d n ho hd he] at h
      split at h
      · cases h
        exact recOK_remRec hE h0
      · rename_i hn
        rw [h] at h0
        have := recOK_remRec (o := o) (d := d) hE h0
        have e : remRec o d n li = li := by
          have h1 : ¬ n = o := fun e => hn (Or.inl e)
          have h2 : ¬ n = d := fun e => hn (Or.inr e)
          simp [remRec, h1, h2]
        simpa only [Option.getD_some, e] using this
    · intro e he'
      rw [keys_remove_edge_nodes]
      exact hg.endpoints e ((hE e).1 he').1
  · rw [remove_edge_of_not]
    · exact hg
    · tauto

/-! ### remove_node -/

theorem fold_remove_edge {g : HashGraph T} (hg : Inv g) (es : List Edge) :
    Inv (es.foldl (fun g e => g.remove_edge e.1 e.2) g) ∧
    keys (es.foldl (fun g e => g.remove_edge e.1 e.2) g).node_values = keys g.node_values ∧
    (es.foldl (fun g e => g.remove_edge e.1 e.2) g).edge_values =
      g.edge_values.filter (fun p => decide (p.1 ∉ es)) := by
  induction es generalizing g with
  | nil => exact ⟨hg, rfl, by simp⟩
  | cons e es ih =>
    obtain ⟨h1, h2, h3⟩ := ih (inv_remove_edge hg e.1 e.2)
    refine ⟨h1, ?_, ?_⟩
    · rw [List.foldl_cons, h2, keys_remove_edge_nodes]
    · rw [List.foldl_cons, h3, hg.keys_remove_edge_edges]
      simp only [erase, List.filter_filter]
      apply List.filter_congr
      intro p _
      simp only [List.mem_cons, not_or, ne_eq, Bool.and_eq_true, decide_eq_true_eq]
      simp [Bool.and_comm]

theorem remove_node_of_not_mem (g : HashGraph T) (n : NodeName)
    (h : n ∉ keys g.node_values) : g.remove_node n = g := by
  simp [remove_node, has_node, has_key, h]

/-- The graph reached by `remove_node` just before the node itself is erased. -/
theorem remove_node_eq (g : HashGraph T) (n : NodeName) (h : n ∈ keys g.node_values) :
    g.remove_node n =
      let es := (((get? g.node_values n).getD default).out_nodes.map (fun x => (n, x))) ++
        (((get? g.node_values n).getD default).in_nodes.map (fun y => (y, n)))
      let g' := es.foldl (fun g e => g.remove_edge e.1 e.2) g
      { g' with node_values := erase g'.node_values n } := by
  simp [remove_node, has_node, has_key, h, List.foldl_append, List.foldl_map]

theorem Inv.remove_node_edge_values {g : HashGraph T} (hg : Inv g) (n : NodeName) :
    (g.remove_node n).edge_values =
      g.edge_values.filter (fun p => decide (p.1.1 ≠ n ∧ p.1.2 ≠ n)) := by
  by_cases h : n ∈ keys g.node_values
  · rw [remove_node_eq g n h]
    simp only
    rw [(fold_remove_edge hg _).2.2]
    apply List.filter_congr
    intro p hp
    have hk : p.1 ∈ keys g.edge_values := List.mem_map_of_mem Prod.fst hp
    obtain ⟨_, _, _, _, _, _, h7, h8⟩ := hg.recOK_getD n
    simp only [List.mem_append, List.mem_map, not_or, not_exists, not_and, ne_eq,
      decide_eq_decide]
    constructor
    · rintro ⟨a, b⟩
      constructor
      · intro e
        apply a p.1.2
        · rw [h7, ← e]; exact hk
        · rw [← e]
      · intro e
        apply b p.1.1
        · rw [h8, ← e]; exact hk
        · rw [← e]
    · rintro ⟨a, b⟩
      constructor
      · intro x _ e
        apply a; rw [← e]
      · intro x _ e
        apply b; rw [← e]
  · rw [remove_node_of_not_mem g n h]
    symm
    rw [List.filter_eq_self]
    intro p hp
    have hk : p.1 ∈ keys g.edge_values := List.mem_map_of_mem Prod.fst hp
    have := hg.endpoints _ hk
    simp only [ne_eq, decide_eq_true_eq]
    constructor
    · intro e; apply h; rw [← e]; exact this.1
    · intro e; apply h; rw [← e]; exact this.2

theorem Inv.keys_remove_node_nodes {g : HashGraph T} (hg : Inv g) (n : NodeName) :
    keys (g.remove_node n).node_values =
      (keys g.node_values).filter (fun a => decide (a ≠ n)) := by
  by_cases h : n ∈ keys g.node_values
  · rw [remove_node_eq g n h]
    simp only
    rw [keys_erase, (fold_remove_edge hg _).2.1]
  · rw [remove_node_of_not_mem g n h]
    symm
    rw [List.filter_eq_self]
    intro a ha
    simp only [ne_eq, decide_eq_true_eq]
    rintro rfl
    exact h ha

theorem mem_keys_filter {κ β : Type} (m : HashMap κ β) (P : κ × β → Bool) (k : κ)
    (h : k ∈ keys (m.filter P)) : ∃ v, (k, v) ∈ m ∧ P (k, v) = true := by
  simp only [keys, List.mem_map, List.mem_filter] at h
  obtain ⟨⟨a, v⟩, ⟨h1, h2⟩, rfl⟩ := h
  exact ⟨v, h1, h2⟩

theorem inv_remove_node {g : HashGraph T} (hg : Inv g) (n : NodeName) :
    Inv (g.remove_node n) := by
  by_cases h : n ∈ keys g.node_values
  · have hev := hg.remove_node_edge_values n
    have hkn := hg.keys_remove_node_nodes n
    have hno : ∀ e ∈ keys (g.remove_node n).edge_values,
        e ∈ keys g.edge_values ∧ e.1 ≠ n ∧ e.2 ≠ n := by
      intro e he
      rw [hev] at he
      obtain ⟨v, h1, h2⟩ := mem_keys_filter _ _ _ he
      refine ⟨List.mem_map_of_mem Prod.fst h1, ?_⟩
      simpa using h2
    rw [remove_node_eq g n h] at hev hkn hno ⊢
    simp only at hev hkn hno ⊢
    obtain ⟨i1, i2, i3⟩ := fold_remove_edge hg
      ((((get? g.node_values n).getD default).out_nodes.map (fun x => (n, x))) ++
        (((get? g.node_values n).getD default).in_nodes.map (fun y => (y, n))))
    refine ⟨?_, i1.edges_nodup, ?_, ?_⟩
    · exact nodup_keys_erase _ _ i1.nodes_nodup
    · intro k li hk
      rw [get?_erase] at hk
      split at hk
      · cases hk
      · exact i1.rec_ok k li hk
    · intro e he
      have h1 := i1.endpoints e he
      have h2 := hno e he
      simp only [mem_keys_erase]
      exact ⟨⟨h1.1, h2.2.1⟩, ⟨h1.2, h2.2.2⟩⟩
  · rw [remove_node_of_not_mem g n h]; exact hg

/-! ### Reachable states -/

theorem inv_step {g : HashGraph T} (hg : Inv g) (c : Cmd T) : Inv (g.step c) := by
  cases c with
  | add_node n => exact inv_add_node hg n
  | add_edge o d v => exact inv_add_edge hg o d v
  | remove_edge o d => exact inv_remove_edge hg o d
  | remove_node n => exact inv_remove_node hg n
  | clear => exact inv_clear g

theorem inv_run {g : HashGraph T} (hg : Inv g) (cs : List (Cmd T)) : Inv (g.run cs) := by
  induction cs generalizing g with
  | nil => exact hg
  | cons c cs ih => exact ih (inv_step hg c)

theorem Reachable.inv {g : HashGraph T} (h : Reachable g) : Inv g := by
  obtain ⟨cs, rfl⟩ := h
  exact inv_run inv_empty cs

/-! ## Queries in terms of the two maps -/

theorem local_info_eq_ok_iff (g : HashGraph T) (n : NodeName) (li : LocalInfo) :
    g.local_info n = .ok li ↔ get? g.node_values n = some li := by
  unfold local_info
  by_cases h : n ∈ keys g.node_values
  · obtain ⟨li', h'⟩ := get?_of_mem_keys h
    simp only [has_node, has_key, h, decide_True, Bool.not_true, Bool.false_eq_true, if_false, h']
    constructor
    · intro e; cases e; rfl
    · intro e; cases e; rfl
  · have h' := (get?_eq_none_iff _ _).2 h
    simp [has_node, has_key, h, h']

theorem local_info_of_has_node (g : HashGraph T) (n : NodeName) (h : g.has_node n = true) :
    ∃ li, g.local_info n = .ok li := by
  rw [has_node_iff] at h
  obtain ⟨li, h'⟩ := get?_of_mem_keys h
  exact ⟨li, (local_info_eq_ok_iff g n li).2 h'⟩

theorem edge_value_eq (g : HashGraph T) (o d : NodeName) :
    g.edge_value o d = stored_outcome (get? g.edge_values (o, d)) := by
  unfold stored_outcome
  unfold edge_value
  by_cases h : (o, d) ∈ keys g.edge_values
  · simp only [has_edge, has_key, h, decide_True, Bool.not_true, Bool.false_eq_true, if_false]
  · have h' := (get?_eq_none_iff _ _).2 h
    simp [has_edge, has_key, h, h']

theorem has_edge_eq (g : HashGraph T) (o d : NodeName) :
    g.has_edge o d = (get? g.edge_values (o, d)).isSome := by
  rw [Bool.eq_iff_iff, has_edge_iff, get?_isSome_iff]

theorem get?_filter_key {κ β : Type} [DecidableEq κ] (m : HashMap κ β) (Q : κ → Bool) (k : κ) :
    get? (m.filter (fun p => Q p.1)) k = if Q k = true then get? m k else none := by
  induction m with
  | nil => simp [get?]
  | cons p m ih =>
    obtain ⟨a, v⟩ := p
    by_cases hq : Q a = true
    · rw [List.filter_cons_of_pos (by simpa using hq)]
      by_cases ha : a = k
      · subst ha; simp [get?, hq]
      · simp [get?, ha, ih]
    · rw [List.filter_cons_of_neg (by simpa using hq)]
      by_cases ha : a = k
      · subst ha; simp [get?, hq, ih]
      · simp [get?, ha, ih]

/-! ## Invariants I1 and I2 in reachable states -/

/-- C1: invariant I1 holds in every reachable state.  For every graph obtained from the empty
graph by a finite sequence of `add_node`, `add_edge`, `remove_edge`, `remove_node` and `clear`
and every edge key `(o, d)` of its edge map: `o` and `d` are nodes, `(o, d)` is in
`out_edges(o)` and in `in_edges(d)`, `d` is in `out_nodes(o)` and `o` is in `in_nodes(d)`. -/
theorem reachable_I1 (g : HashGraph T) (hr : Reachable g) (o d : NodeName)
    (he : g.has_edge o d = true) :
    g.has_node o = true ∧ g.has_node d = true ∧
    (∃ s, g.out_edges o = .ok s ∧ (o, d) ∈ s) ∧
    (∃ s, g.in_edges d = .ok s ∧ (o, d) ∈ s) ∧
    (∃ s, g.out_nodes o = .ok s ∧ d ∈ s) ∧
    (∃ s, g.in_nodes d = .ok s ∧ o ∈ s) := by
  have hg := hr.inv
  rw [has_edge_iff] at he
  obtain ⟨ho, hd⟩ := hg.endpoints _ he
  obtain ⟨lo, hlo⟩ := get?_of_mem_keys ho
  obtain ⟨ld, hld⟩ := get?_of_mem_keys hd
  obtain ⟨_, _, _, _, o5, _, o7, _⟩ := hg.rec_ok o lo hlo
  obtain ⟨_, _, _, _, _, d6, _, d8⟩ := hg.rec_ok d ld hld
  have e1 := (local_info_eq_ok_iff g o lo).2 hlo
  have e2 := (local_info_eq_ok_iff g d ld).2 hld
  refine ⟨(has_node_iff g o).2 ho, (has_node_iff g d).2 hd, ⟨lo.out_edges, ?_, ?_⟩,
    ⟨ld.in_edges, ?_, ?_⟩, ⟨lo.out_nodes, ?_, ?_⟩, ⟨ld.in_nodes, ?_, ?_⟩⟩
  · simp [out_edges, e1, Except.map]
  · exact (o5 _).2 ⟨he, rfl⟩
  · simp [in_edges, e2, Except.map]
  · exact (d6 _).2 ⟨he, rfl⟩
  · simp [out_nodes, e1, Except.map]
  · exact (o7 _).2 he
  · simp [in_nodes, e2, Except.map]
  · exact (d8 _).2 he

/-- C2: invariant I2 holds in every reachable state.  For every graph obtained from the empty
graph by a finite sequence of commands and every node `n`: `out_edges(n)` is exactly the set
of edge keys `(n, x)`, `in_edges(n)` exactly the set of edge keys `(x, n)`, `out_nodes(n)`
exactly the `x` with `(n, x)` an edge and `in_nodes(n)` exactly the `x` with `(x, n)` an edge;
none of the four sets lists an element twice. -/
theorem reachable_I2 (g : HashGraph T) (hr : Reachable g) (n : NodeName)
    (hn : g.has_node n = true) :
    ∃ oe ie ons ins,
      g.out_edges n = .ok oe ∧ g.in_edges n = .ok ie ∧
      g.out_nodes n = .ok ons ∧ g.in_nodes n = .ok ins ∧
      (∀ e : Edge, e ∈ oe ↔ g.has_edge e.1 e.2 = true ∧ e.1 = n) ∧
      (∀ e : Edge, e ∈ ie ↔ g.has_edge e.1 e.2 = true ∧ e.2 = n) ∧
      (∀ x, x ∈ ons ↔ g.has_edge n x = true) ∧
      (∀ x, x ∈ ins ↔ g.has_edge x n = true) ∧
      oe.Nodup ∧ ie.Nodup ∧ ons.Nodup ∧ ins.Nodup := by
  have hg := hr.inv
  rw [has_node_iff] at hn
  obtain ⟨li, hli⟩ := get?_of_mem_keys hn
  obtain ⟨r1, r2, r3, r4, r5, r6, r7, r8⟩ := hg.rec_ok n li hli
  have e1 := (local_info_eq_ok_iff g n li).2 hli
  refine ⟨li.out_edges, li.in_edges, li.out_nodes, li.in_nodes, ?_, ?_, ?_, ?_, ?_, ?_, ?_, ?_,
    r3, r4, r1, r2⟩
  · simp [out_edges, e1, Except.map]
  · simp [in_edges, e1, Except.map]
  · simp [out_nodes, e1, Except.map]
  · simp [in_nodes, e1, Except.map]
  · intro e; rw [r5, has_edge_iff]
  · intro e; rw [r6, has_edge_iff]
  · intro x; rw [r7, has_edge_iff]
  · intro x; rw [r8, has_edge_iff]

/-! ## Removal commands -/

theorem node_count_eq_of_keys {g g' : HashGraph T}
    (h : keys g'.node_values = keys g.node_values) : g'.node_count = g.node_count := by
  have := congrArg List.length h
  simpa [keys, node_count, size] using this

/-- C4: cascade deletion.  For every reachable graph `g` and every name `n` (in particular
every node of `g`), after
`remove_node(n)`: `n` is not a node; no edge key has origin or destination `n`; no remaining
node lists `n` in `out_nodes` or `in_nodes` nor an edge touching `n` in `out_edges` or
`in_edges`; every other node is still a node; every edge not incident to `n` is still present
with the same value. -/
theorem remove_node_cascade (g : HashGraph T) (hr : Reachable g) (n : NodeName) :
    (g.remove_node n).has_node n = false ∧
    (∀ o d, (g.remove_node n).has_edge o d = true → o ≠ n ∧ d ≠ n) ∧
    (∀ m, (g.remove_node n).has_node m = true →
      ∃ li, (g.remove_node n).local_info m = .ok li ∧
        n ∉ li.out_nodes ∧ n ∉ li.in_nodes ∧
        (∀ e ∈ li.out_edges, e.1 ≠ n ∧ e.2 ≠ n) ∧
        (∀ e ∈ li.in_edges, e.1 ≠ n ∧ e.2 ≠ n)) ∧
    (∀ m, m ≠ n → g.has_node m = true → (g.remove_node n).has_node m = true) ∧
    (∀ o d, o ≠ n → d ≠ n →
      (g.remove_node n).has_edge o d = g.has_edge o d ∧
      (g.remove_node n).edge_value o d = g.edge_value o d) := by
  have hg := hr.inv
  have hg' := inv_remove_node hg n
  have hk := hg.keys_remove_node_nodes n
  have hev := hg.remove_node_edge_values n
  have hno : ∀ o d, (g.remove_node n).has_edge o d = true → o ≠ n ∧ d ≠ n := by
    intro o d h
    rw [has_edge_iff, hev] at h
    obtain ⟨v, _, h2⟩ := mem_keys_filter _ _ _ h
    simpa using h2
  have hget : ∀ o d, o ≠ n → d ≠ n →
      get? (g.remove_node n).edge_values (o, d) = get? g.edge_values (o, d) := by
    intro o d ho hd
    rw [hev]
    have := get?_filter_key g.edge_values (fun k => decide (k.1 ≠ n ∧ k.2 ≠ n)) (o, d)
    rw [this]
    simp [ho, hd]
  refine ⟨?_, hno, ?_, ?_, ?_⟩
  · rw [has_node, has_key_eq_false_iff, hk]
    simp
  · intro m hm
    obtain ⟨li, hli⟩ := local_info_of_has_node _ m hm
    refine ⟨li, hli, ?_⟩
    obtain ⟨_, _, _, _, r5, r6, r7, r8⟩ := hg'.rec_ok m li ((local_info_eq_ok_iff _ _ _).1 hli)
    refine ⟨?_, ?_, ?_, ?_⟩
    · intro h
      exact (hno m n ((has_edge_iff _ _ _).2 ((r7 n).1 h))).2 rfl
    · intro h
      exact (hno n m ((has_edge_iff _ _ _).2 ((r8 n).1 h))).1 rfl
    · intro e he
      exact hno e.1 e.2 ((has_edge_iff _ _ _).2 ((r5 e).1 he).1)
    · intro e he
      exact hno e.1 e.2 ((has_edge_iff _ _ _).2 ((r6 e).1 he).1)
  · intro m hm h
    rw [has_node_iff] at h ⊢
    rw [hk]
    simp [h, hm]
  · intro o d ho hd
    refine ⟨?_, ?_⟩
    · rw [has_edge_eq, has_edge_eq, hget o d ho hd]
    · rw [edge_value_eq, edge_value_eq, hget o d ho hd]

/-- C5: for every reachable graph in which the edge `(o, d)` exists, after `remove_edge(o, d)`:
`has_edge(o, d)` is false, `edge_count()` is one less, `(o, d)` is gone from `out_edges(o)` and
`in_edges(d)`, `d` from `out_nodes(o)` and `o` from `in_nodes(d)`, the node set and
`node_count()` are unchanged (so `o` and `d` are still nodes), and every other edge and its
value is unchanged. -/
theorem remove_edge_effect (g : HashGraph T) (hr : Reachable g) (o d : NodeName)
    (he : g.has_edge o d = true) :
    (g.remove_edge o d).has_edge o d = false ∧
    (g.remove_edge o d).edge_count + 1 = g.edge_count ∧
    (∃ li, (g.remove_edge o d).local_info o = .ok li ∧
      (o, d) ∉ li.out_edges ∧ d ∉ li.out_nodes) ∧
    (∃ li, (g.remove_edge o d).local_info d = .ok li ∧
      (o, d) ∉ li.in_edges ∧ o ∉ li.in_nodes) ∧
    (g.remove_edge o d).has_node o = true ∧ (g.remove_edge o d).has_node d = true ∧
    (∀ m, (g.remove_edge o d).has_node m = g.has_node m) ∧
    (g.remove_edge o d).node_count = g.node_count ∧
    (∀ o' d', (o', d') ≠ (o, d) →
      (g.remove_edge o d).has_edge o' d' = g.has_edge o' d' ∧
      (g.remove_edge o d).edge_value o' d' = g.edge_value o' d') := by
  have hg := hr.inv
  have hg' := inv_remove_edge hg o d
  have hev := hg.keys_remove_edge_edges o d
  have hk := keys_remove_edge_nodes g o d
  rw [has_edge_iff] at he
  obtain ⟨ho, hd⟩ := hg.endpoints _ he
  have hno : (o, d) ∉ keys (g.remove_edge o d).edge_values := by
    rw [hev, mem_keys_erase]; simp
  have hnode : ∀ m, (g.remove_edge o d).has_node m = g.has_node m := by
    intro m; simp only [has_node, has_key, hk]
  have ho' : (g.remove_edge o d).has_node o = true := by
    rw [hnode]; exact (has_node_iff g o).2 ho
  have hd' : (g.remove_edge o d).has_node d = true := by
    rw [hnode]; exact (has_node_iff g d).2 hd
  refine ⟨?_, ?_, ?_, ?_, ho', hd', hnode, node_count_eq_of_keys hk, ?_⟩
  · rw [has_edge, has_key_eq_false_iff]; exact hno
  · simp only [edge_count, hev]
    exact size_erase_of_mem _ _ hg.edges_nodup he
  · obtain ⟨li, hli⟩ := local_info_of_has_node _ o ho'
    obtain ⟨_, _, _, _, r5, _, r7, _⟩ := hg'.rec_ok o li ((local_info_eq_ok_iff _ _ _).1 hli)
    exact ⟨li, hli, fun h => hno ((r5 _).1 h).1, fun h => hno ((r7 _).1 h)⟩
  · obtain ⟨li, hli⟩ := local_info_of_has_node _ d hd'
    obtain ⟨_, _, _, _, _, r6, _, r8⟩ := hg'.rec_ok d li ((local_info_eq_ok_iff _ _ _).1 hli)
    exact ⟨li, hli, fun h => hno ((r6 _).1 h).1, fun h => hno ((r8 _).1 h)⟩
  · intro o' d' hne
    have hget : get? (g.remove_edge o d).edge_values (o', d') = get? g.edge_values (o', d') := by
      rw [hev, get?_erase, if_neg hne]
    refine ⟨?_, ?_⟩
    · rw [has_edge_eq, has_edge_eq, hget]
    · rw [edge_value_eq, edge_value_eq, hget]

/-- C6: commands on missing entities are no-ops.  For every graph, `remove_edge(o, d)` when `o`
is not a node, or `d` is not a node, or `(o, d)` is not an edge, and `remove_node(n)` when `n`
is not a node, return the graph state unchanged (both commands are total: there is no failure
outcome). -/
theorem remove_missing_noop (g : HashGraph T) (o d n : NodeName) :
    ((g.has_node o = false ∨ g.has_node d = false ∨ g.has_edge o d = false) →
      g.remove_edge o d = g) ∧
    (g.has_node n = false → g.remove_node n = g) := by
  constructor
  · intro h
    apply remove_edge_of_not
    simpa only [has_node, has_edge, has_key_eq_false_iff] using h
  · intro h
    apply remove_node_of_not_mem
    simpa only [has_node, has_key_eq_false_iff] using h

/-! ## Insertion commands -/

theorem get?_add_edge_edges (g : HashGraph T) (o d : NodeName) (v : T) (e : Edge) :
    get? (g.add_edge o d v).edge_values e =
      if e = (o, d) then some v else get? g.edge_values e := by
  rw [add_edge_edge_values, get?_modify]
  by_cases h : (o, d) = e
  · subst h; simp
  · have : ¬ e = (o, d) := fun e' => h e'.symm
    simp [h, this]

theorem add_edge_upsert_aux (g : HashGraph T) (o d : NodeName) (v : T) :
    (g.add_edge o d v).has_node o = true ∧ (g.add_edge o d v).has_node d = true ∧
    (g.add_edge o d v).has_edge o d = true ∧
    (g.add_edge o d v).edge_value o d = .ok v ∧
    (∃ s, (g.add_edge o d v).out_edges o = .ok s ∧ (o, d) ∈ s) ∧
    (∃ s, (g.add_edge o d v).in_edges d = .ok s ∧ (o, d) ∈ s) ∧
    (∃ s, (g.add_edge o d v).out_nodes o = .ok s ∧ d ∈ s) ∧
    (∃ s, (g.add_edge o d v).in_nodes d = .ok s ∧ o ∈ s) ∧
    (∀ o' d', (o', d') ≠ (o, d) →
      (g.add_edge o d v).has_edge o' d' = g.has_edge o' d' ∧
      (g.add_edge o d v).edge_value o' d' = g.edge_value o' d') := by
  have ho := (get?_add_edge_nodes g o d v o).trans (if_pos (Or.inl rfl))
  have hd := (get?_add_edge_nodes g o d v d).trans (if_pos (Or.inr rfl))
  have eo := (local_info_eq_ok_iff _ _ _).2 ho
  have ed := (local_info_eq_ok_iff _ _ _).2 hd
  refine ⟨?_, ?_, ?_, ?_, ?_, ?_, ?_, ?_, ?_⟩
  · rw [has_node_iff, mem_keys_add_edge_nodes]; exact Or.inr (Or.inl rfl)
  · rw [has_node_iff, mem_keys_add_edge_nodes]; exact Or.inr (Or.inr rfl)
  · rw [has_edge_iff, mem_keys_add_edge_edges]; exact Or.inr rfl
  · rw [edge_value_eq, get?_add_edge_edges, if_pos rfl]; rfl
  · refine ⟨_, by simp only [out_edges, eo, Except.map]; rfl, ?_⟩
    simp [addRec, HashSet.mem_insert]
  · refine ⟨_, by simp only [in_edges, ed, Except.map]; rfl, ?_⟩
    simp [addRec, HashSet.mem_insert]
  · refine ⟨_, by simp only [out_nodes, eo, Except.map]; rfl, ?_⟩
    simp [addRec, HashSet.mem_insert]
  · refine ⟨_, by simp only [in_nodes, ed, Except.map]; rfl, ?_⟩
    simp [addRec, HashSet.mem_insert]
  · intro o' d' hne
    have hget := (get?_add_edge_edges g o d v (o', d')).trans (if_neg hne)
    refine ⟨?_, ?_⟩
    · rw [has_edge_eq, has_edge_eq, hget]
    · rw [edge_value_eq, edge_value_eq, hget]

theorem add_edge_node_values_eq_self (g : HashGraph T) (o d : NodeName) (v : T)
    (lo ld : LocalInfo)
    (ho : get? g.node_values o = some lo) (hd : get? g.node_values d = some ld)
    (h1 : (o, d) ∈ lo.out_edges) (h2 : d ∈ lo.out_nodes)
    (h3 : (o, d) ∈ ld.in_edges) (h4 : o ∈ ld.in_nodes) :
    (g.add_edge o d v).node_values = g.node_values := by
  have ko := mem_keys_of_get? ho
  have kd := mem_keys_of_get? hd
  unfold add_edge
  simp only
  have e1 : modify g.node_values o id default = g.node_values :=
    modify_eq_self _ _ _ _ (fun _ _ => rfl) ko
  rw [e1]
  have e2 : modify g.node_values d id default = g.node_values :=
    modify_eq_self _ _ _ _ (fun _ _ => rfl) kd
  rw [e2]
  have e3 : modify g.node_values o
      (fun li => { li with out_edges := HashSet.insert li.out_edges (o, d) }) default
      = g.node_values := by
    apply modify_eq_self _ _ _ _ _ ko
    intro li hli
    rw [ho] at hli; cases hli
    simp [HashSet.insert_of_mem _ _ h1]
  rw [e3]
  have e4 : modify g.node_values d
      (fun li => { li with in_edges := HashSet.insert li.in_edges (o, d) }) default
      = g.node_values := by
    apply modify_eq_self _ _ _ _ _ kd
    intro li hli
    rw [hd] at hli; cases hli
    simp [HashSet.insert_of_mem _ _ h3]
  rw [e4]
  have e5 : modify g.node_values o
      (fun li => { li with out_nodes := HashSet.insert li.out_nodes d }) default
      = g.node_values := by
    apply modify_eq_self _ _ _ _ _ ko
    intro li hli
    rw [ho] at hli; cases hli
    simp [HashSet.insert_of_mem _ _ h2]
  rw [e5]
  have e6 : modify g.node_values d
      (fun li => { li with in_nodes := HashSet.insert li.in_nodes o }) default
      = g.node_values := by
    apply modify_eq_self _ _ _ _ _ kd
    intro li hli
    rw [hd] at hli; cases hli
    simp [HashSet.insert_of_mem _ _ h4]
  rw [e6]

theorem modify_const_idem {κ β : Type} [DecidableEq κ] (m : HashMap κ β) (k : κ) (v : β) :
    modify (modify m k (fun _ => v) v) k (fun _ => v) v = modify m k (fun _ => v) v := by
  apply modify_eq_self
  · intro w hw
    rw [get?_modify, if_pos rfl] at hw
    cases hw; rfl
  · rw [mem_keys_modify]; exact Or.inr rfl

theorem add_edge_idem (g : HashGraph T) (o d : NodeName) (v : T) :
    (g.add_edge o d v).add_edge o d v = g.add_edge o d v := by
  have ho := (get?_add_edge_nodes g o d v o).trans (if_pos (Or.inl rfl))
  have hd := (get?_add_edge_nodes g o d v d).trans (if_pos (Or.inr rfl))
  have hn := add_edge_node_values_eq_self (g.add_edge o d v) o d v _ _ ho hd
    (by simp [addRec, HashSet.mem_insert]) (by simp [addRec, HashSet.mem_insert])
    (by simp [addRec, HashSet.mem_insert]) (by simp [addRec, HashSet.mem_insert])
  have he : ((g.add_edge o d v).add_edge o d v).edge_values = (g.add_edge o d v).edge_values := by
    rw [add_edge_edge_values, add_edge_edge_values, modify_const_idem]
  calc (g.add_edge o d v).add_edge o d v
      = ⟨((g.add_edge o d v).add_edge o d v).node_values,
          ((g.add_edge o d v).add_edge o d v).edge_values⟩ := rfl
    _ = ⟨(g.add_edge o d v).node_values, (g.add_edge o d v).edge_values⟩ := by rw [hn, he]

/-- C7: `add_edge` is an upsert that materialises its end points.  For every graph, names `o`,
`d` and value `v`, after `add_edge(o, d, v)`: `o` and `d` are nodes, `(o, d)` is an edge with
value `v`, `(o, d)` is in `out_edges(o)` and `in_edges(d)`, `d` is in `out_nodes(o)`, `o` is in
`in_nodes(d)`, and every other edge key is present exactly when it was, with its old value. -/
theorem add_edge_upsert (g : HashGraph T) (o d : NodeName) (v : T) :
    (g.add_edge o d v).has_node o = true ∧ (g.add_edge o d v).has_node d = true ∧
    (g.add_edge o d v).has_edge o d = true ∧
    (g.add_edge o d v).edge_value o d = .ok v ∧
    (∃ s, (g.add_edge o d v).out_edges o = .ok s ∧ (o, d) ∈ s) ∧
    (∃ s, (g.add_edge o d v).in_edges d = .ok s ∧ (o, d) ∈ s) ∧
    (∃ s, (g.add_edge o d v).out_nodes o = .ok s ∧ d ∈ s) ∧
    (∃ s, (g.add_edge o d v).in_nodes d = .ok s ∧ o ∈ s) ∧
    (∀ o' d', (o', d') ≠ (o, d) →
      (g.add_edge o d v).has_edge o' d' = g.has_edge o' d' ∧
      (g.add_edge o d v).edge_value o' d' = g.edge_value o' d') :=
  add_edge_upsert_aux g o d v

/-- C8: `add_edge` on an existing key only overwrites the value.  For every reachable graph in
which `(o, d)` already is an edge, after `add_edge(o, d, v)` the node map (node set and all
four adjacency sets of every node) is unchanged, so is the list of edge keys, `node_count()`
and `edge_count()`; the value of `(o, d)` is `v` and every other edge keeps its value.
Applying `add_edge(o, d, v)` twice gives the same state as applying it once. -/
theorem add_edge_existing (g : HashGraph T) (hr : Reachable g) (o d : NodeName) (v : T)
    (he : g.has_edge o d = true) :
    (g.add_edge o d v).node_values = g.node_values ∧
    keys (g.add_edge o d v).edge_values = keys g.edge_values ∧
    (g.add_edge o d v).node_count = g.node_count ∧
    (g.add_edge o d v).edge_count = g.edge_count ∧
    (g.add_edge o d v).edge_value o d = .ok v ∧
    (∀ o' d', (o', d') ≠ (o, d) →
      (g.add_edge o d v).edge_value o' d' = g.edge_value o' d') ∧
    (g.add_edge o d v).add_edge o d v = g.add_edge o d v := by
  have hg := hr.inv
  rw [has_edge_iff] at he
  obtain ⟨ko, kd⟩ := hg.endpoints _ he
  obtain ⟨lo, hlo⟩ := get?_of_mem_keys ko
  obtain ⟨ld, hld⟩ := get?_of_mem_keys kd
  obtain ⟨_, _, _, _, o5, _, o7, _⟩ := hg.rec_ok o lo hlo
  obtain ⟨_, _, _, _, _, d6, _, d8⟩ := hg.rec_ok d ld hld
  have hn := add_edge_node_values_eq_self g o d v lo ld hlo hld
    ((o5 _).2 ⟨he, rfl⟩) ((o7 _).2 he) ((d6 _).2 ⟨he, rfl⟩) ((d8 _).2 he)
  have hk : keys (g.add_edge o d v).edge_values = keys g.edge_values := by
    rw [add_edge_edge_values, keys_modify, if_pos he]
  have up := add_edge_upsert_aux g o d v
  refine ⟨hn, hk, ?_, ?_, up.2.2.2.1, ?_, add_edge_idem g o d v⟩
  · simp only [node_count, hn]
  · have := congrArg List.length hk
    simpa [keys, edge_count, size] using this
  · intro o' d' hne
    exact (up.2.2.2.2.2.2.2.2 o' d' hne).2

/-- C9: `add_node` is idempotent.  For every graph and name `x`: if `x` is a node,
`add_node(x)` leaves the state unchanged; otherwise it enters `x` with four empty adjacency
sets, `node_count()` grows by one, the edge map and every other node's adjacency record are
unchanged.  `add_node(x)` twice equals `add_node(x)` once. -/
theorem add_node_idempotent (g : HashGraph T) (x : NodeName) :
    (g.has_node x = true → g.add_node x = g) ∧
    (g.has_node x = false →
      (g.add_node x).has_node x = true ∧
      (g.add_node x).local_info x =
        .ok { out_nodes := [], in_nodes := [], out_edges := [], in_edges := [] } ∧
      (g.add_node x).node_count = g.node_count + 1 ∧
      (g.add_node x).edge_values = g.edge_values ∧
      (∀ n, n ≠ x → (g.add_node x).has_node n = g.has_node n ∧
        (g.add_node x).local_info n = g.local_info n)) ∧
    (g.add_node x).add_node x = g.add_node x := by
  refine ⟨?_, ?_, ?_⟩
  · intro h
    exact add_node_of_mem g x ((has_node_iff g x).1 h)
  · intro h
    have hx : x ∉ keys g.node_values := by
      simpa only [has_node, has_key_eq_false_iff] using h
    refine ⟨?_, ?_, ?_, add_node_edge_values g x, ?_⟩
    · rw [has_node_iff, mem_keys_add_node]; exact Or.inr rfl
    · rw [local_info_eq_ok_iff, get?_add_node, if_pos ⟨rfl, hx⟩]; rfl
    · rw [add_node_of_not_mem g x hx]
      simp [node_count, size]
    · intro n hn
      have hget : get? (g.add_node x).node_values n = get? g.node_values n := by
        rw [get?_add_node, if_neg (fun h' => hn h'.1)]
      have hhas : (g.add_node x).has_node n = g.has_node n := by
        rw [Bool.eq_iff_iff, has_node_iff, has_node_iff, mem_keys_add_node]
        simp [hn]
      refine ⟨hhas, ?_⟩
      unfold local_info
      rw [hhas, hget]
  · apply add_node_of_mem
    rw [mem_keys_add_node]; exact Or.inr rfl

/-! ## Loading, and the stored value of an edge -/

theorem run_append (g : HashGraph T) (cs cs' : List (Cmd T)) :
    g.run (cs ++ cs') = (g.run cs).run cs' := by
  simp [run, List.foldl_append]

theorem run_cons (g : HashGraph T) (c : Cmd T) (cs : List (Cmd T)) :
    g.run (c :: cs) = (g.step c).run cs := rfl

theorem load_nodes_eq_run (g : HashGraph T) (lines : List String) :
    load_nodes g lines =
      (g.run (load_node_cmds (T := T) lines).1, (load_node_cmds (T := T) lines).2) := by
  induction lines generalizing g with
  | nil => rfl
  | cons line rest ih =>
    unfold load_nodes load_node_cmds
    split
    · rw [ih]; rfl
    · rfl

theorem load_edges_eq_run (extract : String → Option T) (separator : String)
    (g : HashGraph T) (lines : List String) :
    load_edges extract separator g lines =
      (load_edge_cmds extract separator lines).map (fun cs => g.run cs) := by
  induction lines generalizing g with
  | nil => rfl
  | cons line rest ih =>
    unfold load_edges load_edge_cmds
    split
    · rename_i s0 s1 s2 tl heq
      cases extract s2 with
      | none => rfl
      | some t =>
        simp only
        rw [ih]
        cases load_edge_cmds extract separator rest <;> rfl
    · rfl

theorem load_eq_run (extract : String → Option T) (g : HashGraph T)
    (text separator : String) :
    load extract g text separator =
      (load_cmds extract text separator).map (fun cs => g.run cs) := by
  unfold load load_cmds
  simp only [load_nodes_eq_run, load_edges_eq_run]
  cases load_edge_cmds extract separator (load_node_cmds (T := T) (getlines text.data [])).2 with
  | none => rfl
  | some cs => simp [run_append]

theorem get?_run_rev (rcs : List (Cmd T)) (e : Edge) :
    get? ((empty_graph : HashGraph T).run rcs.reverse).edge_values e =
      spec_last_stored_rev rcs e := by
  induction rcs generalizing e with
  | nil => rfl
  | cons c rcs ih =>
    have hinv : Inv ((empty_graph : HashGraph T).run rcs.reverse) := inv_run inv_empty _
    rw [List.reverse_cons, run_append]
    cases c with
    | add_node n =>
      show get? (((empty_graph : HashGraph T).run rcs.reverse).add_node n).edge_values e = _
      rw [add_node_edge_values, ih]; rfl
    | add_edge o d v =>
      show get? (((empty_graph : HashGraph T).run rcs.reverse).add_edge o d v).edge_values e = _
      rw [get?_add_edge_edges, ih]; rfl
    | remove_edge o d =>
      show get? (((empty_graph : HashGraph T).run rcs.reverse).remove_edge o d).edge_values e = _
      rw [hinv.keys_remove_edge_edges, get?_erase, ih]; rfl
    | remove_node n =>
      show get? (((empty_graph : HashGraph T).run rcs.reverse).remove_node n).edge_values e = _
      rw [hinv.remove_node_edge_values]
      have := get?_filter_key ((empty_graph : HashGraph T).run rcs.reverse).edge_values
        (fun k => decide (k.1 ≠ n ∧ k.2 ≠ n)) e
      rw [this, ih]
      simp only [spec_last_stored_rev]
      by_cases h1 : e.1 = n
      · simp [h1]
      · by_cases h2 : e.2 = n
        · simp [h2]
        · simp [h1, h2]
    | clear => rfl

theorem get?_run (cs : List (Cmd T)) (e : Edge) :
    get? ((empty_graph : HashGraph T).run cs).edge_values e = spec_last_stored cs e := by
  have := get?_run_rev cs.reverse e
  rwa [List.reverse_reverse] at this

/-- C10: `edge_value(o, d)` fails with `GraphError` exactly when `(o, d)` is not in the edge
map, and otherwise returns a value; on a graph built from the empty graph by a command
sequence it returns the value most recently stored for `(o, d)` (and fails when nothing is
stored); a successful `load` acts as the `add_node` and `add_edge` commands of its lines, so
the same holds after it. -/
theorem edge_value_spec :
    (∀ (g : HashGraph T) (o d : NodeName),
      (g.edge_value o d = .error .edge_not_in_graph ↔ g.has_edge o d = false) ∧
      (g.has_edge o d = true → ∃ v, g.edge_value o d = .ok v)) ∧
    (∀ (cs : List (Cmd T)) (o d : NodeName),
      (run empty_graph cs).edge_value o d =
        stored_outcome (spec_last_stored cs (o, d))) ∧
    (∀ (extract : String → Option T) (cs : List (Cmd T)) (text separator : String)
      (g' : HashGraph T),
      load extract (run empty_graph cs) text separator = some g' →
      ∃ lcs, load_cmds extract text separator = some lcs ∧
        g' = run empty_graph (cs ++ lcs) ∧
        ∀ o d, g'.edge_value o d =
          stored_outcome (spec_last_stored (cs ++ lcs) (o, d))) := by
  have key : ∀ (cs : List (Cmd T)) (o d : NodeName),
      (run empty_graph cs).edge_value o d =
        stored_outcome (spec_last_stored cs (o, d)) := by
    intro cs o d
    rw [edge_value_eq, get?_run]
  refine ⟨?_, key, ?_⟩
  · intro g o d
    constructor
    · rw [edge_value_eq, has_edge_eq]
      cases get? g.edge_values (o, d) <;> simp [stored_outcome]
    · intro h
      rw [has_edge_iff] at h
      obtain ⟨v, hv⟩ := get?_of_mem_keys h
      exact ⟨v, by rw [edge_value_eq, hv]; rfl⟩
  · intro extract cs text separator g' h
    rw [load_eq_run] at h
    cases hl : load_cmds extract text separator with
    | none => rw [hl] at h; cases h
    | some lcs =>
      rw [hl] at h
      simp only [Option.map_some', Option.some.injEq] at h
      have e : g' = run empty_graph (cs ++ lcs) := by rw [run_append]; exact h.symm
      refine ⟨lcs, rfl, e, ?_⟩
      intro o d
      rw [e]
      exact key _ o d

/-! ## The statements at sample graphs -/

/-- C1 at the triangle graph and its edge A→B. -/
theorem reachable_I1_witness :
    Reachable triangle ∧ triangle.has_edge "A" "B" = true ∧
    (triangle.has_node "A" = true ∧ triangle.has_node "B" = true ∧
      (∃ s, triangle.out_edges "A" = .ok s ∧ ("A", "B") ∈ s) ∧
      (∃ s, triangle.in_edges "B" = .ok s ∧ ("A", "B") ∈ s) ∧
      (∃ s, triangle.out_nodes "A" = .ok s ∧ "B" ∈ s) ∧
      (∃ s, triangle.in_nodes "B" = .ok s ∧ "A" ∈ s)) :=
  ⟨⟨triangle_cmds, rfl⟩, by decide,
    reachable_I1 triangle ⟨triangle_cmds, rfl⟩ "A" "B" (by decide)⟩

/-- C2 at the triangle graph and its node B. -/
theorem reachable_I2_witness :
    Reachable triangle ∧ triangle.has_node "B" = true ∧
    ∃ oe ie ons ins,
      triangle.out_edges "B" = .ok oe ∧ triangle.in_edges "B" = .ok ie ∧
      triangle.out_nodes "B" = .ok ons ∧ triangle.in_nodes "B" = .ok ins ∧
      (∀ e : Edge, e ∈ oe ↔ triangle.has_edge e.1 e.2 = true ∧ e.1 = "B") ∧
      (∀ e : Edge, e ∈ ie ↔ triangle.has_edge e.1 e.2 = true ∧ e.2 = "B") ∧
      (∀ x, x ∈ ons ↔ triangle.has_edge "B" x = true) ∧
      (∀ x, x ∈ ins ↔ triangle.has_edge x "B" = true) ∧
      oe.Nodup ∧ ie.Nodup ∧ ons.Nodup ∧ ins.Nodup :=
  ⟨⟨triangle_cmds, rfl⟩, by decide,
    reachable_I2 triangle ⟨triangle_cmds, rfl⟩ "B" (by decide)⟩

/-- C3 at the graph with nodes a, b and the edge a→b of value 5, separator `;`: `store`
writes the edge line `a/b;5`, which `load` splits at `;` into the two fields `a/b` and `5`,
so the read of the third field has no result and no graph equal to the stored one is
loaded. -/
theorem store_load_round_trip_fails :
    Reachable ab_graph ∧
    store toString ab_graph ";" = "a\nb\nNODESABOVEEDGESBELOW\na/b;5" ∧
    split "a/b;5" ";" = ["a/b", "5"] ∧
    load extract_nat empty_graph (store toString ab_graph ";") ";" = none ∧
    ¬ ∃ h, load extract_nat empty_graph (store toString ab_graph ";") ";" = some h ∧
      h.beq ab_graph = true :=
  ⟨⟨_, rfl⟩, by decide, by decide, by decide, by
    rintro ⟨h, h1, _⟩
    have h2 : load extract_nat empty_graph (store toString ab_graph ";") ";" = none := by decide
    rw [h2] at h1
    cases h1⟩

/-- C4 at the triangle graph: removing B leaves the single edge C→A. -/
theorem remove_node_cascade_witness :
    Reachable triangle ∧
    (triangle.remove_node "B").edge_count = 1 ∧
    (triangle.remove_node "B").edge_value "C" "A" = .ok 3 ∧
    (triangle.remove_node "B").has_edge "A" "B" = false ∧
    (triangle.remove_node "B").has_edge "B" "C" = false ∧
    (triangle.remove_node "B").has_node "B" = false ∧
    (∀ o d, (triangle.remove_node "B").has_edge o d = true → o ≠ "B" ∧ d ≠ "B") ∧
    (∀ m, m ≠ "B" → triangle.has_node m = true →
      (triangle.remove_node "B").has_node m = true) :=
  ⟨⟨triangle_cmds, rfl⟩, by decide, by rfl, by decide, by decide,
    (remove_node_cascade triangle ⟨triangle_cmds, rfl⟩ "B").1,
    (remove_node_cascade triangle ⟨triangle_cmds, rfl⟩ "B").2.1,
    (remove_node_cascade triangle ⟨triangle_cmds, rfl⟩ "B").2.2.2.1⟩

/-- C5 at the triangle graph and its edge A→B. -/
theorem remove_edge_effect_witness :
    Reachable triangle ∧ triangle.has_edge "A" "B" = true ∧
    (triangle.remove_edge "A" "B").has_edge "A" "B" = false ∧
    (triangle.remove_edge "A" "B").edge_count + 1 = triangle.edge_count :=
  ⟨⟨triangle_cmds, rfl⟩, by decide,
    (remove_edge_effect triangle ⟨triangle_cmds, rfl⟩ "A" "B" (by decide)).1,
    (remove_edge_effect triangle ⟨triangle_cmds, rfl⟩ "A" "B" (by decide)).2.1⟩

/-- C6 at the triangle graph: A→C is not an edge and Z is not a node. -/
theorem remove_missing_noop_witness :
    triangle.has_edge "A" "C" = false ∧ triangle.has_node "Z" = false ∧
    triangle.remove_edge "A" "C" = triangle ∧ triangle.remove_node "Z" = triangle :=
  ⟨by decide, by decide,
    (remove_missing_noop triangle "A" "C" "Z").1 (Or.inr (Or.inr (by decide))),
    (remove_missing_noop triangle "A" "C" "Z").2 (by decide)⟩

/-- C7 at the triangle graph: adding A→C keeps the value of A→B. -/
theorem add_edge_upsert_witness :
    (("A", "B") : Edge) ≠ ("A", "C") ∧
    (triangle.add_edge "A" "C" 9).edge_value "A" "C" = .ok 9 ∧
    (triangle.add_edge "A" "C" 9).edge_value "A" "B" = triangle.edge_value "A" "B" :=
  ⟨by decide, (add_edge_upsert triangle "A" "C" 9).2.2.2.1,
    ((add_edge_upsert triangle "A" "C" 9).2.2.2.2.2.2.2.2 "A" "B" (by decide)).2⟩

/-- C8 at the triangle graph: overwriting the value of A→B. -/
theorem add_edge_existing_witness :
    Reachable triangle ∧ triangle.has_edge "A" "B" = true ∧
    (triangle.add_edge "A" "B" 9).node_values = triangle.node_values ∧
    (triangle.add_edge "A" "B" 9).edge_count = triangle.edge_count ∧
    (triangle.add_edge "A" "B" 9).edge_value "A" "B" = .ok 9 :=
  ⟨⟨triangle_cmds, rfl⟩, by decide,
    (add_edge_existing triangle ⟨triangle_cmds, rfl⟩ "A" "B" 9 (by decide)).1,
    (add_edge_existing triangle ⟨triangle_cmds, rfl⟩ "A" "B" 9 (by decide)).2.2.2.1,
    (add_edge_existing triangle ⟨triangle_cmds, rfl⟩ "A" "B" 9 (by decide)).2.2.2.2.1⟩

/-- C9 at the triangle graph: A is a node, Z is not. -/
theorem add_node_idempotent_witness :
    triangle.has_node "A" = true ∧ triangle.add_node "A" = triangle ∧
    triangle.has_node "Z" = false ∧
    (triangle.add_node "Z").node_count = triangle.node_count + 1 :=
  ⟨by decide, (add_node_idempotent triangle "A").1 (by decide), by decide,
    ((add_node_idempotent triangle "Z").2.1 (by decide)).2.2.1⟩

/-- C10 at the triangle graph: the edge A→C is absent, and loading one edge line onto the
triangle stores its value. -/
theorem edge_value_spec_witness :
    triangle.has_edge "A" "C" = false ∧
    triangle.edge_value "A" "C" = .error .edge_not_in_graph ∧
    load extract_nat (run empty_graph triangle_cmds) "NODESABOVEEDGESBELOW\nA;B;42" ";" =
      some (triangle.add_edge "A" "B" 42) ∧
    ∃ lcs, load_cmds extract_nat "NODESABOVEEDGESBELOW\nA;B;42" ";" = some lcs ∧
      triangle.add_edge "A" "B" 42 = run empty_graph (triangle_cmds ++ lcs) ∧
      ∀ o d, (triangle.add_edge "A" "B" 42).edge_value o d =
        stored_outcome (spec_last_stored (triangle_cmds ++ lcs) (o, d)) :=
  ⟨by decide, ((edge_value_spec (T := Nat)).1 triangle "A" "C").1.2 (by decide), by decide,
    (edge_value_spec (T := Nat)).2.2 extract_nat triangle_cmds
      "NODESABOVEEDGESBELOW\nA;B;42" ";" (triangle.add_edge "A" "B" 42) (by decide)⟩

/-! ## Node queries, degrees, and the example scenario -/

theorem local_info_of_not_has_node (g : HashGraph T) (n : NodeName)
    (h : g.has_node n = false) : g.local_info n = .error .node_not_in_graph := by
  simp [local_info, h]

/-- C11: each of `in_degree`, `out_degree`, `degree`, `out_nodes`, `in_nodes`, `out_edges` and
`in_edges` fails with `GraphError` exactly when its argument is not a node; when the node is
present it returns the corresponding size or set of the adjacency record stored for the
node. -/
theorem node_queries_spec (g : HashGraph T) (n : NodeName) :
    (g.has_node n = false →
      g.in_degree n = .error .node_not_in_graph ∧
      g.out_degree n = .error .node_not_in_graph ∧
      g.degree n = .error .node_not_in_graph ∧
      g.out_nodes n = .error .node_not_in_graph ∧
      g.in_nodes n = .error .node_not_in_graph ∧
      g.out_edges n = .error .node_not_in_graph ∧
      g.in_edges n = .error .node_not_in_graph) ∧
    (g.has_node n = true →
      ∃ li, get? g.node_values n = some li ∧
        g.in_degree n = .ok (HashSet.size li.in_edges) ∧
        g.out_degree n = .ok (HashSet.size li.out_edges) ∧
        g.degree n = .ok (HashSet.size li.in_edges + HashSet.size li.out_edges) ∧
        g.out_nodes n = .ok li.out_nodes ∧
        g.in_nodes n = .ok li.in_nodes ∧
        g.out_edges n = .ok li.out_edges ∧
        g.in_edges n = .ok li.in_edges) := by
  constructor
  · intro h
    have e := local_info_of_not_has_node g n h
    simp only [in_degree, out_degree, degree, out_nodes, in_nodes, out_edges, in_edges, e]
    exact ⟨rfl, rfl, rfl, rfl, rfl, rfl, rfl⟩
  · intro h
    obtain ⟨li, e⟩ := local_info_of_has_node g n h
    refine ⟨li, (local_info_eq_ok_iff g n li).1 e, ?_⟩
    simp only [in_degree, out_degree, degree, out_nodes, in_nodes, out_edges, in_edges, e]
    exact ⟨rfl, rfl, rfl, rfl, rfl, rfl, rfl⟩

theorem length_eq_countP_of_mem_iff {α : Type} [DecidableEq α] (l E : List α) (p : α → Bool)
    (hl : l.Nodup) (hE : E.Nodup) (h : ∀ a, a ∈ l ↔ a ∈ E ∧ p a = true) :
    l.length = E.countP p := by
  rw [List.countP_eq_length_filter]
  apply List.Perm.length_eq
  rw [List.perm_ext_iff_of_nodup hl (hE.filter _)]
  intro a
  rw [h, List.mem_filter]

theorem Inv.degrees {g : HashGraph T} (hg : Inv g) (n : NodeName) (li : LocalInfo)
    (h : get? g.node_values n = some li) :
    HashSet.size li.out_edges = (keys g.edge_values).countP (fun e => decide (e.1 = n)) ∧
    HashSet.size li.in_edges = (keys g.edge_values).countP (fun e => decide (e.2 = n)) ∧
    HashSet.size li.out_nodes = HashSet.size li.out_edges ∧
    HashSet.size li.in_nodes = HashSet.size li.in_edges := by
  obtain ⟨r1, r2, r3, r4, r5, r6, r7, r8⟩ := hg.rec_ok n li h
  have ho : HashSet.size li.out_edges =
      (keys g.edge_values).countP (fun e => decide (e.1 = n)) := by
    apply length_eq_countP_of_mem_iff _ _ _ r3 hg.edges_nodup
    intro e; rw [r5]; simp
  have hi : HashSet.size li.in_edges =
      (keys g.edge_values).countP (fun e => decide (e.2 = n)) := by
    apply length_eq_countP_of_mem_iff _ _ _ r4 hg.edges_nodup
    intro e; rw [r6]; simp
  refine ⟨ho, hi, ?_, ?_⟩
  · have h1 : (li.out_nodes.map (fun x => (n, x))).Nodup :=
      r1.map (fun a b e => (Prod.mk.inj e).2)
    have := length_eq_countP_of_mem_iff (li.out_nodes.map (fun x => (n, x)))
      (keys g.edge_values) (fun e => decide (e.1 = n)) h1 hg.edges_nodup (by
        intro e
        simp only [List.mem_map, decide_eq_true_eq]
        constructor
        · rintro ⟨x, hx, rfl⟩
          exact ⟨(r7 x).1 hx, rfl⟩
        · rintro ⟨he, rfl⟩
          exact ⟨e.2, (r7 e.2).2 he, rfl⟩)
    rw [List.length_map] at this
    exact this.trans ho.symm
  · have h1 : (li.in_nodes.map (fun x => (x, n))).Nodup :=
      r2.map (fun a b e => (Prod.mk.inj e).1)
    have := length_eq_countP_of_mem_iff (li.in_nodes.map (fun x => (x, n)))
      (keys g.edge_values) (fun e => decide (e.2 = n)) h1 hg.edges_nodup (by
        intro e
        simp only [List.mem_map, decide_eq_true_eq]
        constructor
        · rintro ⟨x, hx, rfl⟩
          exact ⟨(r8 x).1 hx, rfl⟩
        · rintro ⟨he, rfl⟩
          exact ⟨e.1, (r8 e.1).2 he, rfl⟩)
    rw [List.length_map] at this
    exact this.trans hi.symm

/-- C12: degree arithmetic.  For every reachable graph and every node `n`, `out_degree(n)` is
the number of edge-map keys with origin `n`, `in_degree(n)` the number of edge-map keys with
destination `n`, and `degree(n)` is their sum; a self-loop `(n, n)` is a key of both kinds and
so counts once in each. -/
theorem degree_arithmetic (g : HashGraph T) (hr : Reachable g) (n : NodeName)
    (hn : g.has_node n = true) :
    g.out_degree n = .ok ((keys g.edge_values).countP (fun e => decide (e.1 = n))) ∧
    g.in_degree n = .ok ((keys g.edge_values).countP (fun e => decide (e.2 = n))) ∧
    g.degree n = .ok ((keys g.edge_values).countP (fun e => decide (e.2 = n)) +
      (keys g.edge_values).countP (fun e => decide (e.1 = n))) ∧
    (∀ i o, g.in_degree n = .ok i → g.out_degree n = .ok o → g.degree n = .ok (i + o)) := by
  obtain ⟨li, e⟩ := local_info_of_has_node g n hn
  obtain ⟨ho, hi, _, _⟩ := hr.inv.degrees n li ((local_info_eq_ok_iff g n li).1 e)
  simp only [in_degree, out_degree, degree, e]
  refine ⟨?_, ?_, ?_, ?_⟩
  · rw [← ho]; rfl
  · rw [← hi]; rfl
  · rw [← ho, ← hi]; rfl
  · intro i o h1 h2
    cases h1; cases h2; rfl

/-- C20: the example scenario on `HashGraph<int>`.  From the empty graph, `add_node("a")`,
`add_edge("a","b",5)`, `add_edge("b","c",7)` give `node_count() == 3`, `edge_count() == 2`,
`out_degree("a") == 1`, `in_degree("c") == 1` and `edge_value("a","b") == 5`; a following
`remove_edge("a","b")` gives `edge_count() == 1`, `has_edge("a","b") == false` and
`has_node("a") == true`. -/
theorem example_scenario :
    scenario = (((empty_graph : HashGraph Int).add_node "a").add_edge "a" "b" 5).add_edge
      "b" "c" 7 ∧
    scenario.node_count = 3 ∧ scenario.edge_count = 2 ∧
    scenario.out_degree "a" = .ok 1 ∧ scenario.in_degree "c" = .ok 1 ∧
    scenario.edge_value "a" "b" = .ok 5 ∧
    (scenario.remove_edge "a" "b").edge_count = 1 ∧
    (scenario.remove_edge "a" "b").has_edge "a" "b" = false ∧
    (scenario.remove_edge "a" "b").has_node "a" = true :=
  ⟨rfl, by decide, by decide, by rfl, by rfl, by rfl, by decide, by decide, by decide⟩

/-! ## Equality of graphs -/

theorem Inv.mapsWF {g : HashGraph T} (hg : Inv g) : MapsWF g :=
  ⟨hg.nodes_nodup, hg.edges_nodup⟩

theorem stored_outcome_inj {a b : Option T} (h : stored_outcome a = stored_outcome b) :
    a = b := by
  cases a <;> cases b <;> simp [stored_outcome] at h ⊢
  exact h

theorem edge_value_eq_iff (g h : HashGraph T) (o d : NodeName) :
    g.edge_value o d = h.edge_value o d ↔
      get? g.edge_values (o, d) = get? h.edge_values (o, d) := by
  rw [edge_value_eq, edge_value_eq]
  exact ⟨stored_outcome_inj, fun e => by rw [e]⟩

theorem beq_iff_maps [DecidableEq T] (g h : HashGraph T) (hg : MapsWF g) (hh : MapsWF h) :
    g.beq h = true ↔
      (∀ n, n ∈ keys g.node_values ↔ n ∈ keys h.node_values) ∧
      (∀ e, get? g.edge_values e = get? h.edge_values e) := by
  unfold HashGraph.beq
  constructor
  · intro hb
    split at hb
    · cases hb
    · rename_i hs
      split at hb
      · cases hb
      · rename_i ha
        simp only [ne_eq, not_not] at hs
        simp only [List.any_eq_true, Bool.not_eq_true', not_exists, not_and,
          Bool.not_eq_false, has_key_iff] at ha
        have hsub : keys g.node_values ⊆ keys h.node_values := by
          intro a ha'
          obtain ⟨v, hv⟩ := get?_of_mem_keys ha'
          exact ha (a, v) (mem_of_get? hv)
        have hlen : (keys h.node_values).length ≤ (keys g.node_values).length := by
          simp only [keys, List.length_map]
          exact le_of_eq hs.symm
        refine ⟨fun n => ⟨fun hn => hsub hn,
          HashSet.mem_of_subset_of_length_le hg.1 hsub hlen n⟩, ?_⟩
        exact (HashMap.beq_iff _ _ hg.2 hh.2).1 hb
  · rintro ⟨hn, he⟩
    have hs : size g.node_values = size h.node_values := by
      have := HashSet.length_eq_of_mem_iff hg.1 hh.1 hn
      simpa [keys, size] using this
    rw [if_neg (by simp [hs])]
    rw [if_neg]
    · exact (HashMap.beq_iff _ _ hg.2 hh.2).2 he
    · simp only [List.any_eq_true, Bool.not_eq_true', not_exists, not_and,
        Bool.not_eq_false, has_key_iff]
      intro p hp
      exact (hn p.1).1 (List.mem_map_of_mem Prod.fst hp)

theorem has_node_eq_iff (g h : HashGraph T) (n : NodeName) :
    g.has_node n = h.has_node n ↔ (n ∈ keys g.node_values ↔ n ∈ keys h.node_values) := by
  rw [Bool.eq_iff_iff, has_node_iff, has_node_iff]

theorem beq_iff_queries [DecidableEq T] (g h : HashGraph T) (hg : MapsWF g) (hh : MapsWF h) :
    g.beq h = true ↔
      (∀ n, g.has_node n = h.has_node n) ∧
      (∀ o d, g.has_edge o d = h.has_edge o d ∧ g.edge_value o d = h.edge_value o d) := by
  rw [beq_iff_maps g h hg hh]
  constructor
  · rintro ⟨hn, he⟩
    refine ⟨fun n => (has_node_eq_iff g h n).2 (hn n), fun o d => ⟨?_, ?_⟩⟩
    · rw [has_edge_eq, has_edge_eq, he]
    · rw [edge_value_eq_iff, he]
  · rintro ⟨hn, he⟩
    refine ⟨fun n => (has_node_eq_iff g h n).1 (hn n), ?_⟩
    rintro ⟨o, d⟩
    exact (edge_value_eq_iff g h o d).1 (he o d).2

/-- C13: graph equality.  For all graphs `g` and `h` (each of their maps holding a key once, as
hash maps do), `g == h` is true exactly when `g` and `h` have the same node names and the same
edge map (the same edge keys, each with an equal value); `g != h` is its negation. -/
theorem graph_equality [DecidableEq T] (g h : HashGraph T) (hg : MapsWF g) (hh : MapsWF h) :
    (g.beq h = true ↔
      (∀ n, g.has_node n = h.has_node n) ∧
      (∀ o d, g.has_edge o d = h.has_edge o d ∧ g.edge_value o d = h.edge_value o d)) ∧
    g.bne h = !g.beq h :=
  ⟨beq_iff_queries g h hg hh, rfl⟩

theorem recOK_ext {E₁ E₂ : List Edge} {n : NodeName} {li₁ li₂ : LocalInfo}
    (hE : ∀ e, e ∈ E₁ ↔ e ∈ E₂) (h₁ : RecOK E₁ n li₁) (h₂ : RecOK E₂ n li₂) :
    li₁.beq li₂ = true ∧
    (∀ x, x ∈ li₁.out_nodes ↔ x ∈ li₂.out_nodes) ∧
    (∀ x, x ∈ li₁.in_nodes ↔ x ∈ li₂.in_nodes) ∧
    (∀ e, e ∈ li₁.out_edges ↔ e ∈ li₂.out_edges) ∧
    (∀ e, e ∈ li₁.in_edges ↔ e ∈ li₂.in_edges) := by
  obtain ⟨_, _, a3, a4, a5, a6, a7, a8⟩ := h₁
  obtain ⟨_, _, b3, b4, b5, b6, b7, b8⟩ := h₂
  have ho : ∀ e, e ∈ li₁.out_edges ↔ e ∈ li₂.out_edges := fun e => by rw [a5, b5, hE]
  have hi : ∀ e, e ∈ li₁.in_edges ↔ e ∈ li₂.in_edges := fun e => by rw [a6, b6, hE]
  refine ⟨?_, fun x => by rw [a7, b7, hE], fun x => by rw [a8, b8, hE], ho, hi⟩
  simp only [LocalInfo.beq, Bool.and_eq_true]
  exact ⟨HashSet.beq_of_mem_iff a4 b4 hi, HashSet.beq_of_mem_iff a3 b3 ho⟩

theorem beq_add_edge_false [DecidableEq T] {g h : HashGraph T} (hg : Inv g) (hh : Inv h)
    (o d : NodeName) (v : T) (hgo : g.has_edge o d = false)
    (he : ∀ e, get? g.edge_values e = get? h.edge_values e) :
    (g.add_edge o d v).beq h = false ∧ h.beq (g.add_edge o d v) = false := by
  have hnone : get? g.edge_values (o, d) = none := by
    rw [get?_eq_none_iff]
    simpa only [has_edge, has_key_eq_false_iff] using hgo
  have hsome : get? (g.add_edge o d v).edge_values (o, d) = some v := by
    rw [get?_add_edge_edges, if_pos rfl]
  have hg' := (inv_add_edge hg o d v).mapsWF
  constructor
  · rw [Bool.eq_false_iff]
    intro hb
    have := ((beq_iff_maps _ _ hg' hh.mapsWF).1 hb).2 (o, d)
    rw [hsome, ← he, hnone] at this
    cases this
  · rw [Bool.eq_false_iff]
    intro hb
    have := ((beq_iff_maps _ _ hh.mapsWF hg').1 hb).2 (o, d)
    rw [hsome, ← he, hnone] at this
    cases this

/-- C14: equality is independent of the operation order.  If two command sequences applied to
empty graphs end with the same node names and the same edge map, the two graphs compare equal
with `==`, and the adjacency records of every node compare equal and hold the same elements
in each of the four sets; and if `add_edge(o, d, v)` with `(o, d)` not an existing edge is
then applied to exactly one of the two graphs, they compare unequal (in either operand
order). -/
theorem equality_order_independent [DecidableEq T] (cs₁ cs₂ : List (Cmd T))
    (hn : ∀ n, (run empty_graph cs₁).has_node n = (run empty_graph cs₂).has_node n)
    (he : ∀ o d, (run empty_graph cs₁).edge_value o d = (run empty_graph cs₂).edge_value o d) :
    (run empty_graph cs₁).beq (run empty_graph cs₂) = true ∧
    (∀ n li₁ li₂, (run empty_graph cs₁).local_info n = .ok li₁ →
      (run empty_graph cs₂).local_info n = .ok li₂ →
      li₁.beq li₂ = true ∧
      (∀ x, x ∈ li₁.out_nodes ↔ x ∈ li₂.out_nodes) ∧
      (∀ x, x ∈ li₁.in_nodes ↔ x ∈ li₂.in_nodes) ∧
      (∀ e, e ∈ li₁.out_edges ↔ e ∈ li₂.out_edges) ∧
      (∀ e, e ∈ li₁.in_edges ↔ e ∈ li₂.in_edges)) ∧
    (∀ o d v, (run empty_graph cs₁).has_edge o d = false →
      ((run empty_graph cs₁).add_edge o d v).beq (run empty_graph cs₂) = false ∧
      (run empty_graph cs₂).beq ((run empty_graph cs₁).add_edge o d v) = false ∧
      ((run empty_graph cs₂).add_edge o d v).beq (run empty_graph cs₁) = false ∧
      (run empty_graph cs₁).beq ((run empty_graph cs₂).add_edge o d v) = false) := by
  have i₁ : Inv (run (empty_graph : HashGraph T) cs₁) := inv_run inv_empty cs₁
  have i₂ : Inv (run (empty_graph : HashGraph T) cs₂) := inv_run inv_empty cs₂
  have hget : ∀ e, get? (run empty_graph cs₁).edge_values e =
      get? (run empty_graph cs₂).edge_values e := by
    rintro ⟨o, d⟩
    exact (edge_value_eq_iff _ _ o d).1 (he o d)
  have hkeys : ∀ e, e ∈ keys (run empty_graph cs₁).edge_values ↔
      e ∈ keys (run empty_graph cs₂).edge_values :=
    mem_keys_iff_of_get?_eq (fun k => by rw [hget k])
  refine ⟨?_, ?_, ?_⟩
  · rw [beq_iff_maps _ _ i₁.mapsWF i₂.mapsWF]
    exact ⟨fun n => (has_node_eq_iff _ _ n).1 (hn n), hget⟩
  · intro n li₁ li₂ h₁ h₂
    exact recOK_ext hkeys (i₁.rec_ok n li₁ ((local_info_eq_ok_iff _ _ _).1 h₁))
      (i₂.rec_ok n li₂ ((local_info_eq_ok_iff _ _ _).1 h₂))
  · intro o d v ho
    have ho₂ : (run empty_graph cs₂).has_edge o d = false := by
      rw [has_edge_eq] at ho ⊢
      rw [← hget]; exact ho
    have a := beq_add_edge_false i₁ i₂ o d v ho hget
    have b := beq_add_edge_false i₂ i₁ o d v ho₂ (fun e => (hget e).symm)
    exact ⟨a.1, a.2, b.1, b.2⟩

/-! ## Clearing and removing every node -/

theorem remove_nodes_spec {g : HashGraph T} (hg : Inv g) (ns : List NodeName) :
    Inv (g.remove_nodes ns) ∧
    keys (g.remove_nodes ns).node_values =
      (keys g.node_values).filter (fun a => decide (a ∉ ns)) ∧
    (g.remove_nodes ns).edge_values =
      g.edge_values.filter (fun p => decide (p.1.1 ∉ ns ∧ p.1.2 ∉ ns)) := by
  induction ns generalizing g with
  | nil => exact ⟨hg, by simp [remove_nodes], by simp [remove_nodes]⟩
  | cons n ns ih =>
    obtain ⟨h1, h2, h3⟩ := ih (inv_remove_node hg n)
    have e : g.remove_nodes (n :: ns) = (g.remove_node n).remove_nodes ns := rfl
    rw [e]
    refine ⟨h1, ?_, ?_⟩
    · rw [h2, hg.keys_remove_node_nodes, List.filter_filter]
      apply List.filter_congr
      intro a _
      rw [Bool.eq_iff_iff]
      simp only [List.mem_cons, not_or, ne_eq, Bool.and_eq_true, decide_eq_true_eq]
      tauto
    · rw [h3, hg.remove_node_edge_values, List.filter_filter]
      apply List.filter_congr
      intro p _
      rw [Bool.eq_iff_iff]
      simp only [List.mem_cons, not_or, ne_eq, Bool.and_eq_true, decide_eq_true_eq]
      tauto

/-- C15: `clear` empties both indices and is equivalent to repeated `remove_node`.  For every
reachable graph `g`, after `clear()` `node_count()` and `edge_count()` are 0 and `empty()` is
true, and the state is the one obtained by calling `remove_node` on the names of any list
that contains every node of `g`, in the order of the list. -/
theorem clear_eq_remove_all (g : HashGraph T) (hr : Reachable g) :
    g.clear.node_count = 0 ∧ g.clear.edge_count = 0 ∧ g.clear.empty = true ∧
    ∀ ns : List NodeName, (∀ n, g.has_node n = true → n ∈ ns) →
      g.remove_nodes ns = g.clear := by
  refine ⟨rfl, rfl, rfl, ?_⟩
  intro ns hns
  have hg := hr.inv
  obtain ⟨_, h2, h3⟩ := remove_nodes_spec hg ns
  have hn : (g.remove_nodes ns).node_values = [] := by
    have : keys (g.remove_nodes ns).node_values = [] := by
      rw [h2, List.filter_eq_nil_iff]
      intro a ha
      simp only [decide_eq_true_eq, not_not]
      exact hns a ((has_node_iff g a).2 ha)
    exact List.map_eq_nil_iff.1 this
  have he : (g.remove_nodes ns).edge_values = [] := by
    rw [h3, List.filter_eq_nil_iff]
    intro p hp
    have hk : p.1 ∈ keys g.edge_values := List.mem_map_of_mem Prod.fst hp
    have := hns p.1.1 ((has_node_iff g _).2 (hg.endpoints _ hk).1)
    simp [this]
  calc g.remove_nodes ns
      = ⟨(g.remove_nodes ns).node_values, (g.remove_nodes ns).edge_values⟩ := rfl
    _ = ⟨[], []⟩ := by rw [hn, he]

/-! ## Loading as an additive merge -/

theorem get?_append {κ β : Type} [DecidableEq κ] (l₁ l₂ : HashMap κ β) (k : κ) :
    get? (l₁ ++ l₂) k = (get? l₁ k).or (get? l₂ k) := by
  induction l₁ with
  | nil => simp [get?]
  | cons p l ih =>
    obtain ⟨a, v⟩ := p
    by_cases h : a = k
    · simp [get?, h]
    · simp [get?, h, ih]

theorem spec_last_value_cons (p : Edge × T) (l : List (Edge × T)) (e : Edge) :
    spec_last_value (p :: l) e =
      (spec_last_value l e).or (if p.1 = e then some p.2 else none) := by
  simp only [spec_last_value, List.reverse_cons, get?_append]
  congr 1

theorem spec_last_value_eq_none_iff (l : List (Edge × T)) (e : Edge) :
    spec_last_value l e = none ↔ e ∉ keys l := by
  rw [spec_last_value, get?_eq_none_iff]
  simp [keys]

theorem load_node_cmds_adds (lines : List String) :
    ∀ c ∈ (load_node_cmds (T := T) lines).1, c.adds = true := by
  induction lines with
  | nil => intro c hc; cases hc
  | cons line rest ih =>
    unfold load_node_cmds
    split
    · intro c hc
      rcases List.mem_cons.1 hc with rfl | hc
      · rfl
      · exact ih c hc
    · intro c hc; cases hc

theorem load_edge_cmds_adds (extract : String → Option T) (separator : String)
    (lines : List String) (cs : List (Cmd T))
    (h : load_edge_cmds extract separator lines = some cs) :
    ∀ c ∈ cs, c.adds = true := by
  induction lines generalizing cs with
  | nil =>
    simp only [load_edge_cmds, Option.some.injEq] at h
    subst h
    intro c hc; cases hc
  | cons line rest ih =>
    unfold load_edge_cmds at h
    split at h
    · rename_i s0 s1 s2 tl heq
      cases he : extract s2 with
      | none => rw [he] at h; cases h
      | some t =>
        rw [he] at h
        simp only at h
        cases hr : load_edge_cmds extract separator rest with
        | none => rw [hr] at h; cases h
        | some cs' =>
          rw [hr] at h
          simp only [Option.map_some', Option.some.injEq] at h
          subst h
          intro c hc
          rcases List.mem_cons.1 hc with rfl | hc
          · rfl
          · exact ih cs' hr c hc
    · cases h

theorem load_cmds_adds (extract : String → Option T) (text separator : String)
    (lcs : List (Cmd T)) (h : load_cmds extract text separator = some lcs) : ∀ c ∈ lcs, c.adds = true := by
  unfold load_cmds at h
  simp only at h
  cases he : load_edge_cmds extract separator
      (load_node_cmds (T := T) (getlines text.data [])).2 with
  | none => rw [he] at h; cases h
  | some cs =>
    rw [he] at h
    simp only [Option.map_some', Option.some.injEq] at h
    subst h
    intro c hc
    rcases List.mem_append.1 hc with hc | hc
    · exact load_node_cmds_adds _ c hc
    · exact load_edge_cmds_adds extract separator _ cs he c hc

theorem has_node_step_adds (g : HashGraph T) (c : Cmd T) (hc : c.adds = true) (n : NodeName)
    (h : g.has_node n = true) : (g.step c).has_node n = true := by
  rw [has_node_iff] at h ⊢
  cases c with
  | add_node m => exact (mem_keys_add_node g m n).2 (Or.inl h)
  | add_edge o d v => exact (mem_keys_add_edge_nodes g o d v n).2 (Or.inl h)
  | remove_edge o d => cases hc
  | remove_node m => cases hc
  | clear => cases hc

theorem has_node_run_adds (g : HashGraph T) (cs : List (Cmd T))
    (hcs : ∀ c ∈ cs, c.adds = true) (n : NodeName) (h : g.has_node n = true) :
    (g.run cs).has_node n = true := by
  induction cs generalizing g with
  | nil => exact h
  | cons c cs ih =>
    exact ih (g.step c) (fun c' hc' => hcs c' (List.mem_cons_of_mem _ hc'))
      (has_node_step_adds g c (hcs c (List.mem_cons_self _ _)) n h)

theorem get?_run_adds (g : HashGraph T) (cs : List (Cmd T))
    (hcs : ∀ c ∈ cs, c.adds = true) (e : Edge) :
    get? (g.run cs).edge_values e =
      (spec_last_value (edge_stores cs) e).or (get? g.edge_values e) := by
  induction cs generalizing g with
  | nil => simp [run, edge_stores, spec_last_value, get?]
  | cons c cs ih =>
    have ih' := ih (g.step c) (fun c' hc' => hcs c' (List.mem_cons_of_mem _ hc'))
    rw [run_cons, ih']
    have hc := hcs c (List.mem_cons_self _ _)
    cases c with
    | add_node m =>
      simp only [edge_stores, step, add_node_edge_values]
    | add_edge o d v =>
      simp only [edge_stores, step, get?_add_edge_edges, spec_last_value_cons]
      by_cases h : e = (o, d)
      · subst h
        cases spec_last_value (edge_stores cs) (o, d) <;> simp
      · have h' : ¬ (o, d) = e := fun e' => h e'.symm
        cases spec_last_value (edge_stores cs) e <;> simp [h, h']
    | remove_edge o d => cases hc
    | remove_node m => cases hc
    | clear => cases hc

theorem get?_nodes_run_adds (g : HashGraph T) (cs : List (Cmd T))
    (hcs : ∀ c ∈ cs, c.adds = true) (n : NodeName) (hn : g.has_node n = true)
    (hfree : ∀ p ∈ edge_stores cs, p.1.1 ≠ n ∧ p.1.2 ≠ n) :
    get? (g.run cs).node_values n = get? g.node_values n := by
  induction cs generalizing g with
  | nil => rfl
  | cons c cs ih =>
    have hc := hcs c (List.mem_cons_self _ _)
    have hcs' : ∀ c' ∈ cs, c'.adds = true := fun c' hc' => hcs c' (List.mem_cons_of_mem _ hc')
    have hn' := has_node_step_adds g c hc n hn
    rw [run_cons]
    cases c with
    | add_node m =>
      rw [ih (g.step (.add_node m)) hcs' hn' (by simpa [edge_stores] using hfree)]
      show get? (g.add_node m).node_values n = _
      rw [get?_add_node, if_neg]
      rintro ⟨rfl, hm⟩
      exact hm ((has_node_iff g n).1 hn)
    | add_edge o d v =>
      have h1 : ∀ p ∈ edge_stores cs, p.1.1 ≠ n ∧ p.1.2 ≠ n := fun p hp =>
        hfree p (by simp [edge_stores, hp])
      have h2 : o ≠ n ∧ d ≠ n := hfree ((o, d), v) (by simp [edge_stores])
      rw [ih (g.step (.add_edge o d v)) hcs' hn' h1]
      show get? (g.add_edge o d v).node_values n = _
      rw [get?_add_edge_nodes, if_neg]
      rintro (rfl | rfl)
      · exact h2.1 rfl
      · exact h2.2 rfl
    | remove_edge o d => cases hc
    | remove_node m => cases hc
    | clear => cases hc

theorem run_skip_add_node (g : HashGraph T) (cs₁ cs₂ : List (Cmd T)) (n : NodeName)
    (hcs : ∀ c ∈ cs₁, c.adds = true) (hn : g.has_node n = true) :
    g.run (cs₁ ++ Cmd.add_node n :: cs₂) = g.run (cs₁ ++ cs₂) := by
  rw [run_append, run_append, run_cons]
  have := has_node_run_adds g cs₁ hcs n hn
  show ((g.run cs₁).add_node n).run cs₂ = _
  rw [add_node_of_mem _ _ ((has_node_iff _ _).1 this)]

theorem local_info_congr (g g' : HashGraph T) (n : NodeName)
    (h1 : g'.has_node n = g.has_node n)
    (h2 : get? g'.node_values n = get? g.node_values n) :
    g'.local_info n = g.local_info n := by
  unfold local_info
  rw [h1, h2]

/-! ### Splitting a line and reading lines -/

theorem split_aux_nil (sep : List Char) (acc : List Char) :
    split_aux sep [] 0 acc = [String.mk acc] := by
  simp [split_aux]

theorem split_aux_field (sep : List Char) (c : Char) (s' : List Char) (hsep : sep = c :: s')
    (f rest acc : List Char) (hf : c ∉ f) :
    split_aux sep (f ++ rest) 0 acc = split_aux sep rest 0 (acc ++ f) := by
  induction f generalizing acc with
  | nil => simp
  | cons x f ih =>
    have hx : ¬ c = x := fun e => hf (by simp [e])
    have hf' : c ∉ f := fun e => hf (List.mem_cons_of_mem _ e)
    have hp : sep.isPrefixOf (x :: (f ++ rest)) = false := by
      rw [hsep, List.isPrefixOf_cons₂]
      simp [hx]
    rw [List.cons_append, split_aux, if_neg (by simp [hp]), ih _ hf']
    simp

theorem split_aux_skip (sep : List Char) (s rest acc : List Char) :
    split_aux sep (s ++ rest) s.length acc = split_aux sep rest 0 acc := by
  induction s with
  | nil => simp
  | cons x s ih => simpa [split_aux] using ih

theorem split_aux_sep (sep : List Char) (c : Char) (s' : List Char) (hsep : sep = c :: s')
    (rest acc : List Char) :
    split_aux sep (sep ++ rest) 0 acc = String.mk acc :: split_aux sep rest 0 [] := by
  subst hsep
  have hp : (c :: s').isPrefixOf (c :: (s' ++ rest)) = true := by
    rw [List.isPrefixOf_iff_prefix]
    exact List.prefix_append (c :: s') rest
  have hne : c :: s' ≠ [] := by simp
  rw [List.cons_append, split_aux, if_pos ⟨hne, hp⟩]
  have hl : (c :: s').length - 1 = s'.length := by simp
  rw [hl, split_aux_skip]

theorem split_triple (o d v separator : String) (c : Char) (s' : List Char)
    (hsep : separator.data = c :: s') (ho : c ∉ o.data) (hd : c ∉ d.data) (hv : c ∉ v.data) :
    split (o ++ separator ++ d ++ separator ++ v) separator = [o, d, v] := by
  unfold split
  simp only [String.data_append, List.append_assoc]
  rw [split_aux_field _ c s' hsep _ _ _ ho, split_aux_sep _ c s' hsep,
    split_aux_field _ c s' hsep _ _ _ hd, split_aux_sep _ c s' hsep]
  have := split_aux_field separator.data c s' hsep v.data [] [] hv
  rw [List.append_nil] at this
  rw [this, split_aux_nil]
  simp

theorem getlines_field (l rest acc : List Char) (hl : '\n' ∉ l) :
    getlines (l ++ rest) acc = getlines rest (acc ++ l) := by
  induction l generalizing acc with
  | nil => simp
  | cons x l ih =>
    have hx : ¬ x = '\n' := fun e => hl (by simp [e])
    have hl' : '\n' ∉ l := fun e => hl (List.mem_cons_of_mem _ e)
    rw [List.cons_append, getlines, if_neg hx, ih _ hl']
    simp

theorem getlines_append_line (pre l acc : List Char) (hl : '\n' ∉ l) (hne : l ≠ [])
    (hlast : pre.getLast? ≠ some '\n') (hpre : pre ≠ [] ∨ acc ≠ []) :
    getlines (pre ++ '\n' :: l) acc = getlines pre acc ++ [String.mk l] := by
  induction pre generalizing acc with
  | nil =>
    have hacc : acc ≠ [] := by
      rcases hpre with h | h
      · exact absurd rfl h
      · exact h
    have h1 := getlines_field l [] [] hl
    rw [List.append_nil, List.nil_append] at h1
    simp [getlines, hacc, h1, hne]
  | cons x pre ih =>
    by_cases hx : x = '\n'
    · subst hx
      have hpre' : pre ≠ [] := by
        rintro rfl
        exact hlast rfl
      have hlast' : pre.getLast? ≠ some '\n' := by
        cases pre with
        | nil => exact absurd rfl hpre'
        | cons y ys => simpa [List.getLast?_cons_cons] using hlast
      have e1 : getlines ('\n' :: (pre ++ '\n' :: l)) acc =
          String.mk acc :: getlines (pre ++ '\n' :: l) [] := by simp [getlines]
      have e2 : getlines ('\n' :: pre) acc = String.mk acc :: getlines pre [] := by
        simp [getlines]
      rw [List.cons_append, e1, e2, ih [] hlast' (Or.inl hpre'), List.cons_append]
    · have hlast' : pre.getLast? ≠ some '\n' := by
        cases pre with
        | nil => simp
        | cons y ys => simpa [List.getLast?_cons_cons] using hlast
      have e1 : getlines (x :: (pre ++ '\n' :: l)) acc =
          getlines (pre ++ '\n' :: l) (acc ++ [x]) := by simp [getlines, hx]
      have e2 : getlines (x :: pre) acc = getlines pre (acc ++ [x]) := by
        simp [getlines, hx]
      rw [List.cons_append, e1, e2]
      exact ih (acc ++ [x]) hlast' (Or.inr (by simp))

/-! ### The two loops of `load` on a list of lines -/

theorem load_nodes_append_of_mem (g : HashGraph T) (lines extra : List String)
    (h : sentinel ∈ lines) :
    load_nodes g (lines ++ extra) = ((load_nodes g lines).1, (load_nodes g lines).2 ++ extra) := by
  induction lines generalizing g with
  | nil => cases h
  | cons line rest ih =>
    by_cases hl : line = sentinel
    · simp [load_nodes, hl]
    · have hr : sentinel ∈ rest := by
        rcases List.mem_cons.1 h with h | h
        · exact absurd h.symm hl
        · exact h
      simp only [List.cons_append, load_nodes, ne_eq, hl, not_false_eq_true, if_true]
      exact ih _ hr

theorem load_nodes_of_not_mem (g : HashGraph T) (lines : List String)
    (h : sentinel ∉ lines) : load_nodes g lines = (lines.foldl add_node g, []) := by
  induction lines generalizing g with
  | nil => rfl
  | cons line rest ih =>
    have hl : line ≠ sentinel := fun e => h (by simp [e])
    have hr : sentinel ∉ rest := fun e => h (List.mem_cons_of_mem _ e)
    simp only [load_nodes, ne_eq, hl, not_false_eq_true, if_true, List.foldl_cons]
    exact ih _ hr

theorem load_edges_append (extract : String → Option T) (separator : String)
    (g : HashGraph T) (lines extra : List String) :
    load_edges extract separator g (lines ++ extra) =
      (load_edges extract separator g lines).bind
        (fun g₁ => load_edges extract separator g₁ extra) := by
  induction lines generalizing g with
  | nil => rfl
  | cons line rest ih =>
    simp only [List.cons_append, load_edges]
    split
    · rename_i s0 s1 s2 tl heq
      cases extract s2 with
      | none => rfl
      | some t => exact ih _
    · rfl

theorem load_edges_step (extract : String → Option T) (separator : String)
    (g : HashGraph T) (line : String) (rest : List String) (s0 s1 s2 : String)
    (tl : List String) (t : T) (h : split line separator = s0 :: s1 :: s2 :: tl)
    (ht : extract s2 = some t) :
    load_edges extract separator g (line :: rest) =
      load_edges extract separator (g.add_edge s0 s1 t) rest := by
  simp only [load_edges, h, ht]

theorem load_node_cmds_snd (lines : List String) :
    (load_node_cmds (T := T) lines).2 = edge_section lines := by
  induction lines with
  | nil => rfl
  | cons line rest ih =>
    unfold load_node_cmds edge_section
    split
    · exact ih
    · rfl

theorem load_edge_cmds_of_triples (extract : String → Option T) (separator : String)
    (lines : List String) (h : ∀ line ∈ lines, TripleLine extract separator line) :
    ∃ cs, load_edge_cmds extract separator lines = some cs := by
  induction lines with
  | nil => exact ⟨[], rfl⟩
  | cons line rest ih =>
    obtain ⟨cs, hcs⟩ := ih (fun l hl => h l (List.mem_cons_of_mem _ hl))
    obtain ⟨o, d, v, c, s', t, hsep, ho, hd, hv, hline, ht⟩ := h line (List.mem_cons_self _ _)
    have hs := split_triple o d v separator c s' hsep ho hd hv
    rw [← hline] at hs
    exact ⟨Cmd.add_edge o d t :: cs, by simp only [load_edge_cmds, hs, ht, hcs, Option.map_some']⟩

/-! ## The format read by load -/

theorem load_append_line (extract : String → Option T) (g g₁ : HashGraph T)
    (text separator line : String) (s0 s1 s2 : String) (tl : List String) (t : T)
    (hs : split line separator = s0 :: s1 :: s2 :: tl) (ht : extract s2 = some t)
    (h : load extract g text separator = some g₁)
    (hsent : sentinel ∈ getlines text.data [])
    (hlast : text.data.getLast? ≠ some '\n')
    (hnl : '\n' ∉ line.data) (hne : line.data ≠ []) :
    load extract g (text ++ "\n" ++ line) separator = some (g₁.add_edge s0 s1 t) := by
  have htext : text.data ≠ [] := by
    intro e
    rw [e] at hsent
    simp [getlines] at hsent
  have hd : (text ++ "\n" ++ line).data = text.data ++ '\n' :: line.data := by
    simp [String.data_append]
  have hlines : getlines (text ++ "\n" ++ line).data [] =
      getlines text.data [] ++ [line] := by
    rw [hd, getlines_append_line _ _ _ hnl hne hlast (Or.inl htext)]
  unfold load at h ⊢
  simp only at h ⊢
  rw [hlines, load_nodes_append_of_mem _ _ _ hsent]
  simp only
  rw [load_edges_append, h]
  simp only [Option.some_bind]
  rw [load_edges_step extract separator g₁ line [] s0 s1 s2 tl t hs ht]
  rfl

theorem load_sentinel_only (extract : String → Option T) (g : HashGraph T)
    (separator : String) : load extract g sentinel separator = some g := by
  have hl : getlines sentinel.data [] = [sentinel] := by decide
  unfold load
  simp only
  rw [hl]
  simp only [load_nodes, ne_eq, not_true_eq_false, if_false, load_edges]

theorem fold_add_node_edge_values (lines : List String) (g : HashGraph T) :
    (lines.foldl add_node g).edge_values = g.edge_values := by
  induction lines generalizing g with
  | nil => rfl
  | cons line rest ih => rw [List.foldl_cons, ih, add_node_edge_values]

theorem fold_add_node_has_node (lines : List String) (g : HashGraph T) (n : NodeName) :
    (lines.foldl add_node g).has_node n = true ↔ g.has_node n = true ∨ n ∈ lines := by
  induction lines generalizing g with
  | nil => simp
  | cons line rest ih =>
    rw [List.foldl_cons, ih, has_node_iff, has_node_iff, mem_keys_add_node, List.mem_cons]
    tauto

/-- C16 (amended): `load` is an additive merge on the inputs of its own format.  For every
graph `g` and every input whose lines after the sentinel have the form
`origin<separator>destination<separator>value` with a value that is a valid text of `T`,
`load` returns, and the result is `g` after the `add_node` and `add_edge` commands of the
input lines: every node of `g` is still a node; every edge of `g` whose key does not occur in
the input is still present with its old value (and no such key is added); a node line whose
name already is a node of `g` changes nothing (the result is the same without it, and the
adjacency record of a node of `g` that no input edge touches is unchanged); an edge key that
occurs in the input ends with the value of its last occurrence. -/
theorem load_additive (extract : String → Option T) (g : HashGraph T)
    (text separator : String)
    (hwf : ∀ line ∈ edge_section (getlines text.data []),
      TripleLine extract separator line) :
    ∃ g' lcs, load extract g text separator = some g' ∧
      load_cmds extract text separator = some lcs ∧ g' = g.run lcs ∧
      (∀ n, g.has_node n = true → g'.has_node n = true) ∧
      (∀ o d, (o, d) ∉ keys (edge_stores lcs) →
        g'.has_edge o d = g.has_edge o d ∧ g'.edge_value o d = g.edge_value o d) ∧
      (∀ cs₁ cs₂ n, lcs = cs₁ ++ Cmd.add_node n :: cs₂ → g.has_node n = true →
        g' = g.run (cs₁ ++ cs₂)) ∧
      (∀ n, g.has_node n = true → (∀ p ∈ edge_stores lcs, p.1.1 ≠ n ∧ p.1.2 ≠ n) →
        g'.local_info n = g.local_info n) ∧
      (∀ o d v, spec_last_value (edge_stores lcs) (o, d) = some v →
        g'.edge_value o d = .ok v) := by
  rw [← load_node_cmds_snd (T := T)] at hwf
  obtain ⟨ecs, hecs⟩ := load_edge_cmds_of_triples extract separator _ hwf
  have hl : load_cmds extract text separator =
      some ((load_node_cmds (T := T) (getlines text.data [])).1 ++ ecs) := by
    unfold load_cmds
    simp only [hecs, Option.map_some']
  have hadds := load_cmds_adds extract text separator _ hl
  refine ⟨_, _, by rw [load_eq_run, hl]; rfl, hl, rfl, has_node_run_adds g _ hadds, ?_, ?_,
    ?_, ?_⟩
  · intro o d hk
    have hget : get? (g.run ((load_node_cmds (T := T) (getlines text.data [])).1 ++
        ecs)).edge_values (o, d) = get? g.edge_values (o, d) := by
      rw [get?_run_adds g _ hadds, (spec_last_value_eq_none_iff _ _).2 hk]
      rfl
    refine ⟨?_, ?_⟩
    · rw [has_edge_eq, has_edge_eq, hget]
    · rw [edge_value_eq, edge_value_eq, hget]
  · intro cs₁ cs₂ n e hn
    rw [e]
    apply run_skip_add_node g cs₁ cs₂ n _ hn
    intro c hc
    exact hadds c (by rw [e]; exact List.mem_append_left _ hc)
  · intro n hn hfree
    apply local_info_congr
    · rw [hn]; exact has_node_run_adds g _ hadds n hn
    · exact get?_nodes_run_adds g _ hadds n hn hfree
  · intro o d v hv
    rw [edge_value_eq, get?_run_adds g _ hadds, hv]
    rfl

/-- C17 (amended): `load` reads an edge line as three fields cut at the separator.  For every
line of the form `origin<separator>destination<separator>value`, where the first character of
the separator (the whole separator when it is one character, as the default `;`) occurs in
none of the three fields and the value is a valid text of `T` (the extraction reads it, with
the result `t`), `load` adds the edge `(origin, destination)` with the parsed value `t`,
entering `origin` and `destination` as nodes: this holds for the step of the edge loop on
that line, for the line alone after the sentinel, and for the line appended to any input that
has its sentinel and that `load` reads to the end. -/
theorem load_edge_line (extract : String → Option T) (g : HashGraph T)
    (o d v separator : String) (c : Char) (s' : List Char) (t : T)
    (hsep : separator.data = c :: s')
    (ho : c ∉ o.data) (hd : c ∉ d.data) (hv : c ∉ v.data) (ht : extract v = some t) :
    split (o ++ separator ++ d ++ separator ++ v) separator = [o, d, v] ∧
    (∀ rest, load_edges extract separator g ((o ++ separator ++ d ++ separator ++ v) :: rest) =
      load_edges extract separator (g.add_edge o d t) rest) ∧
    ('\n' ∉ (o ++ separator ++ d ++ separator ++ v).data →
      load extract g (sentinel ++ "\n" ++ (o ++ separator ++ d ++ separator ++ v)) separator =
        some (g.add_edge o d t)) ∧
    (∀ text g₁, load extract g text separator = some g₁ →
      sentinel ∈ getlines text.data [] → text.data.getLast? ≠ some '\n' →
      '\n' ∉ (o ++ separator ++ d ++ separator ++ v).data →
      load extract g (text ++ "\n" ++ (o ++ separator ++ d ++ separator ++ v)) separator =
        some (g₁.add_edge o d t)) ∧
    (g.add_edge o d t).has_node o = true ∧
    (g.add_edge o d t).has_node d = true ∧
    (g.add_edge o d t).has_edge o d = true ∧
    (g.add_edge o d t).edge_value o d = .ok t := by
  have hs := split_triple o d v separator c s' hsep ho hd hv
  have up := add_edge_upsert_aux g o d t
  have hne : (o ++ separator ++ d ++ separator ++ v).data ≠ [] := by
    simp [String.data_append, hsep]
  refine ⟨hs, ?_, ?_, ?_, up.1, up.2.1, up.2.2.1, up.2.2.2.1⟩
  · intro rest
    exact load_edges_step extract separator g _ rest o d v [] t hs ht
  · intro hnl
    exact load_append_line extract g g sentinel separator _ o d v [] t hs ht
      (load_sentinel_only extract g separator) (by decide) (by decide) hnl hne
  · intro text g₁ h hsent hlast hnl
    exact load_append_line extract g g₁ text separator _ o d v [] t hs ht h hsent hlast hnl hne

/-- C18 (amended): `load` does no format validation and raises no format error.  On an input
without the sentinel line `load` returns normally with every line added as a node: the edges
are as they were, every line is a node, and the nodes are those of `g` and the lines. -/
theorem load_no_format_check (extract : String → Option T) (g : HashGraph T)
    (text separator : String) (h : sentinel ∉ getlines text.data []) :
    load extract g text separator = some ((getlines text.data []).foldl add_node g) ∧
    ((getlines text.data []).foldl add_node g).edge_values = g.edge_values ∧
    (∀ line ∈ getlines text.data [],
      ((getlines text.data []).foldl add_node g).has_node line = true) ∧
    (∀ n, ((getlines text.data []).foldl add_node g).has_node n = true ↔
      g.has_node n = true ∨ n ∈ getlines text.data []) := by
  refine ⟨?_, fold_add_node_edge_values _ g, ?_, fold_add_node_has_node _ g⟩
  · unfold load
    simp only
    rw [load_nodes_of_not_mem g _ h]
    rfl
  · intro line hl
    exact (fold_add_node_has_node _ g line).2 (Or.inr hl)

/-- C16 at the triangle graph and an input in the format of the spec, with the edge line
`A/C;42` after the sentinel and the separator `;`: the line is cut into the two fields `A/C`
and `42`, `load` has no third field to read and no result, so there is no graph after it in
which the nodes of the triangle are nodes. -/
theorem load_spec_format_counterexample :
    edge_section (getlines "D\nNODESABOVEEDGESBELOW\nA/C;42".data []) = ["A/C;42"] ∧
    split "A/C;42" ";" = ["A/C", "42"] ∧ extract_nat "42" = some 42 ∧
    load extract_nat triangle "D\nNODESABOVEEDGESBELOW\nA/C;42" ";" = none ∧
    ¬ ∃ g', load extract_nat triangle "D\nNODESABOVEEDGESBELOW\nA/C;42" ";" = some g' ∧
      g'.has_node "A" = true :=
  ⟨by decide, by decide, by decide, by decide, by
    rintro ⟨g', h1, _⟩
    have h2 : load extract_nat triangle "D\nNODESABOVEEDGESBELOW\nA/C;42" ";" = none := by
      decide
    rw [h2] at h1
    cases h1⟩

/-- C17 at the line `a/b;5` after the sentinel, separator `;`: the line is cut into the two
fields `a/b` and `5`, `load` has no result, and no edge a→b is added. -/
theorem load_slash_line_counterexample :
    split "a/b;5" ";" = ["a/b", "5"] ∧ extract_nat "5" = some 5 ∧
    load extract_nat empty_graph "NODESABOVEEDGESBELOW\na/b;5" ";" = none ∧
    ¬ ∃ g', load extract_nat empty_graph "NODESABOVEEDGESBELOW\na/b;5" ";" = some g' ∧
      g'.has_edge "a" "b" = true :=
  ⟨by decide, by decide, by decide, by
    rintro ⟨g', h1, _⟩
    have h2 : load extract_nat empty_graph "NODESABOVEEDGESBELOW\na/b;5" ";" = none := by
      decide
    rw [h2] at h1
    cases h1⟩

/-- C18 at the input with the lines `a` and `b` and no sentinel, and at the input with the
edge line `a;b;xyz`, whose value text is no number: in both `load` returns a graph and
reports nothing; the first has the nodes a and b added and no edge, the second the edge a→b
added with the 0 that the failed extraction stores. -/
theorem load_malformed_counterexample :
    sentinel ∉ getlines "a\nb".data [] ∧
    load extract_nat empty_graph "a\nb" ";" =
      some (run empty_graph [.add_node "a", .add_node "b"]) ∧
    (run (empty_graph : HashGraph Nat) [.add_node "a", .add_node "b"]).node_count = 2 ∧
    (run (empty_graph : HashGraph Nat) [.add_node "a", .add_node "b"]).edge_count = 0 ∧
    split "a;b;xyz" ";" = ["a", "b", "xyz"] ∧ extract_nat "xyz" = some 0 ∧
    load extract_nat empty_graph "NODESABOVEEDGESBELOW\na;b;xyz" ";" =
      some (run empty_graph [.add_edge "a" "b" 0]) ∧
    (run (empty_graph : HashGraph Nat) [.add_edge "a" "b" 0]).edge_value "a" "b" = .ok 0 :=
  ⟨by decide, by decide, by decide, by decide, by decide, by decide, by decide, by rfl⟩

/-! ## The format written by store -/

theorem join_lines_cons_cons (l l' : String) (ls : List String) :
    join_lines (l :: l' :: ls) = l ++ "\n" ++ join_lines (l' :: ls) := rfl

theorem foldl_lines (ls : List String) (acc t : String) :
    ls.foldl (fun out l => out ++ "\n" ++ l) (acc ++ t) = acc ++ join_lines (t :: ls) := by
  induction ls generalizing acc t with
  | nil => rfl
  | cons l ls ih =>
    rw [List.foldl_cons, join_lines_cons_cons]
    have := ih (acc ++ t ++ "\n") l
    rw [this]
    simp only [String.append_assoc]

theorem foldl_names (ns : List String) (acc t : String) (ts : List String) :
    ns.foldl (fun out n => out ++ n ++ "\n") acc ++ join_lines (t :: ts) =
      acc ++ join_lines (ns ++ t :: ts) := by
  induction ns generalizing acc with
  | nil => rfl
  | cons n ns ih =>
    rw [List.foldl_cons, ih]
    cases ns with
    | nil =>
      simp only [List.nil_append, List.cons_append, join_lines_cons_cons, String.append_assoc]
    | cons m ms =>
      simp only [List.cons_append, join_lines_cons_cons, String.append_assoc]

theorem store_eq_join (print : T → String) (g : HashGraph T) (separator : String) :
    store print g separator = join_lines (spec_store_lines print g separator) := by
  have hf : (fun (out : String) (ele : Edge × T) =>
        out ++ "\n" ++ ele.1.1 ++ "/" ++ ele.1.2 ++ separator ++ print ele.2) =
      (fun out ele => out ++ "\n" ++
        (fun (ele : Edge × T) => ele.1.1 ++ "/" ++ ele.1.2 ++ separator ++ print ele.2) ele) := by
    funext out ele
    simp only [String.append_assoc]
  have h1 := List.foldl_map
    (fun (ele : Edge × T) => ele.1.1 ++ "/" ++ ele.1.2 ++ separator ++ print ele.2)
    (fun (out l : String) => out ++ "\n" ++ l) g.edge_values
    (g.node_values.foldl (fun out ele => out ++ ele.1 ++ "\n") "" ++ sentinel)
  have h2 := List.foldl_map (Prod.fst : NodeName × LocalInfo → NodeName)
    (fun (out n : String) => out ++ n ++ "\n") g.node_values ""
  unfold store spec_store_lines
  simp only
  rw [hf, ← h1, foldl_lines, ← h2, foldl_names, String.empty_append, List.append_assoc]
  rfl

theorem countP_eq_one_of_mem {α : Type} [DecidableEq α] (l : List α) (a : α) (hn : l.Nodup)
    (h : a ∈ l) : l.countP (fun x => decide (x = a)) = 1 := by
  have := length_eq_countP_of_mem_iff [a] l (fun x => decide (x = a))
    (List.nodup_singleton a) hn (by
      intro x
      simp only [List.mem_singleton, decide_eq_true_eq]
      constructor
      · rintro rfl; exact ⟨h, rfl⟩
      · exact fun h' => h'.2)
  exact this.symm

/-- C19: `store` is a pure projection in the documented format.  For every graph and
separator the text written by `store` consists of the node names of the node map, one per
line, then the sentinel line, then one line `o/d<separator>value` for each entry of the edge
map; every node name and every edge key has exactly one such line (each map holding a key
once, as hash maps do).  `store` only reads the two maps: its result is the text alone. -/
theorem store_format (print : T → String) (g : HashGraph T) (separator : String) :
    store print g separator = join_lines (spec_store_lines print g separator) ∧
    spec_store_lines print g separator =
      keys g.node_values ++ [sentinel] ++
        g.edge_values.map
          (fun ele => ele.1.1 ++ "/" ++ ele.1.2 ++ separator ++ print ele.2) ∧
    (MapsWF g →
      (∀ n, g.has_node n = true →
        (keys g.node_values).countP (fun x => decide (x = n)) = 1) ∧
      (∀ o d, g.has_edge o d = true →
        g.edge_values.countP (fun ele => decide (ele.1 = (o, d))) = 1)) := by
  refine ⟨store_eq_join print g separator, rfl, ?_⟩
  intro h
  refine ⟨fun n hn => countP_eq_one_of_mem _ n h.1 ((has_node_iff g n).1 hn), ?_⟩
  intro o d he
  have := countP_eq_one_of_mem _ (o, d) h.2 ((has_edge_iff g o d).1 he)
  rw [keys, List.countP_map] at this
  exact this

/-! ## Further statements at sample graphs -/

/-- C11 at the triangle graph: A is a node, Z is not. -/
theorem node_queries_spec_witness :
    triangle.has_node "Z" = false ∧ triangle.degree "Z" = .error .node_not_in_graph ∧
    triangle.has_node "A" = true ∧
    ∃ li, get? triangle.node_values "A" = some li ∧
      triangle.in_degree "A" = .ok (HashSet.size li.in_edges) ∧
      triangle.out_degree "A" = .ok (HashSet.size li.out_edges) :=
  ⟨by decide, ((node_queries_spec triangle "Z").1 (by decide)).2.2.1, by decide,
    let ⟨li, h1, h2, h3, _⟩ := (node_queries_spec triangle "A").2 (by decide)
    ⟨li, h1, h2, h3⟩⟩

/-- C12 at the graph with the self-loop n→n and the edges n→x and y→n: the node n has
out-degree 2, in-degree 2 and degree 4. -/
theorem degree_arithmetic_witness :
    Reachable loop_graph ∧ loop_graph.has_node "n" = true ∧
    loop_graph.has_edge "n" "n" = true ∧
    loop_graph.out_degree "n" = .ok 2 ∧ loop_graph.in_degree "n" = .ok 2 ∧
    loop_graph.degree "n" = .ok (2 + 2) :=
  ⟨⟨loop_cmds, rfl⟩, by decide, by decide, by rfl, by rfl,
    (degree_arithmetic loop_graph ⟨loop_cmds, rfl⟩ "n" (by decide)).2.2.2 2 2
      (by rfl) (by rfl)⟩

/-- C13 at the triangle graph built in two orders. -/
theorem graph_equality_witness :
    MapsWF triangle ∧ MapsWF triangle_alt ∧ triangle.beq triangle_alt = true ∧
    (∀ n, triangle.has_node n = triangle_alt.has_node n) ∧
    (∀ o d, triangle.has_edge o d = triangle_alt.has_edge o d ∧
      triangle.edge_value o d = triangle_alt.edge_value o d) :=
  ⟨⟨by decide, by decide⟩, ⟨by decide, by decide⟩, by decide,
    ((graph_equality triangle triangle_alt ⟨by decide, by decide⟩
      ⟨by decide, by decide⟩).1.1 (by decide)).1,
    ((graph_equality triangle triangle_alt ⟨by decide, by decide⟩
      ⟨by decide, by decide⟩).1.1 (by decide)).2⟩

/-- C14 at the two command sequences of the triangle graph. -/
theorem equality_order_independent_witness :
    (∀ n, (run empty_graph triangle_cmds).has_node n =
      (run empty_graph triangle_alt_cmds).has_node n) ∧
    (∀ o d, (run empty_graph triangle_cmds).edge_value o d =
      (run empty_graph triangle_alt_cmds).edge_value o d) ∧
    (run empty_graph triangle_cmds).beq (run empty_graph triangle_alt_cmds) = true ∧
    ((run empty_graph triangle_cmds).add_edge "A" "C" 4).beq
      (run empty_graph triangle_alt_cmds) = false :=
  have hq := (beq_iff_queries (run empty_graph triangle_cmds)
    (run empty_graph triangle_alt_cmds) ⟨by decide, by decide⟩ ⟨by decide, by decide⟩).1
    (by decide)
  ⟨hq.1, fun o d => (hq.2 o d).2,
    (equality_order_independent triangle_cmds triangle_alt_cmds hq.1
      (fun o d => (hq.2 o d).2)).1,
    ((equality_order_independent triangle_cmds triangle_alt_cmds hq.1
      (fun o d => (hq.2 o d).2)).2.2 "A" "C" 4 (by decide)).1⟩

/-- C15 at the triangle graph, removing C, then A, then B. -/
theorem clear_eq_remove_all_witness :
    Reachable triangle ∧ (∀ n, triangle.has_node n = true → n ∈ ["C", "A", "B"]) ∧
    triangle.remove_nodes ["C", "A", "B"] = triangle.clear :=
  have h : ∀ n, triangle.has_node n = true → n ∈ ["C", "A", "B"] := by
    intro n hn
    have h' : n ∈ ["A", "B", "C"] := (has_node_iff triangle n).1 hn
    simp only [List.mem_cons, List.mem_singleton, List.not_mem_nil, or_false] at h' ⊢
    tauto
  ⟨⟨triangle_cmds, rfl⟩, h,
    (clear_eq_remove_all triangle ⟨triangle_cmds, rfl⟩).2.2.2 ["C", "A", "B"] h⟩

/-- C16 (amended) at the triangle graph and an input with a new node D, the present node A,
and two lines for the edge A→B. -/
theorem load_additive_witness :
    edge_section (getlines "D\nA\nNODESABOVEEDGESBELOW\nA;B;42\nC;D;8\nA;B;43".data []) =
      ["A;B;42", "C;D;8", "A;B;43"] ∧
    load extract_nat triangle "D\nA\nNODESABOVEEDGESBELOW\nA;B;42\nC;D;8\nA;B;43" ";" =
      some (triangle.run [.add_node "D", .add_edge "A" "B" 43, .add_edge "C" "D" 8]) ∧
    ∃ g' lcs,
      load extract_nat triangle "D\nA\nNODESABOVEEDGESBELOW\nA;B;42\nC;D;8\nA;B;43" ";" =
        some g' ∧
      load_cmds extract_nat "D\nA\nNODESABOVEEDGESBELOW\nA;B;42\nC;D;8\nA;B;43" ";" =
        some lcs ∧
      g' = triangle.run lcs ∧ (∀ n, triangle.has_node n = true → g'.has_node n = true) :=
  ⟨by decide, by decide,
    let ⟨g', lcs, h0, h1, h2, h3, _⟩ := load_additive extract_nat triangle
      "D\nA\nNODESABOVEEDGESBELOW\nA;B;42\nC;D;8\nA;B;43" ";" (by
        intro line hl
        have e : edge_section
            (getlines "D\nA\nNODESABOVEEDGESBELOW\nA;B;42\nC;D;8\nA;B;43".data []) =
            ["A;B;42", "C;D;8", "A;B;43"] := by decide
        rw [e] at hl
        simp only [List.mem_cons, List.mem_singleton, List.not_mem_nil, or_false] at hl
        rcases hl with rfl | rfl | rfl
        · exact ⟨"A", "B", "42", ';', [], 42, rfl, by decide, by decide, by decide,
            by decide, by decide⟩
        · exact ⟨"C", "D", "8", ';', [], 8, rfl, by decide, by decide, by decide,
            by decide, by decide⟩
        · exact ⟨"A", "B", "43", ';', [], 43, rfl, by decide, by decide, by decide,
            by decide, by decide⟩)
    ⟨g', lcs, h0, h1, h2, h3⟩⟩

/-- C17 (amended) at the line `a;b;5` with the separator `;`. -/
theorem load_edge_line_witness :
    (";" : String).data = [';'] ∧ ';' ∉ ("a" : String).data ∧ ';' ∉ ("b" : String).data ∧
    ';' ∉ ("5" : String).data ∧ extract_nat "5" = some 5 ∧
    split ("a" ++ ";" ++ "b" ++ ";" ++ "5") ";" = ["a", "b", "5"] ∧
    load extract_nat triangle (sentinel ++ "\n" ++ ("a" ++ ";" ++ "b" ++ ";" ++ "5")) ";" =
      some (triangle.add_edge "a" "b" 5) ∧
    (triangle.add_edge "a" "b" 5).edge_value "a" "b" = .ok 5 :=
  ⟨rfl, by decide, by decide, by decide, by decide,
    (load_edge_line extract_nat triangle "a" "b" "5" ";" ';' [] 5 rfl (by decide) (by decide)
      (by decide) (by decide)).1,
    (load_edge_line extract_nat triangle "a" "b" "5" ";" ';' [] 5 rfl (by decide) (by decide)
      (by decide) (by decide)).2.2.1 (by decide),
    (load_edge_line extract_nat triangle "a" "b" "5" ";" ';' [] 5 rfl (by decide) (by decide)
      (by decide) (by decide)).2.2.2.2.2.2.2⟩

/-- C18 (amended) at the input `a`, `b` without a sentinel line. -/
theorem load_no_format_check_witness :
    sentinel ∉ getlines "a\nb".data [] ∧
    load extract_nat triangle "a\nb" ";" =
      some ((getlines "a\nb".data []).foldl add_node triangle) ∧
    ((getlines "a\nb".data []).foldl add_node triangle).edge_values = triangle.edge_values ∧
    ((getlines "a\nb".data []).foldl add_node triangle).node_count = 5 :=
  ⟨by decide, (load_no_format_check extract_nat triangle "a\nb" ";" (by decide)).1,
    (load_no_format_check extract_nat triangle "a\nb" ";" (by decide)).2.1, by decide⟩

/-- C19 at the triangle graph: the text written, and one line for the node A and for the edge
A→B. -/
theorem store_format_witness :
    MapsWF triangle ∧ triangle.has_node "A" = true ∧ triangle.has_edge "A" "B" = true ∧
    store toString triangle ";" = "A\nB\nC\nNODESABOVEEDGESBELOW\nA/B;1\nB/C;2\nC/A;3" ∧
    (keys triangle.node_values).countP (fun x => decide (x = "A")) = 1 ∧
    triangle.edge_values.countP (fun ele => decide (ele.1 = ("A", "B"))) = 1 :=
  ⟨⟨by decide, by decide⟩, by decide, by decide, by decide,
    ((store_format toString triangle ";").2.2 ⟨by decide, by decide⟩).1 "A" (by decide),
    ((store_format toString triangle ";").2.2 ⟨by decide, by decide⟩).2 "A" "B" (by decide)⟩

/-! ## Calls of the queries -/

theorem read_of_mem {κ β : Type} [DecidableEq κ] (m : HashMap κ β) (k : κ) (d : β)
    (h : k ∈ keys m) : HashMap.read m k d = (get? m k, m) := by
  have e : modify m k id d = m := modify_eq_self m k id d (fun _ _ => rfl) h
  simp only [HashMap.read, e]

theorem node_query_call_snd {α : Type} (f : LocalInfo → α) (g : HashGraph T) (n : NodeName) :
    (node_query_call f g n).2 = g := by
  unfold node_query_call
  by_cases h : g.has_node n = true
  · rw [if_neg (by simp [h]), read_of_mem _ _ _ ((has_node_iff g n).1 h)]
  · rw [if_pos (by simpa using h)]

theorem node_query_call_fst {α : Type} (f : LocalInfo → α) (g : HashGraph T) (n : NodeName) :
    (node_query_call f g n).1 = (g.local_info n).map f := by
  unfold node_query_call local_info
  by_cases h : g.has_node n = true
  · obtain ⟨li, hli⟩ := get?_of_mem_keys ((has_node_iff g n).1 h)
    rw [if_neg (by simp [h]), if_neg (by simp [h]),
      read_of_mem _ _ _ ((has_node_iff g n).1 h), hli]
    rfl
  · rw [if_pos (by simpa using h), if_pos (by simpa using h)]
    rfl

theorem edge_value_call_snd [Inhabited T] (g : HashGraph T) (o d : NodeName) :
    (g.edge_value_call o d).2 = g := by
  unfold edge_value_call
  by_cases h : g.has_edge o d = true
  · rw [if_neg (by simp [h]), read_of_mem _ _ _ ((has_edge_iff g o d).1 h)]
  · rw [if_pos (by simpa using h)]

theorem edge_value_call_fst [Inhabited T] (g : HashGraph T) (o d : NodeName) :
    (g.edge_value_call o d).1 = g.edge_value o d := by
  rw [edge_value_eq]
  unfold edge_value_call
  by_cases h : g.has_edge o d = true
  · rw [if_neg (by simp [h]), read_of_mem _ _ _ ((has_edge_iff g o d).1 h)]
  · have hn : get? g.edge_values (o, d) = none := by
      rw [get?_eq_none_iff, ← has_edge_iff]; exact h
    rw [if_pos (by simpa using h), hn]
    rfl

/-- C22: a failing query does not change the graph.  When `edge_value` is called on an absent
edge, or `in_degree`, `out_degree`, `degree`, `out_nodes`, `in_nodes`, `out_edges` or
`in_edges` on an absent node, the call fails and the graph after the call is the graph
before it (so the node set, `node_count()`, the edge map and `edge_count()` are the same):
the guard throws before any map is read, and nothing is entered for the missing node or edge.
The outcomes of the calls are those of the queries, and a successful call leaves the graph
unchanged as well. -/
theorem failing_query_frame [Inhabited T] (g : HashGraph T) (o d n : NodeName) :
    (g.has_edge o d = false →
      (g.edge_value_call o d).1 = .error .edge_not_in_graph ∧
      (g.edge_value_call o d).2 = g) ∧
    (g.has_node n = false → ∀ {α : Type} (f : LocalInfo → α),
      (node_query_call f g n).1 = .error .node_not_in_graph ∧
      (node_query_call f g n).2 = g) ∧
    (g.edge_value_call o d).1 = g.edge_value o d ∧
    (node_query_call (fun li => HashSet.size li.in_edges) g n).1 = g.in_degree n ∧
    (node_query_call (fun li => HashSet.size li.out_edges) g n).1 = g.out_degree n ∧
    (node_query_call
      (fun li => HashSet.size li.in_edges + HashSet.size li.out_edges) g n).1 = g.degree n ∧
    (node_query_call (fun li => li.out_nodes) g n).1 = g.out_nodes n ∧
    (node_query_call (fun li => li.in_nodes) g n).1 = g.in_nodes n ∧
    (node_query_call (fun li => li.out_edges) g n).1 = g.out_edges n ∧
    (node_query_call (fun li => li.in_edges) g n).1 = g.in_edges n ∧
    (g.edge_value_call o d).2 = g ∧
    (∀ {α : Type} (f : LocalInfo → α), (node_query_call f g n).2 = g) := by
  refine ⟨?_, ?_, edge_value_call_fst g o d, node_query_call_fst _ g n,
    node_query_call_fst _ g n, node_query_call_fst _ g n, node_query_call_fst _ g n,
    node_query_call_fst _ g n, node_query_call_fst _ g n, node_query_call_fst _ g n,
    edge_value_call_snd g o d, fun f => node_query_call_snd f g n⟩
  · intro h
    refine ⟨?_, edge_value_call_snd g o d⟩
    unfold edge_value_call
    rw [if_pos (by simp [h])]
  · intro h α f
    refine ⟨?_, node_query_call_snd f g n⟩
    unfold node_query_call
    rw [if_pos (by simp [h])]

/-- C23: at most one edge per ordered pair.  For every reachable graph and every node `n`,
`out_nodes(n)` and `out_edges(n)` have the same size, `in_nodes(n)` and `in_edges(n)` have
the same size, `x` is in `out_nodes(n)` exactly when `(n, x)` is in `out_edges(n)`, and `y` is
in `in_nodes(n)` exactly when `(y, n)` is in `in_edges(n)`. -/
theorem neighbour_sets_match_edge_sets (g : HashGraph T) (hr : Reachable g) (n : NodeName)
    (hn : g.has_node n = true) :
    ∃ ons oes ins ies,
      g.out_nodes n = .ok ons ∧ g.out_edges n = .ok oes ∧
      g.in_nodes n = .ok ins ∧ g.in_edges n = .ok ies ∧
      HashSet.size ons = HashSet.size oes ∧ HashSet.size ins = HashSet.size ies ∧
      (∀ x, x ∈ ons ↔ (n, x) ∈ oes) ∧ (∀ y, y ∈ ins ↔ (y, n) ∈ ies) := by
  have hg := hr.inv
  obtain ⟨li, e⟩ := local_info_of_has_node g n hn
  have hli := (local_info_eq_ok_iff g n li).1 e
  obtain ⟨_, _, h3, h4⟩ := hg.degrees n li hli
  obtain ⟨_, _, _, _, r5, r6, r7, r8⟩ := hg.rec_ok n li hli
  refine ⟨li.out_nodes, li.out_edges, li.in_nodes, li.in_edges, ?_, ?_, ?_, ?_, h3, h4, ?_, ?_⟩
  · simp only [out_nodes, e]; rfl
  · simp only [out_edges, e]; rfl
  · simp only [in_nodes, e]; rfl
  · simp only [in_edges, e]; rfl
  · intro x
    rw [r7, r5]
    exact ⟨fun h => ⟨h, rfl⟩, fun h => h.1⟩
  · intro y
    rw [r8, r6]
    exact ⟨fun h => ⟨h, rfl⟩, fun h => h.1⟩

/-! ## The handshake identity, and undoing add_edge -/

theorem sum_indicator {α : Type} [DecidableEq α] (ns : List α) (a : α) (hn : ns.Nodup)
    (h : a ∈ ns) : (ns.map (fun n => if a = n then 1 else 0)).sum = 1 := by
  induction ns with
  | nil => cases h
  | cons x ns ih =>
    rw [List.nodup_cons] at hn
    by_cases hx : a = x
    · subst hx
      have hz : ∀ n ∈ ns, (if a = n then 1 else 0) = (0 : Nat) := by
        intro n hn'
        have : ¬ a = n := by rintro rfl; exact hn.1 hn'
        simp [this]
      simp only [List.map_cons, List.sum_cons, if_true]
      rw [List.map_congr_left hz]
      simp
    · have ha : a ∈ ns := by
        rcases List.mem_cons.1 h with h | h
        · exact absurd h hx
        · exact h
      simp only [List.map_cons, List.sum_cons, hx, if_false, Nat.zero_add]
      exact ih hn.2 ha

theorem sum_countP_eq_length {α β : Type} [DecidableEq α] (ns : List α) (E : List β)
    (f : β → α) (hn : ns.Nodup) (h : ∀ e ∈ E, f e ∈ ns) :
    (ns.map (fun n => E.countP (fun e => decide (f e = n)))).sum = E.length := by
  induction E with
  | nil => simp
  | cons e E ih =>
    have h1 : ∀ n, (e :: E).countP (fun e => decide (f e = n)) =
        E.countP (fun e => decide (f e = n)) + (if f e = n then 1 else 0) := by
      intro n
      rw [List.countP_cons]
      simp
    simp only [h1]
    rw [List.sum_map_add, ih (fun e' he' => h e' (List.mem_cons_of_mem _ he')),
      sum_indicator ns (f e) hn (h e (List.mem_cons_self _ _))]
    rfl

theorem Inv.degree_values {g : HashGraph T} (hg : Inv g) (n : NodeName)
    (hn : n ∈ keys g.node_values) :
    degree_value (g.out_degree n) =
      (keys g.edge_values).countP (fun e => decide (e.1 = n)) ∧
    degree_value (g.in_degree n) =
      (keys g.edge_values).countP (fun e => decide (e.2 = n)) := by
  obtain ⟨li, hli⟩ := get?_of_mem_keys hn
  have e := (local_info_eq_ok_iff g n li).2 hli
  obtain ⟨ho, hi, _, _⟩ := hg.degrees n li hli
  simp only [out_degree, in_degree, e]
  exact ⟨ho, hi⟩

/-- C25: the handshake identity.  For every graph reachable from the empty graph by
`add_node`, `add_edge`, `remove_edge`, `remove_node` and `clear`, `edge_count()` equals the
sum of `out_degree(n)` over all nodes `n`, and also the sum of `in_degree(n)` over all nodes
`n`. -/
theorem handshake (g : HashGraph T) (hr : Reachable g) :
    g.edge_count =
      ((keys g.node_values).map (fun n => degree_value (g.out_degree n))).sum ∧
    g.edge_count =
      ((keys g.node_values).map (fun n => degree_value (g.in_degree n))).sum := by
  have hg := hr.inv
  have hlen : g.edge_count = (keys g.edge_values).length := by
    simp [edge_count, size, keys]
  constructor
  · rw [List.map_congr_left (fun n hn => (hg.degree_values n hn).1),
      sum_countP_eq_length _ _ Prod.fst hg.nodes_nodup (fun e he => (hg.endpoints e he).1)]
    exact hlen
  · rw [List.map_congr_left (fun n hn => (hg.degree_values n hn).2),
      sum_countP_eq_length _ _ Prod.snd hg.nodes_nodup (fun e he => (hg.endpoints e he).2)]
    exact hlen

theorem ext_of_keys_get? {κ β : Type} [DecidableEq κ] (m₁ m₂ : HashMap κ β)
    (hk : keys m₁ = keys m₂) (hn : (keys m₁).Nodup)
    (h : ∀ k ∈ keys m₁, get? m₁ k = get? m₂ k) : m₁ = m₂ := by
  induction m₁ generalizing m₂ with
  | nil =>
    have : keys m₂ = [] := hk.symm
    exact (List.map_eq_nil_iff.1 this).symm
  | cons p m₁ ih =>
    obtain ⟨a, v⟩ := p
    cases m₂ with
    | nil => simp [keys] at hk
    | cons q m₂ =>
      obtain ⟨a', v'⟩ := q
      simp only [keys, List.map_cons, List.cons.injEq] at hk
      obtain ⟨rfl, hk'⟩ := hk
      simp only [keys, List.map_cons, List.nodup_cons] at hn
      have hv := h a (by simp [keys])
      simp only [get?, if_true, Option.some.injEq] at hv
      subst hv
      have := ih m₂ hk' hn.2 (by
        intro k hk''
        have hne : ¬ a = k := by rintro rfl; exact hn.1 hk''
        have := h k (by simp only [keys, List.map_cons]; exact List.mem_cons_of_mem _ hk'')
        simpa [get?, hne] using this)
      rw [this]

theorem remRec_addRec (o d n : NodeName) (li : LocalInfo)
    (h₁ : n = o → (o, d) ∉ li.out_edges ∧ d ∉ li.out_nodes)
    (h₂ : n = d → (o, d) ∉ li.in_edges ∧ o ∉ li.in_nodes) :
    remRec o d n (addRec o d n li) = li := by
  obtain ⟨a, b, c, e⟩ := li
  have f1 : n = o → HashSet.erase (HashSet.insert c (o, d)) (o, d) = c :=
    fun h => HashSet.erase_insert_of_not_mem _ _ (h₁ h).1
  have f2 : n = o → HashSet.erase (HashSet.insert a d) d = a :=
    fun h => HashSet.erase_insert_of_not_mem _ _ (h₁ h).2
  have f3 : n = d → HashSet.erase (HashSet.insert e (o, d)) (o, d) = e :=
    fun h => HashSet.erase_insert_of_not_mem _ _ (h₂ h).1
  have f4 : n = d → HashSet.erase (HashSet.insert b o) o = b :=
    fun h => HashSet.erase_insert_of_not_mem _ _ (h₂ h).2
  simp only [remRec, addRec]
  by_cases ho : n = o
  · by_cases hd : n = d
    · simp only [if_pos ho, if_pos hd, f1 ho, f2 ho, f3 hd, f4 hd]
    · simp only [if_pos ho, if_neg hd, f1 ho, f2 ho]
  · by_cases hd : n = d
    · simp only [if_neg ho, if_pos hd, f3 hd, f4 hd]
    · simp only [if_neg ho, if_neg hd]

theorem erase_append_singleton {κ β : Type} [DecidableEq κ] (m : HashMap κ β) (k : κ) (v : β)
    (h : k ∉ keys m) : erase (m ++ [(k, v)]) k = m := by
  have := erase_of_not_mem m k h
  unfold erase at this ⊢
  rw [List.filter_append, this]
  simp

/-- C26: `remove_edge` undoes `add_edge`.  For every reachable graph `g` in which `o` and `d`
are nodes and `(o, d)` is not an edge, and every value `v`, `add_edge(o, d, v)` followed by
`remove_edge(o, d)` gives back exactly the state of `g`: the same node map with the same four
adjacency sets for every node, and the same edge map. -/
theorem remove_edge_add_edge (g : HashGraph T) (hr : Reachable g) (o d : NodeName) (v : T)
    (ho : g.has_node o = true) (hd : g.has_node d = true) (he : g.has_edge o d = false) :
    (g.add_edge o d v).remove_edge o d = g := by
  have hg := hr.inv
  rw [has_node_iff] at ho hd
  have hne : (o, d) ∉ keys g.edge_values := by
    simpa only [has_edge, has_key_eq_false_iff] using he
  have ho₁ : o ∈ keys (g.add_edge o d v).node_values :=
    (mem_keys_add_edge_nodes g o d v o).2 (Or.inl ho)
  have hd₁ : d ∈ keys (g.add_edge o d v).node_values :=
    (mem_keys_add_edge_nodes g o d v d).2 (Or.inl hd)
  have he₁ : (o, d) ∈ keys (g.add_edge o d v).edge_values :=
    (mem_keys_add_edge_edges g o d v (o, d)).2 (Or.inr rfl)
  have hkeys : keys ((g.add_edge o d v).remove_edge o d).node_values = keys g.node_values := by
    rw [keys_remove_edge_nodes]
    simp only [add_edge, keys_modify, ho, hd, if_true]
  have hnv : ((g.add_edge o d v).remove_edge o d).node_values = g.node_values := by
    apply ext_of_keys_get? _ _ hkeys (by rw [hkeys]; exact hg.nodes_nodup)
    intro n hn
    rw [hkeys] at hn
    obtain ⟨li, hli⟩ := get?_of_mem_keys hn
    obtain ⟨_, _, _, _, r5, r6, r7, r8⟩ := hg.rec_ok n li hli
    rw [get?_remove_edge_nodes _ o d n ho₁ hd₁ he₁, get?_add_edge_nodes]
    by_cases hc : n = o ∨ n = d
    · rw [if_pos hc, if_pos hc, hli]
      simp only [Option.getD_some]
      rw [remRec_addRec]
      · rintro rfl
        exact ⟨fun h => hne ((r5 _).1 h).1, fun h => hne ((r7 _).1 h)⟩
      · rintro rfl
        exact ⟨fun h => hne ((r6 _).1 h).1, fun h => hne ((r8 _).1 h)⟩
    · rw [if_neg hc, if_neg hc]
  have hev : ((g.add_edge o d v).remove_edge o d).edge_values = g.edge_values := by
    rw [remove_edge_edge_values, if_pos ⟨ho₁, hd₁⟩, add_edge_edge_values,
      modify_not_mem _ _ _ _ hne, erase_append_singleton _ _ _ hne]
  calc (g.add_edge o d v).remove_edge o d
      = ⟨((g.add_edge o d v).remove_edge o d).node_values,
          ((g.add_edge o d v).remove_edge o d).edge_values⟩ := rfl
    _ = ⟨g.node_values, g.edge_values⟩ := by rw [hnv, hev]

/-! ## The order of the printed entries -/

/-! ### Ordered entry into a priority list -/

theorem pq_enqueue_perm {α : Type} (gt : α → α → Bool) (x : α) (q : List α) :
    (pq_enqueue gt x q).Perm (x :: q) := by
  induction q with
  | nil => exact List.Perm.refl _
  | cons y ys ih =>
    unfold pq_enqueue
    split
    · exact List.Perm.refl _
    · exact ((List.Perm.cons y ih).trans (List.Perm.swap x y ys))

theorem pq_enqueue_pairwise {α : Type} (gt : α → α → Bool)
    (hasym : ∀ a b, gt a b = true → gt b a = false)
    (htrans : ∀ a b c, gt a b = true → gt b c = true → gt a c = true)
    (x : α) (q : List α) (hq : q.Pairwise (fun a b => gt b a = false)) :
    (pq_enqueue gt x q).Pairwise (fun a b => gt b a = false) := by
  induction q with
  | nil => simp [pq_enqueue]
  | cons y ys ih =>
    rw [List.pairwise_cons] at hq
    unfold pq_enqueue
    split
    · rename_i hxy
      rw [List.pairwise_cons]
      refine ⟨?_, List.pairwise_cons.2 hq⟩
      intro z hz
      rcases List.mem_cons.1 hz with rfl | hz
      · exact hasym _ _ hxy
      · cases hzx : gt z x with
        | false => rfl
        | true =>
          have := htrans z x y hzx hxy
          rw [hq.1 z hz] at this
          cases this
    · rename_i hxy
      rw [List.pairwise_cons]
      refine ⟨?_, ih hq.2⟩
      intro z hz
      rcases List.mem_cons.1 ((pq_enqueue_perm gt x ys).mem_iff.1 hz) with rfl | hz
      · simpa using hxy
      · exact hq.1 z hz

theorem pq_iterate_spec {α : Type} (gt : α → α → Bool)
    (hasym : ∀ a b, gt a b = true → gt b a = false)
    (htrans : ∀ a b c, gt a b = true → gt b c = true → gt a c = true) (xs : List α) :
    (pq_iterate gt xs).Perm xs ∧ (pq_iterate gt xs).Pairwise (fun a b => gt b a = false) := by
  have key : ∀ (q : List α), q.Pairwise (fun a b => gt b a = false) →
      (xs.foldl (fun q x => pq_enqueue gt x q) q).Perm (xs.reverse ++ q) ∧
      (xs.foldl (fun q x => pq_enqueue gt x q) q).Pairwise (fun a b => gt b a = false) := by
    induction xs with
    | nil => intro q hq; exact ⟨List.Perm.refl _, hq⟩
    | cons x xs ih =>
      intro q hq
      obtain ⟨h1, h2⟩ := ih (pq_enqueue gt x q) (pq_enqueue_pairwise gt hasym htrans x q hq)
      refine ⟨?_, h2⟩
      rw [List.foldl_cons, List.reverse_cons, List.append_assoc]
      exact h1.trans (List.Perm.append_left _ (pq_enqueue_perm gt x q))
  obtain ⟨h1, h2⟩ := key [] List.Pairwise.nil
  refine ⟨?_, h2⟩
  rw [List.append_nil] at h1
  exact h1.trans (List.reverse_perm xs)

/-! ### The order of `LocalInfo_gt` -/

theorem LocalInfo_gt_iff (a b : NodeName × LocalInfo) : LocalInfo_gt a b = true ↔ a.1 < b.1 := by
  simp only [LocalInfo_gt, decide_eq_true_eq]
  exact String.lt_iff_toList_lt.symm

theorem LocalInfo_gt_eq_false_iff (a b : NodeName × LocalInfo) :
    LocalInfo_gt a b = false ↔ ¬ a.1 < b.1 := by
  rw [← LocalInfo_gt_iff, Bool.not_eq_true]

theorem pq_iterate_priority (g : HashGraph T) : PriorityIteration pq_iterate g := by
  apply pq_iterate_spec
  · intro a b h
    rw [LocalInfo_gt_iff] at h
    rw [LocalInfo_gt_eq_false_iff]
    exact lt_asymm h
  · intro a b c h1 h2
    rw [LocalInfo_gt_iff] at h1 h2 ⊢
    exact lt_trans h1 h2

theorem print_names_spec
    (iterate : (NodeName × LocalInfo → NodeName × LocalInfo → Bool) →
      List (NodeName × LocalInfo) → List (NodeName × LocalInfo))
    (g : HashGraph T) (hwf : MapsWF g) (hit : PriorityIteration iterate g) :
    ((print_entries iterate g).map Prod.fst).Perm (keys g.node_values) ∧
    ((print_entries iterate g).map Prod.fst).Pairwise (fun a b => a < b) := by
  obtain ⟨hp, hs⟩ := hit
  have hperm : ((print_entries iterate g).map Prod.fst).Perm (keys g.node_values) :=
    hp.map Prod.fst
  refine ⟨hperm, ?_⟩
  have hnd : ((print_entries iterate g).map Prod.fst).Nodup := hperm.nodup_iff.2 hwf.1
  have hs' : ((print_entries iterate g).map Prod.fst).Pairwise (fun a b => ¬ b < a) := by
    rw [List.pairwise_map]
    exact hs.imp (fun {a b} h => (LocalInfo_gt_eq_false_iff b a).1 h)
  exact (hs'.and hnd).imp (fun {a b} h => lt_of_le_of_ne (not_lt.1 h.1) h.2)

/-- C24: deterministic print order.  For every graph (its node map holding a key once),
`operator<<` emits exactly one entry per node, in strictly ascending order of the node names,
whatever the order in which the node map iterates: two graphs with the same node names emit
their entries in the same order of names.  The priority queue is any one whose iteration
yields every entry once and no entry of higher priority, under `LocalInfo_gt`, after one of
lower priority; the ordered list used here as its model is one. -/
theorem print_order
    (iterate : (NodeName × LocalInfo → NodeName × LocalInfo → Bool) →
      List (NodeName × LocalInfo) → List (NodeName × LocalInfo))
    (g : HashGraph T) (hwf : MapsWF g) (hit : PriorityIteration iterate g) :
    ((print_entries iterate g).map Prod.fst).Perm (keys g.node_values) ∧
    (∀ n, g.has_node n = true →
      (print_entries iterate g).countP (fun e => decide (e.1 = n)) = 1) ∧
    ((print_entries iterate g).map Prod.fst).Pairwise (fun a b => a < b) ∧
    (∀ (h : HashGraph T) (iterate' : (NodeName × LocalInfo → NodeName × LocalInfo → Bool) →
        List (NodeName × LocalInfo) → List (NodeName × LocalInfo)),
      MapsWF h → PriorityIteration iterate' h → (∀ n, g.has_node n = h.has_node n) →
      (print_entries iterate g).map Prod.fst = (print_entries iterate' h).map Prod.fst) ∧
    PriorityIteration pq_iterate g := by
  obtain ⟨hperm, hsorted⟩ := print_names_spec iterate g hwf hit
  refine ⟨hperm, ?_, hsorted, ?_, pq_iterate_priority g⟩
  · intro n hn
    have hnd : ((print_entries iterate g).map Prod.fst).Nodup := hperm.nodup_iff.2 hwf.1
    have hmem : n ∈ (print_entries iterate g).map Prod.fst :=
      hperm.mem_iff.2 ((has_node_iff g n).1 hn)
    have := countP_eq_one_of_mem _ n hnd hmem
    rw [List.countP_map] at this
    exact this
  · intro h iterate' hwf' hit' hn
    obtain ⟨hperm', hsorted'⟩ := print_names_spec iterate' h hwf' hit'
    have hk : (keys g.node_values).Perm (keys h.node_values) :=
      (List.perm_ext_iff_of_nodup hwf.1 hwf'.1).2
        (fun n => by rw [← has_node_iff, ← has_node_iff, hn])
    exact List.eq_of_perm_of_sorted (hperm.trans (hk.trans hperm'.symm)) hsorted hsorted'

/-! ## Statements at sample graphs, continued -/

/-- C22 at the triangle graph: Z is not a node and A→C is not an edge; the calls fail and
the graph is as it was, with three nodes and three edges. -/
theorem failing_query_frame_witness :
    triangle.has_edge "A" "C" = false ∧ triangle.has_node "Z" = false ∧
    (triangle.edge_value_call "A" "C").1 = .error .edge_not_in_graph ∧
    (triangle.edge_value_call "A" "C").2 = triangle ∧
    (node_query_call (fun li => HashSet.size li.in_edges) triangle "Z").1 =
      .error .node_not_in_graph ∧
    (node_query_call (fun li => HashSet.size li.in_edges) triangle "Z").2 = triangle ∧
    triangle.node_count = 3 ∧ triangle.edge_count = 3 :=
  ⟨by decide, by decide,
    ((failing_query_frame triangle "A" "C" "Z").1 (by decide)).1,
    ((failing_query_frame triangle "A" "C" "Z").1 (by decide)).2,
    ((failing_query_frame triangle "A" "C" "Z").2.1 (by decide) _).1,
    ((failing_query_frame triangle "A" "C" "Z").2.1 (by decide) _).2,
    by decide, by decide⟩

/-- C23 at the graph with the edges n→n, n→x and y→n, for the node n. -/
theorem neighbour_sets_match_edge_sets_witness :
    Reachable loop_graph ∧ loop_graph.has_node "n" = true ∧
    loop_graph.out_nodes "n" = .ok ["n", "x"] ∧
    loop_graph.out_edges "n" = .ok [("n", "n"), ("n", "x")] ∧
    ∃ ons oes ins ies,
      loop_graph.out_nodes "n" = .ok ons ∧ loop_graph.out_edges "n" = .ok oes ∧
      loop_graph.in_nodes "n" = .ok ins ∧ loop_graph.in_edges "n" = .ok ies ∧
      HashSet.size ons = HashSet.size oes ∧ HashSet.size ins = HashSet.size ies ∧
      (∀ x, x ∈ ons ↔ ("n", x) ∈ oes) ∧ (∀ y, y ∈ ins ↔ (y, "n") ∈ ies) :=
  ⟨⟨loop_cmds, rfl⟩, by decide, by rfl, by rfl,
    neighbour_sets_match_edge_sets loop_graph ⟨loop_cmds, rfl⟩ "n" (by decide)⟩

/-- C24 at the triangle graph built edges first: the entries are emitted in the order
A, B, C. -/
theorem print_order_witness :
    MapsWF triangle_alt ∧ PriorityIteration pq_iterate triangle_alt ∧
    (print_entries pq_iterate triangle_alt).map Prod.fst = ["A", "B", "C"] ∧
    ((print_entries pq_iterate triangle_alt).map Prod.fst).Pairwise (fun a b => a < b) :=
  ⟨⟨by decide, by decide⟩, pq_iterate_priority triangle_alt, by decide,
    (print_order pq_iterate triangle_alt ⟨by decide, by decide⟩
      (pq_iterate_priority triangle_alt)).2.2.1⟩

/-- C25 at the graph with the edges n→n, n→x and y→n: three edges, out-degrees 2, 0, 1 and
in-degrees 2, 1, 0. -/
theorem handshake_witness :
    Reachable loop_graph ∧ loop_graph.edge_count = 3 ∧
    loop_graph.edge_count =
      ((keys loop_graph.node_values).map
        (fun n => degree_value (loop_graph.out_degree n))).sum ∧
    loop_graph.edge_count =
      ((keys loop_graph.node_values).map
        (fun n => degree_value (loop_graph.in_degree n))).sum :=
  ⟨⟨loop_cmds, rfl⟩, by decide, handshake loop_graph ⟨loop_cmds, rfl⟩⟩

/-- C26 at the triangle graph: adding the edge A→C and removing it again gives the triangle
graph back. -/
theorem remove_edge_add_edge_witness :
    Reachable triangle ∧ triangle.has_node "A" = true ∧ triangle.has_node "C" = true ∧
    triangle.has_edge "A" "C" = false ∧
    (triangle.add_edge "A" "C" 9).remove_edge "A" "C" = triangle :=
  ⟨⟨triangle_cmds, rfl⟩, by decide, by decide, by decide,
    remove_edge_add_edge triangle ⟨triangle_cmds, rfl⟩ "A" "C" 9 (by decide) (by decide)
      (by decide)⟩

end HashGraph

/-! ## The comparator rule of the constructors -/

theorem bstmap_new_spec {K V : Type} (tlt clt : Option (FnPtr K)) :
    ((∃ msg, BSTMap.new (V := V) tlt clt = .error (.TemplateFunctionError msg)) ↔
      (tlt = none ∧ clt = none) ∨
      (∃ t c, tlt = some t ∧ clt = some c ∧ t.addr ≠ c.addr)) ∧
    (∀ t, tlt = some t → (clt = none ∨ ∃ c, clt = some c ∧ t.addr = c.addr) →
      BSTMap.new (V := V) tlt clt = .ok { lt := t, map := .null, used := 0, mod_count := 0 }) ∧
    (∀ c, tlt = none → clt = some c →
      BSTMap.new (V := V) tlt clt = .ok { lt := c, map := .null, used := 0, mod_count := 0 }) := by
  cases tlt with
  | none =>
    cases clt with
    | none => simp [BSTMap.new]
    | some c => simp [BSTMap.new, FnPtr.differ]
  | some t =>
    cases clt with
    | none => simp [BSTMap.new, FnPtr.differ]
    | some c =>
      by_cases h : t.addr = c.addr
      · simp [BSTMap.new, FnPtr.differ, h]
      · simp [BSTMap.new, FnPtr.differ, h]

theorem pq_new_spec {T : Type} (tgt cgt : Option (FnPtr T)) :
    ((∃ msg, LinkedPriorityQueue.new tgt cgt = .error (.TemplateFunctionError msg)) ↔
      (tgt = none ∧ cgt = none) ∨
      (∃ t c, tgt = some t ∧ cgt = some c ∧ t.addr ≠ c.addr)) ∧
    (∀ t, tgt = some t → (cgt = none ∨ ∃ c, cgt = some c ∧ t.addr = c.addr) →
      LinkedPriorityQueue.new tgt cgt =
        .ok { gt := t, front := [], used := 0, mod_count := 0 }) ∧
    (∀ c, tgt = none → cgt = some c →
      LinkedPriorityQueue.new tgt cgt =
        .ok { gt := c, front := [], used := 0, mod_count := 0 }) := by
  cases tgt with
  | none =>
    cases cgt with
    | none => simp [LinkedPriorityQueue.new]
    | some c => simp [LinkedPriorityQueue.new, FnPtr.differ]
  | some t =>
    cases cgt with
    | none => simp [LinkedPriorityQueue.new, FnPtr.differ]
    | some c =>
      by_cases h : t.addr = c.addr
      · simp [LinkedPriorityQueue.new, FnPtr.differ, h]
      · simp [LinkedPriorityQueue.new, FnPtr.differ, h]

/-- C21: the comparator resolution rule.  The default constructors of `BSTMap` and
`LinkedPriorityQueue` fail with `TemplateFunctionError` exactly when neither a template
comparator nor a constructor comparator is supplied, or when both are supplied and are
different pointers; in every other case construction succeeds with an empty container that
uses the comparator supplied (the template comparator when one is given, otherwise the
constructor comparator). -/
theorem comparator_rule {K V T : Type} :
    (∀ tlt clt : Option (FnPtr K),
      ((∃ msg, BSTMap.new (V := V) tlt clt = .error (.TemplateFunctionError msg)) ↔
        (tlt = none ∧ clt = none) ∨
        (∃ t c, tlt = some t ∧ clt = some c ∧ t.addr ≠ c.addr)) ∧
      (∀ t, tlt = some t → (clt = none ∨ ∃ c, clt = some c ∧ t.addr = c.addr) →
        BSTMap.new (V := V) tlt clt =
          .ok { lt := t, map := .null, used := 0, mod_count := 0 }) ∧
      (∀ c, tlt = none → clt = some c →
        BSTMap.new (V := V) tlt clt =
          .ok { lt := c, map := .null, used := 0, mod_count := 0 })) ∧
    (∀ tgt cgt : Option (FnPtr T),
      ((∃ msg, LinkedPriorityQueue.new tgt cgt = .error (.TemplateFunctionError msg)) ↔
        (tgt = none ∧ cgt = none) ∨
        (∃ t c, tgt = some t ∧ cgt = some c ∧ t.addr ≠ c.addr)) ∧
      (∀ t, tgt = some t → (cgt = none ∨ ∃ c, cgt = some c ∧ t.addr = c.addr) →
        LinkedPriorityQueue.new tgt cgt =
          .ok { gt := t, front := [], used := 0, mod_count := 0 }) ∧
      (∀ c, tgt = none → cgt = some c →
        LinkedPriorityQueue.new tgt cgt =
          .ok { gt := c, front := [], used := 0, mod_count := 0 })) :=
  ⟨fun tlt clt => bstmap_new_spec tlt clt, fun tgt cgt => pq_new_spec tgt cgt⟩

/-- C21 at the sample comparators: a constructor comparator alone is used; no comparator at
all, and two different comparators, are errors. -/
theorem comparator_rule_witness :
    BSTMap.new none (some nat_lt) = .ok sample_empty_map ∧
    (∃ msg, BSTMap.new (K := Nat) (V := Nat) none none =
      .error (.TemplateFunctionError msg)) ∧
    (∃ msg, LinkedPriorityQueue.new (some nat_gt) (some nat_lt) =
      .error (.TemplateFunctionError msg)) :=
  ⟨((comparator_rule (K := Nat) (V := Nat) (T := Nat)).1 none (some nat_lt)).2.2
      nat_lt rfl rfl,
    ((comparator_rule (K := Nat) (V := Nat) (T := Nat)).1 none none).1.2
      (Or.inl ⟨rfl, rfl⟩),
    ((comparator_rule (K := Nat) (V := Nat) (T := Nat)).2 (some nat_gt) (some nat_lt)).1.2
      (Or.inr ⟨nat_gt, nat_lt, rfl, rfl, by decide⟩)⟩

/-! ## BSTMap: insertion -/

namespace BSTMap
variable {K V : Type}

theorem copy_eq (t : TN K V) : copy t = t := by
  induction t with
  | null => rfl
  | node k v l r ihl ihr => simp [copy, ihl, ihr]

theorem tree_keys_null : tree_keys (TN.null : TN K V) = [] := rfl

theorem tree_keys_node (k : K) (v : V) (l r : TN K V) :
    tree_keys (.node k v l r) = tree_keys l ++ k :: tree_keys r := by
  simp [tree_keys, copy_to_queue]

theorem strictTotal_asymm {lt : K → K → Bool} (h : StrictTotal lt) (a b : K)
    (hab : lt a b = true) : lt b a = false := by
  cases hba : lt b a with
  | false => rfl
  | true =>
    have := h.2.1 a b a hab hba
    rw [h.1 a] at this
    cases this

theorem strictTotal_ne {lt : K → K → Bool} (h : StrictTotal lt) (a b : K)
    (hab : lt a b = true) : a ≠ b := by
  rintro rfl
  rw [h.1 a] at hab
  cases hab

theorem ordered_pairwise (lt : K → K → Bool) (hlt : StrictTotal lt) (t : TN K V)
    (ht : Ordered lt t) : (tree_keys t).Pairwise (fun a b => lt a b = true) := by
  induction t with
  | null => simp [tree_keys_null]
  | node k v l r ihl ihr =>
    obtain ⟨h1, h2, h3, h4⟩ := ht
    rw [tree_keys_node, List.pairwise_append]
    refine ⟨ihl h3, List.pairwise_cons.2 ⟨h2, ihr h4⟩, ?_⟩
    intro a ha b hb
    rcases List.mem_cons.1 hb with rfl | hb
    · exact h1 a ha
    · exact hlt.2.1 a k b (h1 a ha) (h2 b hb)

theorem remove_closest_spec (lt : K → K → Bool) (r : TN K V) :
    ∀ (k : K) (v : V) (l : TN K V), Ordered lt (.node k v l r) →
      copy_to_queue (.node k v l r) =
        copy_to_queue (remove_closest k v l r).2 ++ [(remove_closest k v l r).1] ∧
      Ordered lt (remove_closest k v l r).2 := by
  induction r with
  | null =>
    intro k v l h
    exact ⟨by simp [remove_closest, copy_to_queue], h.2.2.1⟩
  | node k' v' l' r' _ ihr =>
    intro k v l h
    obtain ⟨h1, h2, h3, h4⟩ := h
    obtain ⟨e, o⟩ := ihr k' v' l' h4
    constructor
    · simp only [remove_closest]
      rw [copy_to_queue, e]
      simp [copy_to_queue]
    · simp only [remove_closest]
      refine ⟨h1, ?_, h3, o⟩
      intro x hx
      apply h2
      have : tree_keys (.node k' v' l' r') =
          tree_keys (remove_closest k' v' l' r').2 ++ [(remove_closest k' v' l' r').1.1] := by
        simp only [tree_keys, e, List.map_append, List.map_cons, List.map_nil]
      rw [this]
      exact List.mem_append_left _ hx

theorem new_ok {tlt clt : Option (FnPtr K)} {m : BSTMap K V}
    (h : BSTMap.new tlt clt = .ok m) : m.map = .null ∧ m.used = 0 := by
  unfold BSTMap.new at h
  split at h
  · cases h
  · split at h
    · cases h
    · cases h
      exact ⟨rfl, rfl⟩

theorem ordered_nodup (lt : K → K → Bool) (hlt : StrictTotal lt) (t : TN K V)
    (ht : Ordered lt t) : (tree_keys t).Nodup :=
  (ordered_pairwise lt hlt t ht).imp (fun {a b} h => strictTotal_ne hlt a b h)

variable [DecidableEq K]

theorem insert_null (lt : K → K → Bool) (key : K) (value : V) (used : Int) :
    insert lt .null key value used = (.node key value .null .null, used + 1, value) := rfl

theorem insert_node (lt : K → K → Bool) (k : K) (v : V) (l r : TN K V) (key : K) (value : V)
    (used : Int) :
    insert lt (.node k v l r) key value used =
      if k = key then (.node k value l r, used, v)
      else if lt key k = true then
        (.node k v (insert lt l key value used).1 r, (insert lt l key value used).2)
      else (.node k v l (insert lt r key value used).1, (insert lt r key value used).2) := by
  by_cases h1 : k = key
  · simp [insert, h1]
  · by_cases h2 : lt key k = true
    · cases l <;> simp [insert, h1, h2]
    · cases r <;> simp [insert, h1, h2]

theorem find_value_null (lt : K → K → Bool) (key : K) :
    find_value lt (TN.null : TN K V) key = none := rfl

theorem find_value_node (lt : K → K → Bool) (k : K) (v : V) (l r : TN K V) (key : K) :
    find_value lt (.node k v l r) key =
      if k = key then some v
      else if lt key k = true then find_value lt l key else find_value lt r key := by
  by_cases h1 : k = key
  · simp [find_value, find_key, h1]
  · by_cases h2 : lt key k = true
    · simp [find_value, find_key, h1, h2]
    · simp [find_value, find_key, h1, h2]

theorem has_key_eq (m : BSTMap K V) (key : K) :
    m.has_key key = (find_value m.lt.call m.map key).isSome := by
  unfold has_key find_value
  cases find_key m.lt.call m.map key <;> rfl

theorem mem_keys_insert (lt : K → K → Bool) (t : TN K V) (key : K) (value : V) (used : Int)
    (x : K) : x ∈ tree_keys (insert lt t key value used).1 ↔ x ∈ tree_keys t ∨ x = key := by
  induction t with
  | null => simp [insert_null, tree_keys_node, tree_keys_null]
  | node k v l r ihl ihr =>
    rw [insert_node]
    by_cases h1 : k = key
    · subst h1
      simp only [if_true, tree_keys_node, List.mem_append, List.mem_cons]
      tauto
    · by_cases h2 : lt key k = true
      · simp only [h1, h2, if_true, if_false, tree_keys_node, List.mem_append, List.mem_cons, ihl]
        tauto
      · simp only [h1, h2, Bool.false_eq_true, if_false, tree_keys_node, List.mem_append, List.mem_cons, ihr]
        tauto

theorem ordered_insert (lt : K → K → Bool) (hlt : StrictTotal lt) (t : TN K V) (key : K)
    (value : V) (used : Int) (ht : Ordered lt t) :
    Ordered lt (insert lt t key value used).1 := by
  induction t with
  | null => simp [insert_null, Ordered, tree_keys_null]
  | node k v l r ihl ihr =>
    obtain ⟨h1, h2, h3, h4⟩ := ht
    rw [insert_node]
    by_cases e : k = key
    · simp only [e, if_true]
      subst e
      exact ⟨h1, h2, h3, h4⟩
    · by_cases c : lt key k = true
      · simp only [e, c, if_true, if_false]
        refine ⟨?_, h2, ihl h3, h4⟩
        intro x hx
        rcases (mem_keys_insert lt l key value used x).1 hx with hx | rfl
        · exact h1 x hx
        · exact c
      · simp only [e, c, Bool.false_eq_true, if_false]
        refine ⟨h1, ?_, h3, ihr h4⟩
        intro x hx
        rcases (mem_keys_insert lt r key value used x).1 hx with hx | rfl
        · exact h2 x hx
        · rcases hlt.2.2 k x e with h | h
          · exact h
          · exact absurd h c

theorem find_value_insert (lt : K → K → Bool) (t : TN K V) (key : K) (value : V) (used : Int)
    (key' : K) :
    find_value lt (insert lt t key value used).1 key' =
      if key' = key then some value else find_value lt t key' := by
  induction t with
  | null =>
    by_cases h : key = key'
    · subst h; simp [insert_null, find_value_node]
    · have h' : ¬ key' = key := fun e => h e.symm
      simp [insert_null, find_value_node, find_value_null, h, h']
  | node k v l r ihl ihr =>
    rw [insert_node]
    by_cases e : k = key
    · subst e
      simp only [if_true, find_value_node]
      by_cases e' : k = key'
      · subst e'; simp
      · have : ¬ key' = k := fun h => e' h.symm
        simp [e', this]
    · by_cases c : lt key k = true
      · simp only [e, c, if_true, if_false, find_value_node, ihl]
        by_cases e' : k = key'
        · subst e'
          simp [e]
        · by_cases c' : lt key' k = true
          · simp [e', c']
          · have : ¬ key' = key := by
              rintro rfl; exact c' c
            simp [e', c', this]
      · simp only [e, c, Bool.false_eq_true, if_false, find_value_node, ihr]
        by_cases e' : k = key'
        · subst e'
          simp [e]
        · by_cases c' : lt key' k = true
          · have : ¬ key' = key := by
              rintro rfl; exact c c'
            simp [e', c', this]
          · simp [e', c']

theorem insert_snd (lt : K → K → Bool) (t : TN K V) (key : K) (value : V) (used : Int) :
    (insert lt t key value used).2 =
      (if (find_value lt t key).isSome then used else used + 1,
        (find_value lt t key).getD value) := by
  induction t with
  | null => simp [insert_null, find_value_null]
  | node k v l r ihl ihr =>
    rw [insert_node, find_value_node]
    by_cases e : k = key
    · simp [e]
    · by_cases c : lt key k = true
      · simp only [e, c, if_true, if_false, ihl]
      · simp only [e, c, Bool.false_eq_true, if_false, ihr]

theorem length_insert (lt : K → K → Bool) (t : TN K V) (key : K) (value : V) (used : Int) :
    ((copy_to_queue (insert lt t key value used).1).length : Int) =
      if (find_value lt t key).isSome then ((copy_to_queue t).length : Int)
      else ((copy_to_queue t).length : Int) + 1 := by
  induction t with
  | null => simp [insert_null, find_value_null, copy_to_queue]
  | node k v l r ihl ihr =>
    rw [insert_node, find_value_node]
    by_cases e : k = key
    · simp [e, copy_to_queue]
    · by_cases c : lt key k = true
      · simp only [e, c, if_true, if_false, copy_to_queue, List.length_append, List.length_cons,
          Nat.cast_add, Nat.cast_one, ihl]
        split <;> omega
      · simp only [e, c, Bool.false_eq_true, if_false, copy_to_queue, List.length_append, List.length_cons,
          Nat.cast_add, Nat.cast_one, ihr]
        split <;> omega

end BSTMap

/-! ## BSTMap: search, order and removal -/

namespace BSTMap
variable {K V : Type} [DecidableEq K]

theorem find_addempty_node [Inhabited V] (lt : K → K → Bool) (k : K) (v : V) (l r : TN K V)
    (key : K) (used mc : Int) :
    find_addempty lt (.node k v l r) key used mc =
      if k = key then (.node k v l r, used, mc, v)
      else if lt key k = true then
        (.node k v (find_addempty lt l key used mc).1 r, (find_addempty lt l key used mc).2)
      else (.node k v l (find_addempty lt r key used mc).1, (find_addempty lt r key used mc).2) := by
  by_cases h1 : k = key
  · simp [find_addempty, h1]
  · by_cases h2 : lt key k = true
    · cases l <;> simp [find_addempty, h1, h2]
    · cases r <;> simp [find_addempty, h1, h2]

theorem find_addempty_eq [Inhabited V] (lt : K → K → Bool) (t : TN K V) (key : K)
    (used mc : Int) :
    find_addempty lt t key used mc =
      if (find_value lt t key).isSome then (t, used, mc, (find_value lt t key).getD default)
      else ((insert lt t key default used).1, used + 1, mc + 1, default) := by
  induction t with
  | null => simp [find_addempty, insert_null, find_value_null]
  | node k v l r ihl ihr =>
    rw [find_addempty_node, insert_node, find_value_node]
    by_cases e : k = key
    · simp [e]
    · by_cases c : lt key k = true
      · simp only [e, c, if_true, if_false, ihl]
        split <;> rfl
      · simp only [e, c, Bool.false_eq_true, if_false, ihr]
        split <;> rfl

theorem get?_cq_append (l₁ l₂ : List (K × V)) (k : K) :
    HashMap.get? (l₁ ++ l₂) k = (HashMap.get? l₁ k).or (HashMap.get? l₂ k) := by
  induction l₁ with
  | nil => simp [HashMap.get?]
  | cons p l ih =>
    obtain ⟨a, v⟩ := p
    by_cases h : a = k
    · simp [HashMap.get?, h]
    · simp [HashMap.get?, h, ih]

theorem find_value_eq_get? (lt : K → K → Bool) (hlt : StrictTotal lt) (t : TN K V)
    (ht : Ordered lt t) (key : K) :
    find_value lt t key = HashMap.get? (copy_to_queue t) key := by
  induction t with
  | null => rfl
  | node k v l r ihl ihr =>
    obtain ⟨h1, h2, h3, h4⟩ := ht
    have hl : key ∉ tree_keys l → HashMap.get? (copy_to_queue l) key = none :=
      (HashMap.get?_eq_none_iff (copy_to_queue l) key).2
    have hr : key ∉ tree_keys r → HashMap.get? (copy_to_queue r) key = none :=
      (HashMap.get?_eq_none_iff (copy_to_queue r) key).2
    rw [find_value_node]
    simp only [copy_to_queue, get?_cq_append]
    by_cases e : k = key
    · subst e
      have : k ∉ tree_keys l := fun h => strictTotal_ne hlt k k (h1 k h) rfl
      simp [hl this, HashMap.get?]
    · by_cases c : lt key k = true
      · have : key ∉ tree_keys r := by
          intro h
          have := strictTotal_asymm hlt k key (h2 key h)
          rw [c] at this
          cases this
        simp only [e, c, if_true, if_false, ihl h3, HashMap.get?, hr this]
        cases HashMap.get? (copy_to_queue l) key <;> rfl
      · have : key ∉ tree_keys l := fun h => c (h1 key h)
        simp only [e, c, Bool.false_eq_true, if_false, ihr h4, HashMap.get?, hl this]
        rfl

theorem find_value_isSome_iff (lt : K → K → Bool) (hlt : StrictTotal lt) (t : TN K V)
    (ht : Ordered lt t) (key : K) :
    (find_value lt t key).isSome = true ↔ key ∈ tree_keys t := by
  rw [find_value_eq_get? lt hlt t ht]
  exact HashMap.get?_isSome_iff (copy_to_queue t) key

/-! ### Removal -/

theorem remove_none (lt : K → K → Bool) (t : TN K V) (key : K)
    (h : find_value lt t key = none) : remove lt t key = .error .KeyError := by
  induction t with
  | null => rfl
  | node k v l r ihl ihr =>
    rw [find_value_node] at h
    by_cases e : k = key
    · simp [e] at h
    · have e' : ¬ key = k := fun h' => e h'.symm
      by_cases c : lt key k = true
      · simp only [e, c, if_true, if_false] at h
        simp [remove, e', c, ihl h]
      · simp only [e, c, Bool.false_eq_true, if_false] at h
        simp [remove, e', c, ihr h]

theorem erase_append (l₁ l₂ : List (K × V)) (k : K) :
    HashMap.erase (l₁ ++ l₂) k = HashMap.erase l₁ k ++ HashMap.erase l₂ k := by
  simp [HashMap.erase, List.filter_append]

theorem remove_some (lt : K → K → Bool) (hlt : StrictTotal lt) (t : TN K V) (key : K)
    (ht : Ordered lt t) (v : V) (h : find_value lt t key = some v) :
    ∃ t', remove lt t key = .ok (v, t') ∧
      copy_to_queue t' = HashMap.erase (copy_to_queue t) key ∧ Ordered lt t' := by
  induction t with
  | null => simp [find_value_null] at h
  | node k w l r ihl ihr =>
    have ht' := ht
    obtain ⟨h1, h2, h3, h4⟩ := ht
    have hkl : k ∉ HashMap.keys (copy_to_queue l) :=
      fun hm => strictTotal_ne hlt k k (h1 k hm) rfl
    have hkr : k ∉ HashMap.keys (copy_to_queue r) :=
      fun hm => strictTotal_ne hlt k k (h2 k hm) rfl
    rw [find_value_node] at h
    by_cases e : k = key
    · subst e
      simp only [if_true, Option.some.injEq] at h
      subst h
      cases l with
      | null =>
        refine ⟨r, by simp [remove], ?_, h4⟩
        simp only [copy_to_queue, List.nil_append]
        rw [HashMap.erase_cons_self, HashMap.erase_of_not_mem _ _ hkr]
      | node lk lv ll lr =>
        cases r with
        | null =>
          refine ⟨.node lk lv ll lr, by simp [remove], ?_, h3⟩
          have hc : copy_to_queue (.node k w (.node lk lv ll lr) .null) =
              copy_to_queue (.node lk lv ll lr) ++ (k, w) :: [] := rfl
          rw [hc, erase_append, HashMap.erase_of_not_mem _ _ hkl, HashMap.erase_cons_self]
          simp [HashMap.erase]
        | node rk rv rl rr =>
          obtain ⟨e, o⟩ := remove_closest_spec lt lr lk lv ll h3
          refine ⟨.node (remove_closest lk lv ll lr).1.1 (remove_closest lk lv ll lr).1.2
            (remove_closest lk lv ll lr).2 (.node rk rv rl rr),
            by simp only [remove, if_true], ?_, ?_⟩
          · have hc : copy_to_queue (.node k w (.node lk lv ll lr) (.node rk rv rl rr)) =
                copy_to_queue (.node lk lv ll lr) ++
                  (k, w) :: copy_to_queue (.node rk rv rl rr) := rfl
            have hd : copy_to_queue (.node (remove_closest lk lv ll lr).1.1
                (remove_closest lk lv ll lr).1.2 (remove_closest lk lv ll lr).2
                (.node rk rv rl rr)) =
                copy_to_queue (remove_closest lk lv ll lr).2 ++
                  (remove_closest lk lv ll lr).1 :: copy_to_queue (.node rk rv rl rr) := rfl
            rw [hc, hd, erase_append, HashMap.erase_of_not_mem _ _ hkl,
              HashMap.erase_cons_self, HashMap.erase_of_not_mem _ _ hkr, e]
            simp
          · have hk : tree_keys (.node lk lv ll lr) =
                tree_keys (remove_closest lk lv ll lr).2 ++
                  [(remove_closest lk lv ll lr).1.1] := by
              simp only [tree_keys, e, List.map_append, List.map_cons, List.map_nil]
            have hp := ordered_pairwise lt hlt _ h3
            rw [hk, List.pairwise_append] at hp
            have hmax : (remove_closest lk lv ll lr).1.1 ∈ tree_keys (.node lk lv ll lr) := by
              rw [hk]; simp
            refine ⟨?_, ?_, o, h4⟩
            · intro x hx
              exact hp.2.2 x hx _ (List.mem_singleton_self _)
            · intro x hx
              exact hlt.2.1 _ k x (h1 _ hmax) (h2 x hx)
    · have e' : ¬ key = k := fun h' => e h'.symm
      by_cases c : lt key k = true
      · simp only [e, c, if_true, if_false] at h
        obtain ⟨l', hl1, hl2, hl3⟩ := ihl h3 h
        have hnr : key ∉ HashMap.keys (copy_to_queue r) := by
          intro hm
          have := strictTotal_asymm hlt k key (h2 key hm)
          rw [c] at this
          cases this
        refine ⟨.node k w l' r, by simp [remove, e', c, hl1], ?_, ?_⟩
        · have hc : ∀ a : TN K V, copy_to_queue (.node k w a r) =
              copy_to_queue a ++ (k, w) :: copy_to_queue r := fun _ => rfl
          rw [hc, hc, erase_append, hl2,
            HashMap.erase_cons_ne _ _ _ _ e, HashMap.erase_of_not_mem _ _ hnr]
        · refine ⟨?_, h2, hl3, h4⟩
          intro x hx
          apply h1
          have : x ∈ HashMap.keys (copy_to_queue l') := hx
          rw [hl2, HashMap.mem_keys_erase] at this
          exact this.1
      · simp only [e, c, Bool.false_eq_true, if_false] at h
        obtain ⟨r', hr1, hr2, hr3⟩ := ihr h4 h
        have hnl : key ∉ HashMap.keys (copy_to_queue l) := fun hm => c (h1 key hm)
        refine ⟨.node k w l r', by simp [remove, e', c, hr1], ?_, ?_⟩
        · have hc : ∀ a : TN K V, copy_to_queue (.node k w l a) =
              copy_to_queue l ++ (k, w) :: copy_to_queue a := fun _ => rfl
          rw [hc, hc, erase_append, hr2,
            HashMap.erase_cons_ne _ _ _ _ e, HashMap.erase_of_not_mem _ _ hnl]
        · refine ⟨h1, ?_, h3, hr3⟩
          intro x hx
          apply h2
          have : x ∈ HashMap.keys (copy_to_queue r') := hx
          rw [hr2, HashMap.mem_keys_erase] at this
          exact this.1

end BSTMap

/-! ## BSTMap: maps built by the public operations -/

namespace BSTMap
variable {K V : Type} [DecidableEq K]

theorem nat_lt_strictTotal : StrictTotal nat_lt.call := by
  refine ⟨?_, ?_, ?_⟩
  · intro a; simp [nat_lt]
  · intro a b c h1 h2
    simp only [nat_lt, decide_eq_true_eq] at *
    omega
  · intro a b h
    simp only [nat_lt, decide_eq_true_eq]
    omega

theorem erase_absent (m : BSTMap K V) (key : K)
    (h : find_value m.lt.call m.map key = none) : m.erase key = (.error .KeyError, m) := by
  unfold erase
  rw [remove_none _ _ _ h]

theorem erase_present (m : BSTMap K V) (hlt : StrictTotal m.lt.call)
    (ho : Ordered m.lt.call m.map) (key : K) (v : V)
    (h : find_value m.lt.call m.map key = some v) :
    ∃ t', m.erase key =
        (.ok v, { m with map := t', mod_count := m.mod_count + 1, used := m.used - 1 }) ∧
      copy_to_queue t' = HashMap.erase (copy_to_queue m.map) key ∧ Ordered m.lt.call t' := by
  obtain ⟨t', h1, h2, h3⟩ := remove_some m.lt.call hlt m.map key ho v h
  refine ⟨t', ?_, h2, h3⟩
  unfold erase
  rw [h1]

theorem built_inv [Inhabited V] (m : BSTMap K V) (h : Built m) :
    StrictTotal m.lt.call ∧ Ordered m.lt.call m.map ∧
      m.used = ((copy_to_queue m.map).length : Int) := by
  induction h with
  | new tlt clt m hn hs =>
    obtain ⟨h1, h2⟩ := new_ok hn
    rw [h1, h2]
    exact ⟨hs, trivial, rfl⟩
  | put m key value _ ih =>
    obtain ⟨h1, h2, h3⟩ := ih
    refine ⟨h1, ordered_insert _ h1 _ _ _ _ h2, ?_⟩
    show (insert m.lt.call m.map key value m.used).2.1 =
      ((copy_to_queue (insert m.lt.call m.map key value m.used).1).length : Int)
    rw [insert_snd, length_insert, h3]
  | index m key _ ih =>
    obtain ⟨h1, h2, h3⟩ := ih
    have e := find_addempty_eq m.lt.call m.map key m.used m.mod_count
    show StrictTotal m.lt.call ∧
      Ordered m.lt.call (find_addempty m.lt.call m.map key m.used m.mod_count).1 ∧
      (find_addempty m.lt.call m.map key m.used m.mod_count).2.1 =
        ((copy_to_queue (find_addempty m.lt.call m.map key m.used m.mod_count).1).length : Int)
    rw [e]
    by_cases c : (find_value m.lt.call m.map key).isSome = true
    · simp only [c, if_true]
      exact ⟨h1, h2, h3⟩
    · simp only [c, Bool.false_eq_true, if_false]
      refine ⟨h1, ordered_insert _ h1 _ _ _ _ h2, ?_⟩
      rw [length_insert, h3]
      simp [c]
  | erase m key _ ih =>
    obtain ⟨h1, h2, h3⟩ := ih
    cases hf : find_value m.lt.call m.map key with
    | none =>
      rw [erase_absent m key hf]
      exact ⟨h1, h2, h3⟩
    | some v =>
      obtain ⟨t', e1, e2, e3⟩ := erase_present m h1 h2 key v hf
      rw [e1]
      refine ⟨h1, e3, ?_⟩
      show m.used - 1 = ((copy_to_queue t').length : Int)
      rw [e2, h3]
      have hk : key ∈ HashMap.keys (copy_to_queue m.map) := by
        rw [← HashMap.get?_isSome_iff, ← find_value_eq_get? _ h1 _ h2, hf]
        rfl
      have := HashMap.size_erase_of_mem (copy_to_queue m.map) key
        (ordered_nodup _ h1 _ h2) hk
      simp only [HashMap.size] at this
      omega
  | clear m _ ih =>
    exact ⟨ih.1, trivial, rfl⟩
  | assign m rhs _ _ _ ih =>
    obtain ⟨h1, h2, h3⟩ := ih
    show StrictTotal rhs.lt.call ∧ Ordered rhs.lt.call (copy rhs.map) ∧
      rhs.used = ((copy_to_queue (copy rhs.map)).length : Int)
    rw [copy_eq]
    exact ⟨h1, h2, h3⟩

/-! ## BSTMap: the search-tree order, erase, put and operator[] -/

/-- C27: a map obtained from an empty map with a strict total order `lt` by `put`,
`operator[]`, `erase`, `clear` and `operator=` keeps the search-tree order: at every node
the keys of the left subtree are `lt` the node's key and the node's key is `lt` the keys of
the right subtree, and no key occurs twice.  Hence `has_key` holds exactly for the stored
keys, the in-order traversal `copy_to_queue` lists the entries in strictly ascending key
order, and `size` is the number of entries. -/
theorem search_tree_order [Inhabited V] (m : BSTMap K V) (hm : Built m) :
    Ordered m.lt.call m.map ∧
    (tree_keys m.map).Nodup ∧
    (∀ key, m.has_key key = true ↔ key ∈ tree_keys m.map) ∧
    (∀ e ∈ copy_to_queue m.map, m.has_key e.1 = true ∧
      find_value m.lt.call m.map e.1 = some e.2) ∧
    (copy_to_queue m.map).Pairwise (fun a b => m.lt.call a.1 b.1 = true) ∧
    m.size = ((copy_to_queue m.map).length : Int) := by
  obtain ⟨h1, h2, h3⟩ := built_inv m hm
  have hn := ordered_nodup _ h1 _ h2
  have hk : ∀ key, m.has_key key = true ↔ key ∈ tree_keys m.map := by
    intro key
    rw [has_key_eq]
    exact find_value_isSome_iff _ h1 _ h2 key
  refine ⟨h2, hn, hk, ?_, ?_, h3⟩
  · intro e he
    refine ⟨(hk e.1).2 (List.mem_map_of_mem Prod.fst he), ?_⟩
    rw [find_value_eq_get? _ h1 _ h2]
    exact HashMap.get?_of_mem hn he
  · have := ordered_pairwise _ h1 _ h2
    unfold tree_keys at this
    exact List.pairwise_map.1 this

/-- C28: for a map built by the public operations with a strict total order, `erase(key)`
on a present key returns the value stored for the key, removes that entry and no other
(every other key keeps its value, the in-order entries are the old ones without the entry
of the key) and makes `size()` one less; on an absent key it fails with `KeyError` and the
map is as it was. -/
theorem erase_spec [Inhabited V] (m : BSTMap K V) (hm : Built m) (key : K) :
    (m.has_key key = true →
      ∃ v, find_value m.lt.call m.map key = some v ∧ (key, v) ∈ copy_to_queue m.map ∧
        (m.erase key).1 = .ok v ∧
        (m.erase key).2.has_key key = false ∧
        (∀ k', k' ≠ key →
          (m.erase key).2.has_key k' = m.has_key k' ∧
          find_value (m.erase key).2.lt.call (m.erase key).2.map k' =
            find_value m.lt.call m.map k') ∧
        copy_to_queue (m.erase key).2.map =
          (copy_to_queue m.map).filter (fun e => decide (e.1 ≠ key)) ∧
        (m.erase key).2.size = m.size - 1) ∧
    (m.has_key key = false → m.erase key = (.error .KeyError, m)) := by
  obtain ⟨h1, h2, h3⟩ := built_inv m hm
  constructor
  · intro hk
    rw [has_key_eq] at hk
    obtain ⟨v, hv⟩ := Option.isSome_iff_exists.1 hk
    obtain ⟨t', e1, e2, e3⟩ := erase_present m h1 h2 key v hv
    have hfind : ∀ k', find_value m.lt.call t' k' =
        if k' = key then none else find_value m.lt.call m.map k' := by
      intro k'
      rw [find_value_eq_get? _ h1 _ e3, e2, HashMap.get?_erase, find_value_eq_get? _ h1 _ h2]
    refine ⟨v, hv, ?_, ?_, ?_, ?_, ?_, ?_⟩
    · apply HashMap.mem_of_get?
      rw [← find_value_eq_get? _ h1 _ h2]
      exact hv
    · rw [e1]
    · rw [e1, has_key_eq]
      show (find_value m.lt.call t' key).isSome = false
      rw [hfind]
      simp
    · intro k' hne
      rw [e1, has_key_eq, has_key_eq]
      show (find_value m.lt.call t' k').isSome = _ ∧ find_value m.lt.call t' k' = _
      rw [hfind]
      simp [hne]
    · rw [e1]
      exact e2
    · rw [e1]
      rfl
  · intro hk
    rw [has_key_eq] at hk
    apply erase_absent
    cases hf : find_value m.lt.call m.map key with
    | none => rfl
    | some v => rw [hf] at hk; cases hk

/-- C29: for every map, `put(k,v)` returns the value stored for `k` before the call when
`k` was present and `v` when it was absent; afterwards `has_key(k)` holds, `m[k]` is `v`,
every other key is present as before with its value, and `size()` is one more exactly when
`k` was absent.  `operator[](k)` on an absent key adds `k` with the default value and makes
`size()` one more; on a present key it returns the stored value and leaves the map as it
was. -/
theorem put_spec [Inhabited V] (m : BSTMap K V) (k : K) (v : V) :
    (∀ w, find_value m.lt.call m.map k = some w → (m.put k v).1 = w) ∧
    (m.has_key k = false → (m.put k v).1 = v) ∧
    (m.put k v).2.has_key k = true ∧
    find_value (m.put k v).2.lt.call (m.put k v).2.map k = some v ∧
    ((m.put k v).2.index k).1 = v ∧
    (∀ k', k' ≠ k →
      (m.put k v).2.has_key k' = m.has_key k' ∧
      find_value (m.put k v).2.lt.call (m.put k v).2.map k' =
        find_value m.lt.call m.map k') ∧
    (m.put k v).2.size = (if m.has_key k = true then m.size else m.size + 1) ∧
    (m.has_key k = false →
      (m.index k).1 = default ∧ (m.index k).2.has_key k = true ∧
      find_value (m.index k).2.lt.call (m.index k).2.map k = some default ∧
      (∀ k', k' ≠ k →
        (m.index k).2.has_key k' = m.has_key k' ∧
        find_value (m.index k).2.lt.call (m.index k).2.map k' =
          find_value m.lt.call m.map k') ∧
      (m.index k).2.size = m.size + 1) ∧
    (m.has_key k = true →
      (m.index k).2 = m ∧ find_value m.lt.call m.map k = some (m.index k).1) := by
  have hput : ∀ k', find_value (m.put k v).2.lt.call (m.put k v).2.map k' =
      if k' = k then some v else find_value m.lt.call m.map k' :=
    fun k' => find_value_insert m.lt.call m.map k v m.used k'
  have hidx := find_addempty_eq m.lt.call m.map k m.used m.mod_count
  refine ⟨?_, ?_, ?_, ?_, ?_, ?_, ?_, ?_, ?_⟩
  · intro w hw
    show (insert m.lt.call m.map k v m.used).2.2 = w
    rw [insert_snd, hw]
    rfl
  · intro hk
    rw [has_key_eq] at hk
    show (insert m.lt.call m.map k v m.used).2.2 = v
    rw [insert_snd]
    cases hf : find_value m.lt.call m.map k with
    | none => rfl
    | some w => rw [hf] at hk; cases hk
  · rw [has_key_eq, hput]
    simp
  · rw [hput]
    simp
  · show (find_addempty (m.put k v).2.lt.call (m.put k v).2.map k (m.put k v).2.used
      (m.put k v).2.mod_count).2.2.2 = v
    rw [find_addempty_eq, hput]
    simp
  · intro k' hne
    rw [has_key_eq, has_key_eq, hput]
    simp [hne]
  · show (insert m.lt.call m.map k v m.used).2.1 = _
    rw [insert_snd, has_key_eq]
    rfl
  · intro hk
    rw [has_key_eq] at hk
    have hi : m.index k =
        (default, { m with
          map := (insert m.lt.call m.map k default m.used).1
          used := m.used + 1
          mod_count := m.mod_count + 1 }) := by
      unfold index
      rw [hidx]
      simp [hk]
    rw [hi]
    have hf : ∀ k', find_value m.lt.call (insert m.lt.call m.map k default m.used).1 k' =
        if k' = k then some default else find_value m.lt.call m.map k' :=
      fun k' => find_value_insert m.lt.call m.map k default m.used k'
    refine ⟨rfl, ?_, ?_, ?_, rfl⟩
    · rw [has_key_eq]
      show (find_value m.lt.call (insert m.lt.call m.map k default m.used).1 k).isSome = true
      rw [hf]; simp
    · show find_value m.lt.call (insert m.lt.call m.map k default m.used).1 k = _
      rw [hf]; simp
    · intro k' hne
      rw [has_key_eq, has_key_eq]
      show (find_value m.lt.call (insert m.lt.call m.map k default m.used).1 k').isSome = _ ∧
        find_value m.lt.call (insert m.lt.call m.map k default m.used).1 k' = _
      rw [hf]; simp [hne]
  · intro hk
    rw [has_key_eq] at hk
    obtain ⟨w, hw⟩ := Option.isSome_iff_exists.1 hk
    have hi : m.index k = (w, m) := by
      unfold index
      rw [hidx]
      simp [hw]
    rw [hi]
    exact ⟨rfl, hw⟩

end BSTMap

namespace BSTMap

theorem sample_map_built : Built sample_map :=
  Built.put _ 4 40 (Built.put _ 8 80 (Built.put _ 3 30 (Built.put _ 5 50
    (Built.new none (some nat_lt) sample_empty_map rfl nat_lt_strictTotal))))

/-- C27 at the sample map, built by putting 5, 3, 8, 4: the in-order entries are those of
the keys 3, 4, 5, 8. -/
theorem search_tree_order_witness :
    Built sample_map ∧
    copy_to_queue sample_map.map = [(3, 30), (4, 40), (5, 50), (8, 80)] ∧
    Ordered sample_map.lt.call sample_map.map ∧
    (tree_keys sample_map.map).Nodup ∧
    (copy_to_queue sample_map.map).Pairwise (fun a b => sample_map.lt.call a.1 b.1 = true) ∧
    sample_map.size = 4 :=
  ⟨sample_map_built, by decide, (search_tree_order sample_map sample_map_built).1,
    (search_tree_order sample_map sample_map_built).2.1,
    (search_tree_order sample_map sample_map_built).2.2.2.2.1, by decide⟩

/-- C28 at the sample map: erasing the root key 5 returns 50 and leaves the keys 3, 4, 8;
erasing the absent key 7 fails and leaves the map as it was. -/
theorem erase_spec_witness :
    Built sample_map ∧ sample_map.has_key 5 = true ∧ sample_map.has_key 7 = false ∧
    (sample_map.erase 5).1 = .ok 50 ∧
    copy_to_queue (sample_map.erase 5).2.map = [(3, 30), (4, 40), (8, 80)] ∧
    (sample_map.erase 5).2.size = sample_map.size - 1 ∧
    sample_map.erase 7 = (.error .KeyError, sample_map) :=
  ⟨sample_map_built, by decide, by decide, by rfl, by decide,
    let ⟨_, _, _, _, _, _, _, h⟩ := (erase_spec sample_map sample_map_built 5).1 (by decide)
    h,
    (erase_spec sample_map sample_map_built 7).2 (by decide)⟩

/-- C29 at the sample map: putting 33 at the present key 3 returns 30 and keeps the size;
putting 70 at the absent key 7 returns 70 and makes the size one more. -/
theorem put_spec_witness :
    (sample_map.put 3 33).1 = 30 ∧ (sample_map.put 3 33).2.size = 4 ∧
    (sample_map.put 7 70).1 = 70 ∧ (sample_map.put 7 70).2.size = 5 ∧
    ((sample_map.put 7 70).2.index 7).1 = 70 ∧
    (sample_map.index 7).1 = 0 ∧ (sample_map.index 7).2.size = 5 ∧
    (sample_map.index 3).2 = sample_map :=
  ⟨(put_spec sample_map 3 33).1 30 (by rfl), by decide,
    (put_spec sample_map 7 70).2.1 (by decide), by decide,
    (put_spec sample_map 7 70).2.2.2.2.1,
    ((put_spec sample_map 7 0).2.2.2.2.2.2.2.1 (by decide)).1, by decide,
    ((put_spec sample_map 3 0).2.2.2.2.2.2.2.2 (by decide)).1⟩

end BSTMap

/-! ## LinkedPriorityQueue: the enqueue loop -/

namespace LinkedPriorityQueue
variable {T : Type}

theorem swap_loop_perm (gt : T → T → Bool) (x : T) (q : List T) :
    (swap_loop gt x q).Perm (x :: q) := by
  induction q with
  | nil => exact List.Perm.refl _
  | cons y ys ih =>
    unfold swap_loop
    split
    · exact (List.Perm.cons y ih).trans (List.Perm.swap x y ys)
    · exact List.Perm.refl _

theorem swap_loop_pairwise (gt : T → T → Bool) (hgt : StrictOrder gt) (x : T) (q : List T)
    (hq : q.Pairwise (fun a b => gt b a = false)) :
    (swap_loop gt x q).Pairwise (fun a b => gt b a = false) := by
  induction q with
  | nil => simp [swap_loop]
  | cons y ys ih =>
    obtain ⟨hy, hys⟩ := List.pairwise_cons.1 hq
    unfold swap_loop
    by_cases c : gt x y = true
    · simp only [c, Bool.not_true, Bool.false_eq_true, if_false]
      refine List.pairwise_cons.2 ⟨?_, hq⟩
      intro b hb
      rcases List.mem_cons.1 hb with rfl | hb
      · exact hgt.1 x b c
      · cases hbx : gt b x with
        | false => rfl
        | true =>
          have h1 := hgt.2 b x y hbx c
          rw [hy b hb] at h1
          cases h1
    · have c' : gt x y = false := by
        cases h : gt x y with
        | false => rfl
        | true => exact absurd h c
      simp only [c', Bool.not_false, if_true]
      refine List.pairwise_cons.2 ⟨?_, ih hys⟩
      intro b hb
      rcases List.mem_cons.1 ((swap_loop_perm gt x ys).subset hb) with rfl | hb
      · exact c'
      · exact hy b hb

theorem new_queue_ok {tgt cgt : Option (FnPtr T)} {q : LinkedPriorityQueue T}
    (h : LinkedPriorityQueue.new tgt cgt = .ok q) : q.front = [] ∧ q.used = 0 := by
  unfold LinkedPriorityQueue.new at h
  split at h
  · cases h
  · split at h
    · cases h
    · cases h
      exact ⟨rfl, rfl⟩

theorem dequeue_of_used_zero (q : LinkedPriorityQueue T) (hu : q.used = 0) :
    q.dequeue = (.error .EmptyError, q) := by
  unfold dequeue empty
  simp [hu]

theorem dequeue_cons (q : LinkedPriorityQueue T) (x : T) (rest : List T)
    (hf : q.front = x :: rest) (hu : q.used ≠ 0) :
    q.dequeue =
      (.ok x, { q with front := rest, used := q.used - 1, mod_count := q.mod_count + 1 }) := by
  unfold dequeue empty
  simp only [hu, decide_False, Bool.false_eq_true, if_false]
  rw [hf]

theorem peek_cons (q : LinkedPriorityQueue T) (x : T) (rest : List T)
    (hf : q.front = x :: rest) (hu : q.used ≠ 0) : q.peek = .ok x := by
  unfold peek empty
  simp only [hu, decide_False, Bool.false_eq_true, if_false]
  rw [hf]

theorem apply_inv (q : LinkedPriorityQueue T) (op : Op T) (hgt : StrictOrder q.gt.call)
    (hp : q.front.Pairwise (fun a b => q.gt.call b a = false))
    (hu : q.used = (q.front.length : Int)) :
    (q.apply op).gt = q.gt ∧
    (q.apply op).front.Pairwise (fun a b => q.gt.call b a = false) ∧
    (q.apply op).used = ((q.apply op).front.length : Int) := by
  cases op with
  | enqueue x =>
    refine ⟨rfl, swap_loop_pairwise _ hgt x _ hp, ?_⟩
    show q.used + 1 = ((swap_loop q.gt.call x q.front).length : Int)
    rw [(swap_loop_perm q.gt.call x q.front).length_eq, hu]
    simp
  | dequeue =>
    show (q.dequeue.2).gt = q.gt ∧
      (q.dequeue.2).front.Pairwise (fun a b => q.gt.call b a = false) ∧
      (q.dequeue.2).used = (((q.dequeue.2).front.length : Nat) : Int)
    cases hf : q.front with
    | nil =>
      have hu0 : q.used = 0 := by rw [hu, hf]; rfl
      rw [dequeue_of_used_zero q hu0]
      exact ⟨rfl, hp, hu⟩
    | cons x rest =>
      have hne : q.used ≠ 0 := by
        rw [hu, hf]; simp only [List.length_cons, Nat.cast_add, Nat.cast_one]; omega
      rw [dequeue_cons q x rest hf hne]
      rw [hf] at hp hu
      refine ⟨rfl, (List.pairwise_cons.1 hp).2, ?_⟩
      show q.used - 1 = (rest.length : Int)
      rw [hu]; simp

theorem run_inv (ops : List (Op T)) :
    ∀ q : LinkedPriorityQueue T, StrictOrder q.gt.call →
      q.front.Pairwise (fun a b => q.gt.call b a = false) →
      q.used = (q.front.length : Int) →
      (q.run ops).gt = q.gt ∧
      (q.run ops).front.Pairwise (fun a b => q.gt.call b a = false) ∧
      (q.run ops).used = ((q.run ops).front.length : Int) := by
  induction ops with
  | nil => intro q _ hp hu; exact ⟨rfl, hp, hu⟩
  | cons op ops ih =>
    intro q hgt hp hu
    obtain ⟨a1, a2, a3⟩ := apply_inv q op hgt hp hu
    have := ih (q.apply op) (by rw [a1]; exact hgt) (by rw [a1]; exact a2) a3
    rw [a1] at this
    exact this

theorem nat_gt_strictOrder : StrictOrder nat_gt.call := by
  refine ⟨?_, ?_⟩
  · intro a b h
    simp only [nat_gt, decide_eq_true_eq, decide_eq_false_iff_not] at *
    omega
  · intro a b c h1 h2
    simp only [nat_gt, decide_eq_true_eq] at *
    omega

/-! ## LinkedPriorityQueue: priority order -/

/-- C30: after any sequence of `enqueue` and `dequeue` on a queue constructed empty, with
`gt` asymmetric and transitive (as every strict weak ordering is), no element of the list
from the front has strictly higher priority than an element before it and `size()` is the
number of elements.  So on a non-empty queue `peek` and `dequeue` return the first element
`x`, `gt(y,x)` is false for every element `y` of the queue, and `dequeue` drops that one
occurrence of `x` and nothing else (`size()` one less); on an empty queue both fail with
`EmptyError` and the queue is as it was.  `enqueue` adds one occurrence of its argument and
keeps every other element. -/
theorem priority_order (tgt cgt : Option (FnPtr T)) (q0 : LinkedPriorityQueue T)
    (h0 : LinkedPriorityQueue.new tgt cgt = .ok q0) (hgt : StrictOrder q0.gt.call)
    (ops : List (Op T)) :
    (q0.run ops).front.Pairwise (fun a b => (q0.run ops).gt.call b a = false) ∧
    (q0.run ops).size = ((q0.run ops).front.length : Int) ∧
    (∀ x rest, (q0.run ops).front = x :: rest →
      (q0.run ops).peek = .ok x ∧ (q0.run ops).dequeue.1 = .ok x ∧
      (∀ y ∈ (q0.run ops).front, (q0.run ops).gt.call y x = false) ∧
      (q0.run ops).front = x :: (q0.run ops).dequeue.2.front ∧
      (q0.run ops).dequeue.2.size = (q0.run ops).size - 1) ∧
    ((q0.run ops).front = [] →
      (q0.run ops).peek = .error .EmptyError ∧
      (q0.run ops).dequeue = (.error .EmptyError, q0.run ops)) ∧
    (∀ e, ((q0.run ops).enqueue e).2.front.Perm (e :: (q0.run ops).front) ∧
      ((q0.run ops).enqueue e).2.size = (q0.run ops).size + 1) := by
  obtain ⟨f0, u0⟩ := new_queue_ok h0
  obtain ⟨a1, a2, a3⟩ := run_inv ops q0 hgt (by rw [f0]; exact List.Pairwise.nil)
    (by rw [f0, u0]; rfl)
  rw [a1]
  refine ⟨a2, a3, ?_, ?_, ?_⟩
  · intro x rest hf
    have hu : (q0.run ops).used ≠ 0 := by
      rw [a3, hf]; simp only [List.length_cons, Nat.cast_add, Nat.cast_one]; omega
    have hp := a2
    rw [hf] at hp
    rw [dequeue_cons _ x rest hf hu]
    refine ⟨peek_cons _ x rest hf hu, rfl, ?_, hf, rfl⟩
    intro y hy
    rw [hf] at hy
    rcases List.mem_cons.1 hy with rfl | hy
    · cases h : q0.gt.call y y with
      | false => rfl
      | true => have := hgt.1 y y h; rw [h] at this; cases this
    · exact (List.pairwise_cons.1 hp).1 y hy
  · intro hf
    have hu : (q0.run ops).used = 0 := by rw [a3, hf]; rfl
    constructor
    · unfold peek empty
      simp [hu]
    · exact dequeue_of_used_zero _ hu
  · intro e
    exact ⟨swap_loop_perm _ e _, rfl⟩

/-- C30 at the sample queue: after enqueue 3, enqueue 7, dequeue, enqueue 5, enqueue 3,
enqueue 9 the list from the front is 9, 5, 3, 3. -/
theorem priority_order_witness :
    LinkedPriorityQueue.new none (some nat_gt) = .ok sample_empty_queue ∧
    StrictOrder sample_empty_queue.gt.call ∧
    (sample_empty_queue.run sample_ops).front = [9, 5, 3, 3] ∧
    (sample_empty_queue.run sample_ops).peek = .ok 9 ∧
    (sample_empty_queue.run sample_ops).dequeue.2.front = [5, 3, 3] ∧
    (sample_empty_queue.run sample_ops).front.Pairwise
      (fun a b => (sample_empty_queue.run sample_ops).gt.call b a = false) :=
  ⟨rfl, nat_gt_strictOrder, by decide, by rfl, by decide,
    (priority_order none (some nat_gt) sample_empty_queue rfl nat_gt_strictOrder
      sample_ops).1⟩

end LinkedPriorityQueue

/-! ## Heaps of list nodes and list segments -/

namespace Heap
variable {T : Type}

theorem cell_lt {h : Heap T} {a : Nat} {n : LN T} (hc : cell h a = some n) : a < h.length := by
  by_contra hlt
  have : h[a]? = none := List.getElem?_eq_none (Nat.le_of_not_lt hlt)
  simp [cell, this] at hc

theorem length_write (h : Heap T) (a : Nat) (n : LN T) : (write h a n).length = h.length := by
  simp [write]

theorem length_delete (h : Heap T) (a : Nat) : (delete h a).length = h.length := by
  simp [delete]

theorem length_alloc (h : Heap T) (n : LN T) : (alloc h n).length = h.length + 1 := by
  simp [alloc]

theorem cell_write_self (h : Heap T) (a : Nat) (n : LN T) (ha : a < h.length) :
    cell (write h a n) a = some n := by
  simp [cell, write, List.getElem?_set_self, ha]

theorem cell_write_ne (h : Heap T) {a b : Nat} (n : LN T) (hab : a ≠ b) :
    cell (write h a n) b = cell h b := by
  simp [cell, write, List.getElem?_set_ne hab]

theorem cell_delete_self (h : Heap T) (a : Nat) : cell (delete h a) a = none := by
  unfold cell delete
  by_cases ha : a < h.length
  · simp [List.getElem?_set_self, ha]
  · rw [List.getElem?_eq_none (by simpa using ha)]
    rfl

theorem cell_delete_ne (h : Heap T) {a b : Nat} (hab : a ≠ b) :
    cell (delete h a) b = cell h b := by
  simp [cell, delete, List.getElem?_set_ne hab]

theorem cell_alloc_old (h : Heap T) (n : LN T) {b : Nat} (hb : b < h.length) :
    cell (alloc h n) b = cell h b := by
  simp [cell, alloc, List.getElem?_append_left hb]

theorem cell_alloc_new (h : Heap T) (n : LN T) : cell (alloc h n) h.length = some n := by
  simp [cell, alloc]

theorem seg_lt {h : Heap T} {ns : List (Nat × T)} :
    ∀ {p q : Option Nat}, Seg h p ns q → ∀ a ∈ ns.map Prod.fst, a < h.length := by
  induction ns with
  | nil => intro p q _ a ha; simp at ha
  | cons x ns ih =>
    obtain ⟨b, v⟩ := x
    intro p q hs a ha
    obtain ⟨_, nx, hc, hr⟩ := hs
    rcases List.mem_cons.1 ha with rfl | ha
    · exact cell_lt hc
    · exact ih hr a ha

theorem seg_frame {h h' : Heap T} {ns : List (Nat × T)} :
    ∀ {p q : Option Nat}, (∀ a ∈ ns.map Prod.fst, cell h' a = cell h a) →
      Seg h p ns q → Seg h' p ns q := by
  induction ns with
  | nil => intro p q _ hs; exact hs
  | cons x ns ih =>
    obtain ⟨b, v⟩ := x
    intro p q hf hs
    obtain ⟨hp, nx, hc, hr⟩ := hs
    refine ⟨hp, nx, ?_, ih (fun a ha => hf a (List.mem_cons_of_mem _ ha)) hr⟩
    rw [hf b (List.mem_cons_self _ _)]
    exact hc

theorem seg_append_iff {h : Heap T} {ns ms : List (Nat × T)} :
    ∀ {p q : Option Nat}, Seg h p (ns ++ ms) q ↔ ∃ r, Seg h p ns r ∧ Seg h r ms q := by
  induction ns with
  | nil =>
    intro p q
    constructor
    · intro hs; exact ⟨p, rfl, hs⟩
    · rintro ⟨r, hr, hs⟩
      have : p = r := hr
      rw [this]; exact hs
  | cons x ns ih =>
    obtain ⟨b, v⟩ := x
    intro p q
    constructor
    · rintro ⟨hp, nx, hc, hr⟩
      obtain ⟨r, h1, h2⟩ := ih.1 hr
      exact ⟨r, ⟨hp, nx, hc, h1⟩, h2⟩
    · rintro ⟨r, ⟨hp, nx, hc, h1⟩, h2⟩
      exact ⟨hp, nx, hc, ih.2 ⟨r, h1, h2⟩⟩

theorem seg_snoc {h : Heap T} {ns : List (Nat × T)} {p : Option Nat} {a : Nat} {v : T}
    {nx : Option Nat} (hs : Seg h p ns (some a)) (hc : cell h a = some ⟨v, nx⟩) :
    Seg h p (ns ++ [(a, v)]) nx :=
  seg_append_iff.2 ⟨some a, hs, rfl, nx, hc, rfl⟩

theorem seg_write {h : Heap T} {ns : List (Nat × T)} {p q : Option Nat} (a : Nat) (n : LN T)
    (ha : a ∉ ns.map Prod.fst) (hs : Seg h p ns q) : Seg (write h a n) p ns q :=
  seg_frame (fun _ hb => cell_write_ne h n (fun e => ha (e ▸ hb))) hs

theorem seg_delete {h : Heap T} {ns : List (Nat × T)} {p q : Option Nat} (a : Nat)
    (ha : a ∉ ns.map Prod.fst) (hs : Seg h p ns q) : Seg (delete h a) p ns q :=
  seg_frame (fun _ hb => cell_delete_ne h (fun e => ha (e ▸ hb))) hs

theorem seg_alloc {h : Heap T} {ns : List (Nat × T)} {p q : Option Nat} (n : LN T)
    (hs : Seg h p ns q) : Seg (alloc h n) p ns q :=
  seg_frame (fun b hb => cell_alloc_old h n (seg_lt hs b hb)) hs

end Heap

/-! ## LinkedSet: contains and insert -/

namespace Heap
variable {T : Type}

theorem length_le_of_nodup_lt (l : List Nat) (n : Nat) (hn : l.Nodup) (hl : ∀ a ∈ l, a < n) :
    l.length ≤ n := by
  have hs : l ⊆ List.range n := fun a ha => List.mem_range.2 (hl a ha)
  have := (List.subperm_of_subset hn hs).length_le
  simpa using this

theorem seg_isSome {h : Heap T} {ns : List (Nat × T)} {p : Option Nat} {t : Nat}
    (hs : Seg h p ns (some t)) : p.isSome = true := by
  cases ns with
  | nil => have : p = some t := hs; rw [this]; rfl
  | cons x ns => obtain ⟨a, v⟩ := x; rw [hs.1]; rfl

end Heap

namespace LinkedSet
variable {T : Type}
open Heap

theorem find_loop_spec [DecidableEq T] (h : Heap T) (e : T) (pre : List (Nat × T)) :
    ∀ (fuel : Nat) (p : Option Nat) (a : Nat) (n : LN T), Seg h p pre (some a) →
      cell h a = some n → e ∉ pre.map Prod.snd → (n.next = none ∨ n.value = e) →
      pre.length < fuel → find_loop h e fuel p = .ok a := by
  induction pre with
  | nil =>
    intro fuel p a n hs hc _ hstop hf
    have hp : p = some a := hs
    obtain ⟨fuel, rfl⟩ : ∃ k, fuel = k + 1 := ⟨fuel - 1, by simp at hf; omega⟩
    rw [hp]
    simp only [find_loop, hc]
    rcases hstop with h1 | h1
    · simp [h1]
    · simp [h1]
  | cons x pre ih =>
    obtain ⟨b, v⟩ := x
    intro fuel p a n hs hc he hstop hf
    obtain ⟨hp, nx, hcb, hr⟩ := hs
    obtain ⟨fuel, rfl⟩ : ∃ k, fuel = k + 1 := ⟨fuel - 1, by simp at hf; omega⟩
    have hv : v ≠ e := fun h' => he (by simp [h'])
    have he' : e ∉ pre.map Prod.snd := fun h' => he (by simp at h' ⊢; exact Or.inr h')
    rw [hp]
    simp only [find_loop, hcb, seg_isSome hr, hv, ne_eq, not_false_eq_true, and_self, if_true]
    exact ih fuel nx a n hr hc he' hstop (by simp at hf; omega)

theorem Rep.length_lt {s : LinkedSet T} {ns : List (Nat × T)} (hr : Rep s ns) :
    ns.length < s.heap.length := by
  obtain ⟨hs, ⟨t, tv, _, hc, hnt⟩, hna, _, _⟩ := hr
  have h1 : (t :: ns.map Prod.fst).Nodup := List.nodup_cons.2 ⟨hnt, hna⟩
  have h2 := length_le_of_nodup_lt _ s.heap.length h1 (by
    intro a ha
    rcases List.mem_cons.1 ha with rfl | ha
    · exact cell_lt hc
    · exact seg_lt hs a ha)
  simp at h2
  omega

theorem Rep.contains [DecidableEq T] {s : LinkedSet T} {ns : List (Nat × T)} (hr : Rep s ns) (e : T) :
    s.contains e = .ok (decide (e ∈ ns.map Prod.snd)) := by
  have hlen := hr.length_lt
  obtain ⟨hs, ⟨t, tv, ht, hc, hnt⟩, hna, hnv, _⟩ := hr
  rw [ht] at hs
  unfold LinkedSet.contains
  by_cases he : e ∈ ns.map Prod.snd
  · obtain ⟨x, hx, hxe⟩ := List.mem_map.1 he
    obtain ⟨pre, post, hsplit⟩ := List.append_of_mem hx
    obtain ⟨a, v⟩ := x
    simp only at hxe
    subst hxe
    subst hsplit
    obtain ⟨r, h1, h2⟩ := seg_append_iff.1 hs
    obtain ⟨hra, nx, hca, _⟩ := h2
    subst hra
    have hpre : v ∉ pre.map Prod.snd := by
      intro hm
      rw [List.map_append, List.map_cons] at hnv
      exact (List.nodup_append.1 hnv).2.2 hm (List.mem_cons_self _ _)
    rw [find_loop_spec s.heap v pre _ s.front a _ h1 hca hpre (Or.inr rfl)
      (by simp at hlen; omega)]
    have hat : a ≠ t := by
      intro h'
      apply hnt
      rw [← h']
      simp
    simp [ht, hat, he]
  · rw [find_loop_spec s.heap e ns _ s.front t _ hs hc he (Or.inl rfl) (by omega)]
    simp [ht, he]

theorem Rep.insert_new [DecidableEq T] [Inhabited T] {s : LinkedSet T} {ns : List (Nat × T)}
    (hr : Rep s ns) (e : T) (he : e ∉ ns.map Prod.snd) :
    ∃ t s', s.trailer = some t ∧ s.insert_new e = .ok (1, s') ∧ Rep s' (ns ++ [(t, e)]) ∧
      s'.mod_count = s.mod_count + 1 := by
  obtain ⟨hs, ⟨t, tv, ht, hc, hnt⟩, hna, hnv, hu⟩ := hr
  have htl := cell_lt hc
  refine ⟨t, (⟨alloc (write s.heap t ⟨e, some s.heap.length⟩) ⟨default, none⟩, s.front,
      some s.heap.length, s.used + 1, s.mod_count + 1⟩ : LinkedSet T), ht,
    by simp only [LinkedSet.insert_new, ht, hc], ?_, rfl⟩
  rw [ht] at hs
  have hct : cell (alloc (write s.heap t ⟨e, some s.heap.length⟩) ⟨default, none⟩) t =
      some ⟨e, some s.heap.length⟩ := by
    rw [cell_alloc_old _ _ (by rw [length_write]; exact htl), cell_write_self _ _ _ htl]
  refine ⟨?_, ⟨s.heap.length, default, rfl, ?_, ?_⟩, ?_, ?_, ?_⟩
  · exact seg_snoc (seg_alloc _ (seg_write t _ hnt hs)) hct
  · have := cell_alloc_new (write s.heap t ⟨e, some s.heap.length⟩) (⟨default, none⟩ : LN T)
    rw [length_write] at this
    exact this
  · intro hm
    rw [List.map_append, List.mem_append] at hm
    rcases hm with hm | hm
    · exact absurd (seg_lt hs _ hm) (lt_irrefl _)
    · simp at hm
      omega
  · rw [List.map_append]
    refine List.nodup_append.2 ⟨hna, by simp, ?_⟩
    intro a ha hb
    simp at hb
    exact hnt (hb ▸ ha)
  · rw [List.map_append]
    refine List.nodup_append.2 ⟨hnv, by simp, ?_⟩
    intro a ha hb
    simp at hb
    exact he (hb ▸ ha)
  · show s.used + 1 = _
    rw [hu]
    simp

theorem Rep.insert [DecidableEq T] [Inhabited T] {s : LinkedSet T} {ns : List (Nat × T)}
    (hr : Rep s ns) (e : T) :
    (e ∈ ns.map Prod.snd → s.insert e = .ok (0, s)) ∧
    (e ∉ ns.map Prod.snd →
      ∃ t s', s.insert e = .ok (1, s') ∧ Rep s' (ns ++ [(t, e)]) ∧
        s'.mod_count = s.mod_count + 1) := by
  constructor
  · intro he
    simp only [LinkedSet.insert, hr.contains e, he, decide_True]
  · intro he
    obtain ⟨t, s', _, h1, h2, h3⟩ := hr.insert_new e he
    refine ⟨t, s', ?_, h2, h3⟩
    simp only [LinkedSet.insert, hr.contains e, he, decide_False, h1]

theorem Rep.new [Inhabited T] : Rep (LinkedSet.new : LinkedSet T) [] :=
  ⟨rfl, ⟨0, default, rfl, rfl, by simp⟩, List.nodup_nil, List.nodup_nil, rfl⟩

end LinkedSet

/-! ## LinkedSet: erase -/

namespace LinkedSet
variable {T : Type}
open Heap

theorem Rep.erase_at_last [DecidableEq T] [Inhabited T] {s : LinkedSet T}
    {pre : List (Nat × T)} {a : Nat} {e : T} (hr : Rep s (pre ++ [(a, e)])) :
    ∃ s', s.erase_at a = .ok (1, s') ∧ Rep s' pre ∧ s'.mod_count = s.mod_count + 1 := by
  obtain ⟨hs, ⟨t, tv, ht, hc, hnt⟩, hna, hnv, hu⟩ := hr
  rw [ht] at hs
  obtain ⟨r, h1, hra, nx, hca, hnx⟩ := seg_append_iff.1 hs
  subst hra
  have hnx' : nx = some t := hnx
  subst hnx'
  have hal := cell_lt hca
  rw [List.map_append, List.map_cons, List.map_nil] at hna hnv hnt
  have hapre : a ∉ pre.map Prod.fst := fun hm =>
    (List.nodup_append.1 hna).2.2 hm (List.mem_singleton_self _)
  have htpre : t ∉ pre.map Prod.fst := fun hm => hnt (List.mem_append_left _ hm)
  refine ⟨{ s with heap := write (delete s.heap t) a ⟨e, none⟩, trailer := some a,
                   mod_count := s.mod_count + 1, used := s.used - 1 }, ?_, ?_, rfl⟩
  · simp only [LinkedSet.erase_at, hca, ht, hc, if_true]
  · refine ⟨?_, ⟨a, e, rfl, ?_, hapre⟩, (List.nodup_append.1 hna).1,
      (List.nodup_append.1 hnv).1, ?_⟩
    · exact seg_write a _ hapre (seg_delete t htpre h1)
    · exact cell_write_self _ _ _ (by rw [length_delete]; exact hal)
    · show s.used - 1 = _
      rw [hu]
      simp

theorem Rep.erase_at_inner [DecidableEq T] [Inhabited T] {s : LinkedSet T}
    {pre post : List (Nat × T)} {a b : Nat} {e w : T}
    (hr : Rep s (pre ++ (a, e) :: (b, w) :: post)) :
    ∃ s', s.erase_at a = .ok (1, s') ∧ Rep s' (pre ++ (a, w) :: post) ∧
      s'.mod_count = s.mod_count + 1 := by
  obtain ⟨hs, ⟨t, tv, ht, hc, hnt⟩, hna, hnv, hu⟩ := hr
  rw [ht] at hs
  obtain ⟨r, h1, hra, nx, hca, hnx⟩ := seg_append_iff.1 hs
  subst hra
  obtain ⟨hnb, nx2, hcb, hpost⟩ := hnx
  subst hnb
  have hal := cell_lt hca
  rw [List.map_append, List.map_cons, List.map_cons] at hna hnv hnt
  have hna' := List.nodup_append.1 hna
  have hapre : a ∉ pre.map Prod.fst := fun hm => hna'.2.2 hm (List.mem_cons_self _ _)
  have hbpre : b ∉ pre.map Prod.fst := fun hm =>
    hna'.2.2 hm (List.mem_cons_of_mem _ (List.mem_cons_self _ _))
  have hab : a ≠ b := fun h' => (List.nodup_cons.1 hna'.2.1).1 (h' ▸ List.mem_cons_self _ _)
  have hapost : a ∉ post.map Prod.fst := fun hm =>
    (List.nodup_cons.1 hna'.2.1).1 (List.mem_cons_of_mem _ hm)
  have hbpost : b ∉ post.map Prod.fst := fun hm =>
    (List.nodup_cons.1 (List.nodup_cons.1 hna'.2.1).2).1 hm
  have hta : t ≠ a := fun h' => hnt (List.mem_append_right _ (h' ▸ List.mem_cons_self _ _))
  have htb : t ≠ b := fun h' =>
    hnt (List.mem_append_right _ (List.mem_cons_of_mem _ (h' ▸ List.mem_cons_self _ _)))
  refine ⟨{ s with heap := delete (write s.heap a ⟨w, nx2⟩) b,
                   mod_count := s.mod_count + 1, used := s.used - 1 }, ?_, ?_, rfl⟩
  · have hne : ¬ (some b = some t) := fun h' => htb (Option.some.inj h').symm
    simp only [LinkedSet.erase_at, hca, ht, hne, if_false, hcb]
  · have hframe : ∀ (l : List (Nat × T)) (p q : Option Nat), a ∉ l.map Prod.fst →
        b ∉ l.map Prod.fst → Seg s.heap p l q →
        Seg (delete (write s.heap a ⟨w, nx2⟩) b) p l q :=
      fun l p q ha hb hl => seg_delete b hb (seg_write a _ ha hl)
    refine ⟨?_, ⟨t, tv, ht, ?_, ?_⟩, ?_, ?_, ?_⟩
    · show Seg _ s.front _ s.trailer
      rw [ht]
      refine seg_append_iff.2 ⟨some a, hframe _ _ _ hapre hbpre h1, rfl, nx2, ?_,
        hframe _ _ _ hapost hbpost hpost⟩
      rw [cell_delete_ne _ (Ne.symm hab), cell_write_self _ _ _ hal]
    · show cell (delete (write s.heap a ⟨w, nx2⟩) b) t = _
      rw [cell_delete_ne _ (Ne.symm htb), cell_write_ne _ _ (Ne.symm hta)]
      exact hc
    · intro hm
      apply hnt
      rw [List.map_append, List.map_cons, List.mem_append, List.mem_cons] at hm
      rcases hm with hm | hm | hm
      · exact List.mem_append_left _ hm
      · exact absurd hm hta
      · exact List.mem_append_right _ (List.mem_cons_of_mem _ (List.mem_cons_of_mem _ hm))
    · rw [List.map_append, List.map_cons]
      exact hna.sublist ((List.Sublist.refl _).append
        (List.Sublist.cons₂ _ (List.sublist_cons_self _ _)))
    · rw [List.map_append, List.map_cons]
      exact hnv.sublist ((List.Sublist.refl _).append
        (List.sublist_cons_self _ _))
    · show s.used - 1 = _
      rw [hu]
      simp only [List.length_append, List.length_cons, Nat.cast_add, Nat.cast_one]
      omega

theorem Rep.erase [DecidableEq T] [Inhabited T] {s : LinkedSet T} {ns : List (Nat × T)}
    (hr : Rep s ns) (e : T) :
    (e ∉ ns.map Prod.snd → s.erase e = .ok (0, s)) ∧
    (e ∈ ns.map Prod.snd →
      ∃ s' ns', s.erase e = .ok (1, s') ∧ Rep s' ns' ∧
        ns'.map Prod.snd = (ns.map Prod.snd).erase e ∧ s'.mod_count = s.mod_count + 1) := by
  have hlen := hr.length_lt
  have hr' := hr
  obtain ⟨hs, ⟨t, tv, ht, hc, hnt⟩, hna, hnv, hu⟩ := hr
  rw [ht] at hs
  constructor
  · intro he
    unfold LinkedSet.erase
    rw [find_loop_spec s.heap e ns _ s.front t _ hs hc he (Or.inl rfl) (by omega)]
    simp [ht]
  · intro he
    obtain ⟨x, hx, hxe⟩ := List.mem_map.1 he
    obtain ⟨pre, post, hsplit⟩ := List.append_of_mem hx
    obtain ⟨a, v⟩ := x
    simp only at hxe
    subst hxe
    subst hsplit
    obtain ⟨r, h1, hra, nx, hca, _⟩ := seg_append_iff.1 hs
    subst hra
    have hnv' := hnv
    rw [List.map_append, List.map_cons] at hnv'
    have hpre : v ∉ pre.map Prod.snd := fun hm =>
      (List.nodup_append.1 hnv').2.2 hm (List.mem_cons_self _ _)
    have hpost : v ∉ post.map Prod.snd := (List.nodup_cons.1 (List.nodup_append.1 hnv').2.1).1
    have hat : ¬ (some a = some t) := by
      intro h'
      apply hnt
      rw [← Option.some.inj h']
      simp
    have hfind : s.erase v = s.erase_at a := by
      unfold LinkedSet.erase
      rw [find_loop_spec s.heap v pre _ s.front a _ h1 hca hpre (Or.inr rfl)
        (by simp at hlen; omega)]
      simp only [ht, ne_eq, hat, not_false_eq_true, if_true]
    have hvals : (List.map Prod.snd (pre ++ (a, v) :: post)).erase v =
        pre.map Prod.snd ++ post.map Prod.snd := by
      rw [List.map_append, List.map_cons, List.erase_append_right _ hpre,
        List.erase_cons_head]
    rw [hfind, hvals]
    cases post with
    | nil =>
      obtain ⟨s', e1, e2, e3⟩ := hr'.erase_at_last
      exact ⟨s', pre, e1, e2, by simp, e3⟩
    | cons y post =>
      obtain ⟨b, w⟩ := y
      obtain ⟨s', e1, e2, e3⟩ := hr'.erase_at_inner
      exact ⟨s', _, e1, e2, by simp, e3⟩

end LinkedSet

/-! ## LinkedSet: delete_list, clear, insert_all and erase_all -/

namespace Heap
variable {T : Type}

theorem delete_loop_spec (ns : List (Nat × T)) :
    ∀ (fuel : Nat) (h : Heap T) (p : Option Nat), Seg h p ns none → (ns.map Prod.fst).Nodup →
      ns.length ≤ fuel →
      ∃ h', delete_loop fuel h p = .ok h' ∧ h'.length = h.length ∧
        (∀ b, b ∉ ns.map Prod.fst → cell h' b = cell h b) ∧
        (∀ b, b ∈ ns.map Prod.fst → cell h' b = none) := by
  induction ns with
  | nil =>
    intro fuel h p hs _ _
    have hp : p = none := hs
    subst hp
    refine ⟨h, ?_, rfl, fun _ _ => rfl, fun b hb => by simp at hb⟩
    cases fuel <;> rfl
  | cons x ns ih =>
    obtain ⟨a, v⟩ := x
    intro fuel h p hs hn hf
    obtain ⟨hp, nx, hc, hr⟩ := hs
    subst hp
    obtain ⟨fuel, rfl⟩ : ∃ k, fuel = k + 1 := ⟨fuel - 1, by simp at hf; omega⟩
    rw [List.map_cons, List.nodup_cons] at hn
    obtain ⟨h', e1, e2, e3, e4⟩ := ih fuel (delete h a) nx (seg_delete a hn.1 hr) hn.2
      (by simp at hf; omega)
    refine ⟨h', ?_, ?_, ?_, ?_⟩
    · simp only [delete_loop, hc]
      exact e1
    · rw [e2, length_delete]
    · intro b hb
      rw [List.map_cons, List.mem_cons, not_or] at hb
      rw [e3 b hb.2, cell_delete_ne _ (Ne.symm hb.1)]
    · intro b hb
      rw [List.map_cons, List.mem_cons] at hb
      by_cases hba : b ∈ ns.map Prod.fst
      · exact e4 b hba
      · rcases hb with hb | hb
        · rw [e3 b hba, hb]
          exact cell_delete_self h a
        · exact absurd hb hba

theorem chain_push {h : Heap T} {p : Option Nat} {ns : List (Nat × T)} {t : Nat} {tv : T}
    (hs : Seg h p ns (some t)) (hc : cell h t = some ⟨tv, none⟩) (hnt : t ∉ ns.map Prod.fst)
    (hna : (ns.map Prod.fst).Nodup) (w d : T) :
    Seg (alloc (write h t ⟨w, some h.length⟩) ⟨d, none⟩) p (ns ++ [(t, w)]) (some h.length) ∧
    cell (alloc (write h t ⟨w, some h.length⟩) ⟨d, none⟩) h.length = some ⟨d, none⟩ ∧
    h.length ∉ (ns ++ [(t, w)]).map Prod.fst ∧ ((ns ++ [(t, w)]).map Prod.fst).Nodup ∧
    (∀ b, b < h.length → b ≠ t →
      cell (alloc (write h t ⟨w, some h.length⟩) ⟨d, none⟩) b = cell h b) := by
  have htl := cell_lt hc
  have hct : cell (alloc (write h t ⟨w, some h.length⟩) ⟨d, none⟩) t =
      some ⟨w, some h.length⟩ := by
    rw [cell_alloc_old _ _ (by rw [length_write]; exact htl), cell_write_self _ _ _ htl]
  refine ⟨seg_snoc (seg_alloc _ (seg_write t _ hnt hs)) hct, ?_, ?_, ?_, ?_⟩
  · have := cell_alloc_new (write h t ⟨w, some h.length⟩) (⟨d, none⟩ : LN T)
    rw [length_write] at this
    exact this
  · intro hm
    rw [List.map_append, List.mem_append] at hm
    rcases hm with hm | hm
    · exact absurd (seg_lt hs _ hm) (lt_irrefl _)
    · simp at hm
      omega
  · rw [List.map_append]
    refine List.nodup_append.2 ⟨hna, by simp, ?_⟩
    intro a ha hb
    simp at hb
    exact hnt (hb ▸ ha)
  · intro b hb hbt
    rw [cell_alloc_old _ _ (by rw [length_write]; exact hb), cell_write_ne _ _ (Ne.symm hbt)]

end Heap

namespace LinkedSet
variable {T : Type}
open Heap

theorem Rep.full_chain {s : LinkedSet T} {ns : List (Nat × T)} (hr : Rep s ns) :
    ∃ t tv, s.trailer = some t ∧ Seg s.heap s.front (ns ++ [(t, tv)]) none ∧
      ((ns ++ [(t, tv)]).map Prod.fst).Nodup ∧ (ns ++ [(t, tv)]).length ≤ s.heap.length := by
  have hlen := hr.length_lt
  obtain ⟨hs, ⟨t, tv, ht, hc, hnt⟩, hna, _, _⟩ := hr
  rw [ht] at hs
  refine ⟨t, tv, ht, seg_snoc hs hc, ?_, by simp; omega⟩
  rw [List.map_append]
  refine List.nodup_append.2 ⟨hna, by simp, ?_⟩
  intro a ha hb
  simp at hb
  exact hnt (hb ▸ ha)

theorem rep_fresh [Inhabited T] (h : Heap T) (u : Int) :
    Rep (⟨alloc h ⟨default, none⟩, some h.length, some h.length, 0, u⟩ : LinkedSet T) [] :=
  ⟨rfl, ⟨h.length, default, rfl, cell_alloc_new h _, by simp⟩, List.nodup_nil, List.nodup_nil,
    rfl⟩

theorem Rep.delete_all {s : LinkedSet T} {ns : List (Nat × T)} (hr : Rep s ns) :
    ∃ h, delete_loop (s.heap.length + 1) s.heap s.front = .ok h ∧ h.length = s.heap.length := by
  obtain ⟨t, tv, _, h1, h2, h3⟩ := hr.full_chain
  obtain ⟨h, e1, e2, _, _⟩ := delete_loop_spec _ (s.heap.length + 1) s.heap s.front h1 h2
    (by omega)
  exact ⟨h, e1, e2⟩

theorem Rep.clear [Inhabited T] {s : LinkedSet T} {ns : List (Nat × T)} (hr : Rep s ns) :
    ∃ s', s.clear = .ok s' ∧ Rep s' [] := by
  obtain ⟨h, e1, _⟩ := hr.delete_all
  exact ⟨_, by simp only [LinkedSet.clear, e1], rep_fresh h (s.mod_count + 1)⟩

theorem Rep.insert_all [DecidableEq T] [Inhabited T] (i : List T) :
    ∀ {s : LinkedSet T} {ns : List (Nat × T)}, Rep s ns →
      ∃ r ns', s.insert_all i = .ok r ∧ Rep r.2 ns' ∧
        (∀ x, x ∈ ns'.map Prod.snd ↔ x ∈ ns.map Prod.snd ∨ x ∈ i) := by
  induction i with
  | nil =>
    intro s ns hr
    exact ⟨(0, s), ns, rfl, hr, by simp⟩
  | cons e es ih =>
    intro s ns hr
    by_cases he : e ∈ ns.map Prod.snd
    · obtain ⟨r, ns', e1, e2, e3⟩ := ih hr
      refine ⟨(0 + r.1, r.2), ns', ?_, e2, ?_⟩
      · simp only [LinkedSet.insert_all, (hr.insert e).1 he, e1]
      · intro x
        rw [e3 x, List.mem_cons]
        constructor
        · rintro (h | h)
          · exact Or.inl h
          · exact Or.inr (Or.inr h)
        · rintro (h | h | h)
          · exact Or.inl h
          · exact Or.inl (h ▸ he)
          · exact Or.inr h
    · obtain ⟨t, s', e0, hr', _⟩ := (hr.insert e).2 he
      obtain ⟨r, ns', e1, e2, e3⟩ := ih hr'
      refine ⟨(1 + r.1, r.2), ns', ?_, e2, ?_⟩
      · simp only [LinkedSet.insert_all, e0, e1]
      · intro x
        rw [e3 x, List.mem_cons, List.map_append, List.mem_append]
        simp only [List.map_cons, List.map_nil, List.mem_singleton]
        tauto

theorem Rep.erase_all [DecidableEq T] [Inhabited T] (i : List T) :
    ∀ {s : LinkedSet T} {ns : List (Nat × T)}, Rep s ns →
      ∃ r ns', s.erase_all i = .ok r ∧ Rep r.2 ns' ∧
        (∀ x, x ∈ ns'.map Prod.snd ↔ x ∈ ns.map Prod.snd ∧ x ∉ i) := by
  induction i with
  | nil =>
    intro s ns hr
    exact ⟨(0, s), ns, rfl, hr, by simp⟩
  | cons e es ih =>
    intro s ns hr
    by_cases he : e ∈ ns.map Prod.snd
    · obtain ⟨s', ns1, e0, hr', hv, _⟩ := (hr.erase e).2 he
      obtain ⟨r, ns', e1, e2, e3⟩ := ih hr'
      refine ⟨(1 + r.1, r.2), ns', ?_, e2, ?_⟩
      · simp only [LinkedSet.erase_all, e0, e1]
      · intro x
        rw [e3 x, hv, List.mem_cons, hr.2.2.2.1.mem_erase_iff]
        tauto
    · obtain ⟨r, ns', e1, e2, e3⟩ := ih hr
      refine ⟨(0 + r.1, r.2), ns', ?_, e2, ?_⟩
      · simp only [LinkedSet.erase_all, (hr.erase e).1 he, e1]
      · intro x
        rw [e3 x, List.mem_cons]
        constructor
        · rintro ⟨h1, h2⟩
          exact ⟨h1, fun h => h.elim (fun h' => he (h' ▸ h1)) h2⟩
        · rintro ⟨h1, h2⟩
          exact ⟨h1, fun h => h2 (Or.inr h)⟩

end LinkedSet

/-! ## LinkedSet: the copy constructor and retain_all -/

namespace LinkedSet
variable {T : Type}
open Heap

theorem append_loop_spec [Inhabited T] (rh : Heap T) (rt : Nat) (rtv : T)
    (hrt : cell rh rt = some ⟨rtv, none⟩) (p : Option Nat) (ms : List (Nat × T)) :
    ∀ (fuel : Nat) (h : Heap T) (t : Nat) (tv : T) (ns : List (Nat × T)) (rp : Option Nat),
      Seg rh rp ms (some rt) → Seg h p ns (some t) → cell h t = some ⟨tv, none⟩ →
      t ∉ ns.map Prod.fst → (ns.map Prod.fst).Nodup → ms.length < fuel →
      ∃ h' t' tv' ns', append_loop rh fuel h (some t) rp = .ok (h', some t') ∧
        Seg h' p ns' (some t') ∧ cell h' t' = some ⟨tv', none⟩ ∧ t' ∉ ns'.map Prod.fst ∧
        (ns'.map Prod.fst).Nodup ∧ ns'.map Prod.snd = ns.map Prod.snd ++ ms.map Prod.snd := by
  induction ms with
  | nil =>
    intro fuel h t tv ns rp hrs hs hc hnt hna hf
    have hrp : rp = some rt := hrs
    subst hrp
    obtain ⟨fuel, rfl⟩ : ∃ k, fuel = k + 1 := ⟨fuel - 1, by simp at hf; omega⟩
    refine ⟨h, t, tv, ns, ?_, hs, hc, hnt, hna, by simp⟩
    simp [append_loop, deref, hrt]
  | cons x ms ih =>
    obtain ⟨b, w⟩ := x
    intro fuel h t tv ns rp hrs hs hc hnt hna hf
    obtain ⟨hrp, nxr, hcb, hrr⟩ := hrs
    subst hrp
    obtain ⟨fuel, rfl⟩ : ∃ k, fuel = k + 1 := ⟨fuel - 1, by simp at hf; omega⟩
    obtain ⟨c1, c2, c3, c4, _⟩ := chain_push hs hc hnt hna w (default : T)
    obtain ⟨h', t', tv', ns', e1, e2, e3, e4, e5, e6⟩ :=
      ih fuel _ h.length default (ns ++ [(t, w)]) nxr hrr c1 c2 c3 c4 (by simp at hf; omega)
    refine ⟨h', t', tv', ns', ?_, e2, e3, e4, e5, ?_⟩
    · simp only [append_loop, deref, hcb, seg_isSome hrr, if_true, hc]
      exact e1
    · rw [e6]
      simp

theorem Rep.construct_copy [Inhabited T] (h0 : Heap T) {b : LinkedSet T}
    {ms : List (Nat × T)} (hb : Rep b ms) :
    ∃ s' ns', construct_copy h0 b = .ok s' ∧ Rep s' ns' ∧
      ns'.map Prod.snd = ms.map Prod.snd ∧ s'.used = b.used := by
  have hlen := hb.length_lt
  obtain ⟨hs, ⟨rt, rtv, ht, hc, _⟩, _, hnv, hu⟩ := hb
  rw [ht] at hs
  obtain ⟨h', t', tv', ns', e1, e2, e3, e4, e5, e6⟩ :=
    append_loop_spec b.heap rt rtv hc (some h0.length) ms (b.heap.length + 1)
      (alloc h0 ⟨default, none⟩) h0.length default [] b.front hs rfl (cell_alloc_new h0 _)
      (by simp) List.nodup_nil (by omega)
  simp only [List.map_nil, List.nil_append] at e6
  refine ⟨⟨h', some h0.length, some t', b.used, 0⟩, ns', ?_, ?_, e6, rfl⟩
  · simp only [LinkedSet.construct_copy, e1]
  · refine ⟨e2, ⟨t', tv', rfl, e3, e4⟩, e5, by rw [e6]; exact hnv, ?_⟩
    show b.used = _
    rw [hu]
    have := congrArg List.length e6
    simp only [List.length_map] at this
    rw [this]

theorem Rep.copy [Inhabited T] {b : LinkedSet T} {ms : List (Nat × T)} (hb : Rep b ms) :
    ∃ s' ns', b.copy = .ok s' ∧ Rep s' ns' ∧ ns'.map Prod.snd = ms.map Prod.snd ∧
      s'.used = b.used :=
  hb.construct_copy []

theorem Rep.retain_loop [DecidableEq T] [Inhabited T] {s : LinkedSet T} {ns : List (Nat × T)}
    (hr : Rep s ns) (i : List T) :
    ∀ {tr : LinkedSet T} {ks : List (Nat × T)}, Rep tr ks →
      ∃ tr' ks', retain_loop s tr i = .ok tr' ∧ Rep tr' ks' ∧
        (∀ x, x ∈ ks'.map Prod.snd ↔ x ∈ ks.map Prod.snd ∨ (x ∈ i ∧ x ∈ ns.map Prod.snd)) := by
  induction i with
  | nil =>
    intro tr ks hk
    exact ⟨tr, ks, rfl, hk, by simp⟩
  | cons e es ih =>
    intro tr ks hk
    by_cases he : e ∈ ns.map Prod.snd
    · by_cases hek : e ∈ ks.map Prod.snd
      · obtain ⟨tr', ks', e1, e2, e3⟩ := ih hk
        refine ⟨tr', ks', ?_, e2, ?_⟩
        · simp only [LinkedSet.retain_loop, hr.contains e, he, decide_True,
            (hk.insert e).1 hek, e1]
        · intro x
          rw [e3 x, List.mem_cons]
          constructor
          · rintro (h | ⟨h1, h2⟩)
            · exact Or.inl h
            · exact Or.inr ⟨Or.inr h1, h2⟩
          · rintro (h | ⟨h1 | h1, h2⟩)
            · exact Or.inl h
            · exact Or.inl (h1 ▸ hek)
            · exact Or.inr ⟨h1, h2⟩
      · obtain ⟨t, tr1, e0, hk', _⟩ := (hk.insert e).2 hek
        obtain ⟨tr', ks', e1, e2, e3⟩ := ih hk'
        refine ⟨tr', ks', ?_, e2, ?_⟩
        · simp only [LinkedSet.retain_loop, hr.contains e, he, decide_True, e0, e1]
        · intro x
          rw [e3 x, List.mem_cons, List.map_append, List.mem_append]
          simp only [List.map_cons, List.map_nil, List.mem_singleton]
          constructor
          · rintro ((h | h) | ⟨h1, h2⟩)
            · exact Or.inl h
            · exact Or.inr ⟨Or.inl h, h ▸ he⟩
            · exact Or.inr ⟨Or.inr h1, h2⟩
          · rintro (h | ⟨h1 | h1, h2⟩)
            · exact Or.inl (Or.inl h)
            · exact Or.inl (Or.inr h1)
            · exact Or.inr ⟨h1, h2⟩
    · obtain ⟨tr', ks', e1, e2, e3⟩ := ih hk
      refine ⟨tr', ks', ?_, e2, ?_⟩
      · simp only [LinkedSet.retain_loop, hr.contains e, he, decide_False, e1]
      · intro x
        rw [e3 x, List.mem_cons]
        constructor
        · rintro (h | ⟨h1, h2⟩)
          · exact Or.inl h
          · exact Or.inr ⟨Or.inr h1, h2⟩
        · rintro (h | ⟨h1 | h1, h2⟩)
          · exact Or.inl h
          · exact absurd (h1 ▸ h2) he
          · exact Or.inr ⟨h1, h2⟩

theorem Rep.retain_all [DecidableEq T] [Inhabited T] {s : LinkedSet T} {ns : List (Nat × T)}
    (hr : Rep s ns) (i : List T) :
    ∃ r ns', s.retain_all i = .ok r ∧ Rep r.2 ns' ∧
      (∀ x, x ∈ ns'.map Prod.snd ↔ x ∈ i ∧ x ∈ ns.map Prod.snd) := by
  obtain ⟨tr, ks, e1, e2, e3⟩ := hr.retain_loop i Rep.new
  obtain ⟨h, e4, _⟩ := hr.delete_all
  obtain ⟨s', ns', e5, e6, e7, _⟩ := e2.construct_copy h
  refine ⟨(s'.size, s'), ns', ?_, e6, ?_⟩
  · simp only [LinkedSet.retain_all, e1, e4, e5]
  · intro x
    rw [e7, e3 x]
    simp

end LinkedSet

/-! ## LinkedSet: operator= -/

namespace LinkedSet
variable {T : Type}
open Heap

theorem assign_loop_spec (rh : Heap T) (rt : Nat) (rtv : T)
    (hrt : cell rh rt = some ⟨rtv, none⟩) (t : Nat) (tv : T) (ms : List (Nat × T)) :
    ∀ (ns : List (Nat × T)) (fuel : Nat) (h : Heap T) (p rp : Option Nat),
      Seg rh rp ms (some rt) → Seg h p ns (some t) → cell h t = some ⟨tv, none⟩ →
      t ∉ ns.map Prod.fst → (ns.map Prod.fst).Nodup → ms.length < fuel →
      ∃ h' temp rtemp done rest mrest,
        assign_loop rh fuel h p rp = .ok (h', some temp, some rtemp) ∧
        Seg h' p done (some temp) ∧ Seg h' (some temp) rest (some t) ∧
        done.map Prod.fst ++ rest.map Prod.fst = ns.map Prod.fst ∧
        done.map Prod.snd ++ mrest.map Prod.snd = ms.map Prod.snd ∧
        Seg rh (some rtemp) mrest (some rt) ∧ (rest = [] ∨ mrest = []) ∧
        h'.length = h.length ∧ (∀ c, c ∉ ns.map Prod.fst → cell h' c = cell h c) := by
  induction ms with
  | nil =>
    intro ns fuel h p rp hrs hs hc hnt hna hf
    have hrp : rp = some rt := hrs
    subst hrp
    obtain ⟨fuel, rfl⟩ : ∃ k, fuel = k + 1 := ⟨fuel - 1, by simp at hf; omega⟩
    obtain ⟨temp, hp⟩ := Option.isSome_iff_exists.1 (seg_isSome hs)
    subst hp
    refine ⟨h, temp, rt, [], ns, [], ?_, rfl, hs, rfl, rfl, rfl, Or.inr rfl, rfl,
      fun _ _ => rfl⟩
    simp [assign_loop, deref, hrt]
  | cons x ms ih =>
    obtain ⟨b, w⟩ := x
    intro ns fuel h p rp hrs hs hc hnt hna hf
    obtain ⟨hrp, nxr, hcb, hrr⟩ := hrs
    subst hrp
    obtain ⟨fuel, rfl⟩ : ∃ k, fuel = k + 1 := ⟨fuel - 1, by simp at hf; omega⟩
    cases ns with
    | nil =>
      have hp : p = some t := hs
      subst hp
      refine ⟨h, t, b, [], [], (b, w) :: ms, ?_, rfl, rfl, rfl, rfl, ⟨rfl, nxr, hcb, hrr⟩,
        Or.inl rfl, rfl, fun _ _ => rfl⟩
      simp [assign_loop, deref, hcb, seg_isSome hrr, hc]
    | cons y ns =>
      obtain ⟨a, v⟩ := y
      obtain ⟨hp, nx, hca, hr⟩ := hs
      subst hp
      rw [List.map_cons, List.nodup_cons] at hna
      rw [List.map_cons, List.mem_cons, not_or] at hnt
      have hal := cell_lt hca
      obtain ⟨h', temp, rtemp, done, rest, mrest, e1, e2, e3, e4, e5, e6, e7, e8, e9⟩ :=
        ih ns fuel (write h a ⟨w, nx⟩) nx nxr hrr (seg_write a _ hna.1 hr)
          (by rw [cell_write_ne _ _ (Ne.symm hnt.1)]; exact hc) hnt.2 hna.2
          (by simp at hf; omega)
      refine ⟨h', temp, rtemp, (a, w) :: done, rest, mrest, ?_, ?_, e3, ?_, ?_, e6, e7, ?_, ?_⟩
      · simp only [assign_loop, deref, hcb, seg_isSome hrr, if_true, hca, seg_isSome hr]
        exact e1
      · refine ⟨rfl, nx, ?_, e2⟩
        rw [e9 a hna.1, cell_write_self _ _ _ hal]
      · simp [e4]
      · simp [e5]
      · rw [e8, length_write]
      · intro c hcn
        rw [List.map_cons, List.mem_cons, not_or] at hcn
        rw [e9 c hcn.2, cell_write_ne _ _ (Ne.symm hcn.1)]

theorem Rep.assign [DecidableEq T] [Inhabited T] {a b : LinkedSet T} {ns ms : List (Nat × T)}
    (ha : Rep a ns) (hb : Rep b ms) :
    ∃ s' ns', a.assign b = .ok s' ∧ Rep s' ns' ∧ ns'.map Prod.snd = ms.map Prod.snd ∧
      s'.used = b.used := by
  have halen := ha.length_lt
  have hblen := hb.length_lt
  have ha' := ha
  obtain ⟨hs, ⟨t, tv, ht, hc, hnt⟩, hna, _, _⟩ := ha
  obtain ⟨hrs, ⟨rt, rtv, hrt, hrc, _⟩, _, hmv, hbu⟩ := hb
  rw [ht] at hs
  rw [hrt] at hrs
  by_cases hbe : b.used = 0
  · obtain ⟨h, e1, _⟩ := ha'.delete_all
    have hms : ms = [] := by
      rw [hbu] at hbe
      exact List.length_eq_zero.1 (by exact_mod_cast hbe)
    subst hms
    refine ⟨_, [], by simp only [LinkedSet.assign, LinkedSet.empty, hbe, decide_True, if_true,
      e1], rep_fresh h (a.mod_count + 1), rfl, hbe.symm⟩
  · obtain ⟨h', temp, rtemp, done, rest, mrest, e1, e2, e3, e4, e5, e6, e7, e8, e9⟩ :=
      assign_loop_spec b.heap rt rtv hrc t tv ms ns (b.heap.length + 1) a.heap a.front b.front
        hrs hs hc hnt hna (by omega)
    have hassign : a.assign b = assign_rest a b h' (some temp) (some rtemp) := by
      simp only [LinkedSet.assign, LinkedSet.empty, hbe, decide_False, Bool.false_eq_true,
        if_false, e1]
    rw [hassign]
    have hct' : cell h' t = some ⟨tv, none⟩ := by rw [e9 t hnt]; exact hc
    have hdn : (done.map Prod.fst).Nodup := by
      rw [← e4] at hna
      exact (List.nodup_append.1 hna).1
    cases mrest with
    | cons y mrest =>
      obtain ⟨b0, w0⟩ := y
      have hrest : rest = [] := by
        rcases e7 with h1 | h1
        · exact h1
        · cases h1
      subst hrest
      have htemp : temp = t := Option.some.inj e3
      subst htemp
      obtain ⟨hrb, nxr, hcb0, hrr⟩ := e6
      have hrb' : rtemp = b0 := Option.some.inj hrb
      subst hrb'
      simp only [List.map_nil, List.append_nil] at e4
      have hlen5 := congrArg List.length e5
      simp only [List.length_append, List.length_map, List.length_cons] at hlen5
      obtain ⟨h2, t2, tv2, ns2, f1, f2, f3, f4, f5, f6⟩ :=
        append_loop_spec b.heap rt rtv hrc a.front ((rtemp, w0) :: mrest) (b.heap.length + 1) h'
          temp tv done (some rtemp) ⟨rfl, nxr, hcb0, hrr⟩ e2 hct' (by rw [e4]; exact hnt) hdn
          (by simp only [List.length_cons]; omega)
      refine ⟨⟨h2, a.front, some t2, b.size, a.mod_count + 1⟩, ns2, ?_, ?_, ?_, rfl⟩
      · simp only [assign_rest, deref, hcb0, hct', seg_isSome hrr, and_self, if_true, ht, f1]
      · refine ⟨f2, ⟨t2, tv2, rfl, f3, f4⟩, f5, by rw [f6, e5]; exact hmv, ?_⟩
        show b.used = _
        rw [hbu]
        have := congrArg List.length (f6.trans e5)
        simp only [List.length_map] at this
        rw [this]
      · rw [f6, e5]
    | nil =>
      have hrtemp : rtemp = rt := Option.some.inj e6
      subst hrtemp
      simp only [List.map_nil, List.append_nil] at e5
      have hfull : Seg h' (some temp) (rest ++ [(t, tv)]) none := seg_snoc e3 hct'
      have hrn : (rest.map Prod.fst).Nodup := by
        rw [← e4] at hna
        exact (List.nodup_append.1 hna).2.1
      have hdisj : ∀ c, c ∈ done.map Prod.fst → c ∉ rest.map Prod.fst := by
        intro c h1 h2
        rw [← e4] at hna
        exact (List.nodup_append.1 hna).2.2 h1 h2
      have htd : t ∉ done.map Prod.fst := fun hm => hnt (e4 ▸ List.mem_append_left _ hm)
      have htr : t ∉ rest.map Prod.fst := fun hm => hnt (e4 ▸ List.mem_append_right _ hm)
      have hlen4 := congrArg List.length e4
      simp only [List.length_append, List.length_map] at hlen4
      -- the node `temp` and the nodes after it
      obtain ⟨a0, v0, tail, hsplit⟩ : ∃ a0 v0 tail, rest ++ [(t, tv)] = (a0, v0) :: tail := by
        cases rest with
        | nil => exact ⟨t, tv, [], rfl⟩
        | cons z rest => exact ⟨z.1, z.2, rest ++ [(t, tv)], rfl⟩
      rw [hsplit] at hfull
      obtain ⟨htemp, nx0, hca0, htail⟩ := hfull
      have htemp' : temp = a0 := Option.some.inj htemp
      subst htemp'
      have hfn : ((rest ++ [(t, tv)]).map Prod.fst).Nodup := by
        rw [List.map_append]
        refine List.nodup_append.2 ⟨hrn, by simp, ?_⟩
        intro c h1 h2
        simp at h2
        exact htr (h2 ▸ h1)
      rw [hsplit, List.map_cons, List.nodup_cons] at hfn
      have hmemfull : ∀ c, c ∈ (rest ++ [(t, tv)]).map Prod.fst →
          c ∉ done.map Prod.fst := by
        intro c h1 h2
        rw [List.map_append, List.mem_append] at h1
        rcases h1 with h1 | h1
        · exact hdisj c h2 h1
        · simp at h1
          exact htd (h1 ▸ h2)
      rw [hsplit, List.map_cons] at hmemfull
      have hlenfull := congrArg List.length hsplit
      simp only [List.length_append, List.length_cons, List.length_nil] at hlenfull
      obtain ⟨h2, g1, g2, g3, _⟩ := delete_loop_spec tail (h'.length + 1) h' nx0 htail hfn.2
        (by omega)
      have hca2 : cell h2 temp = some ⟨v0, nx0⟩ := by rw [g3 temp hfn.1]; exact hca0
      have htempd : temp ∉ done.map Prod.fst := hmemfull temp (List.mem_cons_self _ _)
      refine ⟨⟨write h2 temp ⟨v0, none⟩, a.front, some temp, b.size, a.mod_count + 2⟩, done,
        ?_, ?_, e5, rfl⟩
      · simp only [assign_rest, deref, hrc, hca0, Option.isSome_none, Bool.false_eq_true,
          false_and, if_false, g1, hca2]
      · refine ⟨?_, ⟨temp, v0, rfl, ?_, htempd⟩, hdn, by rw [e5]; exact hmv, ?_⟩
        · refine seg_write temp _ htempd (seg_frame ?_ e2)
          intro c hcd
          exact g3 c (fun hm => hmemfull c (List.mem_cons_of_mem _ hm) hcd)
        · exact cell_write_self _ _ _ (by rw [g2]; exact cell_lt hca0)
        · show b.used = _
          rw [hbu]
          have := congrArg List.length e5
          simp only [List.length_map] at this
          rw [this]

end LinkedSet

/-! ## LinkedSet: iteration, comparison, and sets built by the public operations -/

namespace LinkedSet
variable {T : Type}
open Heap

theorem iterate_loop_spec (h : Heap T) (t : Nat) (ns : List (Nat × T)) :
    ∀ (fuel : Nat) (p : Option Nat), Seg h p ns (some t) → t ∉ ns.map Prod.fst →
      ns.length < fuel → iterate_loop h (some t) fuel p = .ok (ns.map Prod.snd) := by
  induction ns with
  | nil =>
    intro fuel p hs _ hf
    have hp : p = some t := hs
    subst hp
    obtain ⟨fuel, rfl⟩ : ∃ k, fuel = k + 1 := ⟨fuel - 1, by simp at hf; omega⟩
    simp [iterate_loop]
  | cons x ns ih =>
    obtain ⟨a, v⟩ := x
    intro fuel p hs hnt hf
    obtain ⟨hp, nx, hca, hr⟩ := hs
    subst hp
    obtain ⟨fuel, rfl⟩ : ∃ k, fuel = k + 1 := ⟨fuel - 1, by simp at hf; omega⟩
    rw [List.map_cons, List.mem_cons, not_or] at hnt
    have hat : ¬ (some a = some t) := fun h' => hnt.1 (Option.some.inj h').symm
    simp only [iterate_loop, hat, if_false, deref, hca, seg_isSome hr, if_true,
      ih fuel nx hr hnt.2 (by simp at hf; omega), List.map_cons]

theorem Rep.elements {s : LinkedSet T} {ns : List (Nat × T)} (hr : Rep s ns) :
    s.elements = .ok (ns.map Prod.snd) := by
  have hlen := hr.length_lt
  obtain ⟨hs, ⟨t, tv, ht, _, hnt⟩, _, _, _⟩ := hr
  unfold LinkedSet.elements
  rw [ht] at hs ⊢
  exact iterate_loop_spec s.heap t ns _ _ hs hnt (by omega)

theorem contains_all_loop_spec [DecidableEq T] {s : LinkedSet T} {ks : List (Nat × T)}
    (hk : Rep s ks) (h : Heap T) (t : Nat) (ns : List (Nat × T)) :
    ∀ (fuel : Nat) (p : Option Nat), Seg h p ns (some t) → t ∉ ns.map Prod.fst →
      ns.length < fuel →
      contains_all_loop s h (some t) fuel p =
        .ok ((ns.map Prod.snd).all (fun x => decide (x ∈ ks.map Prod.snd))) := by
  induction ns with
  | nil =>
    intro fuel p hs _ hf
    have hp : p = some t := hs
    subst hp
    obtain ⟨fuel, rfl⟩ : ∃ k, fuel = k + 1 := ⟨fuel - 1, by simp at hf; omega⟩
    simp [contains_all_loop]
  | cons x ns ih =>
    obtain ⟨a, v⟩ := x
    intro fuel p hs hnt hf
    obtain ⟨hp, nx, hca, hr⟩ := hs
    subst hp
    obtain ⟨fuel, rfl⟩ : ∃ k, fuel = k + 1 := ⟨fuel - 1, by simp at hf; omega⟩
    rw [List.map_cons, List.mem_cons, not_or] at hnt
    have hat : ¬ (some a = some t) := fun h' => hnt.1 (Option.some.inj h').symm
    by_cases hv : v ∈ ks.map Prod.snd
    · simp only [contains_all_loop, hat, if_false, deref, hca, hk.contains v, hv, decide_True,
        seg_isSome hr, if_true, ih fuel nx hr hnt.2 (by simp at hf; omega), List.map_cons,
        List.all_cons, Bool.true_and]
    · simp only [contains_all_loop, hat, if_false, deref, hca, hk.contains v, hv, decide_False,
        List.map_cons, List.all_cons, Bool.false_and]

theorem Rep.contains_all [DecidableEq T] {s i : LinkedSet T} {ks ns : List (Nat × T)}
    (hk : Rep s ks) (hi : Rep i ns) :
    s.contains_all i = .ok ((ns.map Prod.snd).all (fun x => decide (x ∈ ks.map Prod.snd))) := by
  have hlen := hi.length_lt
  obtain ⟨hs, ⟨t, tv, ht, _, hnt⟩, _, _, _⟩ := hi
  unfold LinkedSet.contains_all
  rw [ht] at hs ⊢
  exact contains_all_loop_spec hk i.heap t ns _ _ hs hnt (by omega)

theorem Rep.contains_all_self [DecidableEq T] {s : LinkedSet T} {ns : List (Nat × T)}
    (hr : Rep s ns) : s.contains_all s = .ok true := by
  rw [hr.contains_all hr]
  congr 1
  rw [List.all_eq_true]
  intro x hx
  exact decide_eq_true hx

theorem Rep.le_eq [DecidableEq T] {a b : LinkedSet T} {ns ms : List (Nat × T)}
    (_ha : Rep a ns) (hb : Rep b ms) : a.le b = .ok (decide (a.size ≤ b.size)) := by
  unfold LinkedSet.le
  by_cases h : a.used > b.size
  · have h' : ¬ a.size ≤ b.size := by unfold LinkedSet.size at *; omega
    simp [h, h']
  · have h' : a.size ≤ b.size := by unfold LinkedSet.size at *; omega
    simp only [h, if_false, hb.contains_all_self, h', decide_True]

theorem Rep.lt_eq [DecidableEq T] {a b : LinkedSet T} {ns ms : List (Nat × T)}
    (_ha : Rep a ns) (hb : Rep b ms) : a.lt b = .ok (decide (a.size < b.size)) := by
  unfold LinkedSet.lt
  by_cases h : a.used ≥ b.size
  · have h' : ¬ a.size < b.size := by unfold LinkedSet.size at *; omega
    simp [h, h']
  · have h' : a.size < b.size := by unfold LinkedSet.size at *; omega
    simp only [h, if_false, hb.contains_all_self, h', decide_True]

theorem Rep.eq_of_values [DecidableEq T] {a b : LinkedSet T} {ns ms : List (Nat × T)}
    (ha : Rep a ns) (hb : Rep b ms) (hv : ns.map Prod.snd = ms.map Prod.snd) :
    a.eq b = .ok true := by
  have hu : a.used = b.size := by
    show a.used = b.used
    rw [ha.2.2.2.2, hb.2.2.2.2]
    have := congrArg List.length hv
    simp only [List.length_map] at this
    rw [this]
  unfold LinkedSet.eq
  simp only [hu, ne_eq, not_true_eq_false, if_false]
  rw [ha.contains_all hb]
  congr 1
  rw [List.all_eq_true]
  intro x hx
  rw [← hv] at hx
  exact decide_eq_true hx

theorem built_rep [DecidableEq T] [Inhabited T] {s : LinkedSet T} (hs : Built s) :
    ∃ ns, Rep s ns := by
  induction hs with
  | new => exact ⟨[], Rep.new⟩
  | insert s e r _ he ih =>
    obtain ⟨ns, hr⟩ := ih
    by_cases hm : e ∈ ns.map Prod.snd
    · rw [(hr.insert e).1 hm] at he
      cases he
      exact ⟨ns, hr⟩
    · obtain ⟨t, s', e1, e2, _⟩ := (hr.insert e).2 hm
      rw [e1] at he
      cases he
      exact ⟨_, e2⟩
  | erase s e r _ he ih =>
    obtain ⟨ns, hr⟩ := ih
    by_cases hm : e ∈ ns.map Prod.snd
    · obtain ⟨s', ns', e1, e2, _⟩ := (hr.erase e).2 hm
      rw [e1] at he
      cases he
      exact ⟨_, e2⟩
    · rw [(hr.erase e).1 hm] at he
      cases he
      exact ⟨ns, hr⟩
  | clear s s' _ he ih =>
    obtain ⟨ns, hr⟩ := ih
    obtain ⟨s1, e1, e2⟩ := hr.clear
    rw [e1] at he
    cases he
    exact ⟨_, e2⟩
  | insert_all s i r _ he ih =>
    obtain ⟨ns, hr⟩ := ih
    obtain ⟨r1, ns', e1, e2, _⟩ := Rep.insert_all i hr
    rw [e1] at he
    cases he
    exact ⟨_, e2⟩
  | erase_all s i r _ he ih =>
    obtain ⟨ns, hr⟩ := ih
    obtain ⟨r1, ns', e1, e2, _⟩ := Rep.erase_all i hr
    rw [e1] at he
    cases he
    exact ⟨_, e2⟩
  | retain_all s i r _ he ih =>
    obtain ⟨ns, hr⟩ := ih
    obtain ⟨r1, ns', e1, e2, _⟩ := hr.retain_all i
    rw [e1] at he
    cases he
    exact ⟨_, e2⟩
  | assign s rhs s' _ _ he ih1 ih2 =>
    obtain ⟨ns, hr⟩ := ih1
    obtain ⟨ms, hm⟩ := ih2
    obtain ⟨s1, ns', e1, e2, _⟩ := hr.assign hm
    rw [e1] at he
    cases he
    exact ⟨_, e2⟩
  | copy s s' _ he ih =>
    obtain ⟨ns, hr⟩ := ih
    obtain ⟨s1, ns', e1, e2, _⟩ := hr.copy
    rw [e1] at he
    cases he
    exact ⟨_, e2⟩

end LinkedSet

namespace LinkedSet
variable {T : Type}
open Heap

theorem seg_next_isSome {h : Heap T} {t : Nat} (ns : List (Nat × T)) :
    ∀ {p : Option Nat}, Seg h p ns (some t) →
      ∀ x ∈ ns, ∃ nx, cell h x.1 = some ⟨x.2, some nx⟩ := by
  induction ns with
  | nil => intro p _ x hx; cases hx
  | cons y ns ih =>
    obtain ⟨a, v⟩ := y
    intro p hs x hx
    obtain ⟨_, nx, hca, hr⟩ := hs
    rcases List.mem_cons.1 hx with rfl | hx
    · obtain ⟨k, hk⟩ := Option.isSome_iff_exists.1 (seg_isSome hr)
      exact ⟨k, by rw [hca, hk]⟩
    · exact ih hr x hx

theorem sample_set_built (l : List Nat) (n : Int)
    (h : LinkedSet.insert_all LinkedSet.new l = .ok (n, sample_set l)) :
    Built (sample_set l) :=
  Built.insert_all LinkedSet.new l (n, sample_set l) Built.new h

/-! ## LinkedSet: copy, representation, erase and the subset operators -/

/-- C31: for sets `a` and `b` built by the public operations (of any sizes), `a = b`
returns, and afterwards `a` contains exactly the elements of `b` (iteration yields them in
the same order), `a.size() == b.size()` and `a == b` is true; the copy constructor
`LinkedSet(b)` returns a set with the same properties.  Here `contains` and iteration on
`b` return, the one saying whether its argument is among the values the other yields. -/
theorem assign_copy_equal [DecidableEq T] [Inhabited T] (a b : LinkedSet T) (ha : Built a)
    (hb : Built b) :
    (∃ vs, b.elements = .ok vs ∧ ∀ e, b.contains e = .ok (decide (e ∈ vs))) ∧
    (∃ a', a.assign b = .ok a' ∧ (∀ e, a'.contains e = b.contains e) ∧
      a'.elements = b.elements ∧ a'.size = b.size ∧ a'.eq b = .ok true) ∧
    (∃ c, b.copy = .ok c ∧ (∀ e, c.contains e = b.contains e) ∧
      c.elements = b.elements ∧ c.size = b.size ∧ c.eq b = .ok true) := by
  obtain ⟨ns, hra⟩ := built_rep ha
  obtain ⟨ms, hrb⟩ := built_rep hb
  refine ⟨⟨ms.map Prod.snd, hrb.elements, fun e => hrb.contains e⟩, ?_, ?_⟩
  · obtain ⟨a', ns', e1, e2, e3, e4⟩ := hra.assign hrb
    refine ⟨a', e1, ?_, ?_, e4, e2.eq_of_values hrb e3⟩
    · intro e
      rw [e2.contains e, hrb.contains e, e3]
    · rw [e2.elements, hrb.elements, e3]
  · obtain ⟨c, ns', e1, e2, e3, e4⟩ := hrb.copy
    refine ⟨c, e1, ?_, ?_, e4, e2.eq_of_values hrb e3⟩
    · intro e
      rw [e2.contains e, hrb.contains e, e3]
    · rw [e2.elements, hrb.elements, e3]

/-- C31 at the sets {1, 2, 3} and {7, 8}: after the assignment the left set holds 7 and 8,
and the copy of {7, 8} holds 7 and 8. -/
theorem assign_copy_equal_witness :
    Built (sample_set [1, 2, 3]) ∧ Built (sample_set [7, 8]) ∧
    (∃ a', (sample_set [1, 2, 3]).assign (sample_set [7, 8]) = .ok a' ∧
      (∀ e, a'.contains e = (sample_set [7, 8]).contains e) ∧
      a'.elements = (sample_set [7, 8]).elements ∧ a'.size = (sample_set [7, 8]).size ∧
      a'.eq (sample_set [7, 8]) = .ok true) ∧
    (sample_set [7, 8]).elements = .ok [7, 8] :=
  ⟨sample_set_built [1, 2, 3] 3 rfl, sample_set_built [7, 8] 2 rfl,
    (assign_copy_equal (sample_set [1, 2, 3]) (sample_set [7, 8])
      (sample_set_built [1, 2, 3] 3 rfl) (sample_set_built [7, 8] 2 rfl)).2.1, by rfl⟩

/-- C32: the representation invariant.  After any sequence of `insert`, `erase`, `clear`,
`insert_all`, `erase_all`, `retain_all`, `operator=` and the copy constructor from a
default-constructed set, following `next` from `front` goes through nodes that hold no value
twice and each have a `next` that is not null, and then reaches the node `trailer` points to,
whose `next` is null; `used` (`size()`) is the number of nodes before the trailer, and
iteration yields their values.  Each of the operations returns on such a set. -/
theorem representation_invariant [DecidableEq T] [Inhabited T] (s : LinkedSet T)
    (hs : Built s) :
    (∃ ns, Rep s ns ∧ (∀ x ∈ ns, ∃ nx, cell s.heap x.1 = some ⟨x.2, some nx⟩) ∧
      (ns.map Prod.snd).Nodup ∧ s.size = (ns.length : Int) ∧
      s.elements = .ok (ns.map Prod.snd)) ∧
    (∀ e, ∃ r, s.insert e = .ok r) ∧ (∀ e, ∃ r, s.erase e = .ok r) ∧
    (∃ s', s.clear = .ok s') ∧ (∀ i, ∃ r, s.insert_all i = .ok r) ∧
    (∀ i, ∃ r, s.erase_all i = .ok r) ∧ (∀ i, ∃ r, s.retain_all i = .ok r) ∧
    (∀ rhs, Built rhs → ∃ s', s.assign rhs = .ok s') ∧ (∃ c, s.copy = .ok c) := by
  obtain ⟨ns, hr⟩ := built_rep hs
  refine ⟨⟨ns, hr, ?_, hr.2.2.2.1, hr.2.2.2.2, hr.elements⟩, ?_, ?_, ?_, ?_, ?_, ?_, ?_, ?_⟩
  · obtain ⟨h1, ⟨t, _, ht, _, _⟩, _⟩ := hr
    rw [ht] at h1
    exact seg_next_isSome ns h1
  · intro e
    by_cases hm : e ∈ ns.map Prod.snd
    · exact ⟨_, (hr.insert e).1 hm⟩
    · obtain ⟨_, s', e1, _⟩ := (hr.insert e).2 hm
      exact ⟨_, e1⟩
  · intro e
    by_cases hm : e ∈ ns.map Prod.snd
    · obtain ⟨s', _, e1, _⟩ := (hr.erase e).2 hm
      exact ⟨_, e1⟩
    · exact ⟨_, (hr.erase e).1 hm⟩
  · obtain ⟨s', e1, _⟩ := hr.clear
    exact ⟨s', e1⟩
  · intro i
    obtain ⟨r, _, e1, _⟩ := Rep.insert_all i hr
    exact ⟨r, e1⟩
  · intro i
    obtain ⟨r, _, e1, _⟩ := Rep.erase_all i hr
    exact ⟨r, e1⟩
  · intro i
    obtain ⟨r, _, e1, _⟩ := hr.retain_all i
    exact ⟨r, e1⟩
  · intro rhs hrhs
    obtain ⟨ms, hm⟩ := built_rep hrhs
    obtain ⟨s', _, e1, _⟩ := hr.assign hm
    exact ⟨s', e1⟩
  · obtain ⟨c, _, e1, _⟩ := hr.copy
    exact ⟨c, e1⟩

/-- C32 at the set {1, 2, 3}: three nodes and the trailer at address 3. -/
theorem representation_invariant_witness :
    Built (sample_set [1, 2, 3]) ∧ (sample_set [1, 2, 3]).elements = .ok [1, 2, 3] ∧
    (sample_set [1, 2, 3]).trailer = some 3 ∧
    cell (sample_set [1, 2, 3]).heap 3 = some ⟨0, none⟩ ∧
    ∃ ns, Rep (sample_set [1, 2, 3]) ns ∧
      (∀ x ∈ ns, ∃ nx, cell (sample_set [1, 2, 3]).heap x.1 = some ⟨x.2, some nx⟩) ∧
      (ns.map Prod.snd).Nodup ∧ (sample_set [1, 2, 3]).size = (ns.length : Int) ∧
      (sample_set [1, 2, 3]).elements = .ok (ns.map Prod.snd) :=
  ⟨sample_set_built [1, 2, 3] 3 rfl, by rfl, by rfl, by rfl,
    (representation_invariant (sample_set [1, 2, 3]) (sample_set_built [1, 2, 3] 3 rfl)).1⟩

/-- C33: for a set built by the public operations, `contains(e)` returns; when it is true,
`erase(e)` returns 1 and afterwards `contains(e)` is false, every other element is contained
as before (iteration yields the former values without `e`, in the former order) and `size()`
is one less; when it is false, `erase(e)` returns 0 and the set is as it was. -/
theorem erase_removes_exactly [DecidableEq T] [Inhabited T] (s : LinkedSet T) (hs : Built s)
    (e : T) :
    (∃ b, s.contains e = .ok b) ∧
    (s.contains e = .ok true →
      ∃ s' vs, s.erase e = .ok (1, s') ∧ s'.contains e = .ok false ∧
        (∀ x, x ≠ e → s'.contains x = s.contains x) ∧ s'.size = s.size - 1 ∧
        s.elements = .ok vs ∧ s'.elements = .ok (vs.erase e)) ∧
    (s.contains e = .ok false → s.erase e = .ok (0, s)) := by
  obtain ⟨ns, hr⟩ := built_rep hs
  refine ⟨⟨_, hr.contains e⟩, ?_, ?_⟩
  · intro hc
    rw [hr.contains e] at hc
    have hm : e ∈ ns.map Prod.snd := of_decide_eq_true (Except.ok.inj hc)
    obtain ⟨s', ns', e1, e2, e3, _⟩ := (hr.erase e).2 hm
    refine ⟨s', ns.map Prod.snd, e1, ?_, ?_, ?_, hr.elements, ?_⟩
    · rw [e2.contains e, e3]
      congr 1
      exact decide_eq_false (fun h => (hr.2.2.2.1.mem_erase_iff.1 h).1 rfl)
    · intro x hx
      rw [e2.contains x, hr.contains x, e3]
      congr 2
      rw [hr.2.2.2.1.mem_erase_iff]
      exact propext ⟨fun h => h.2, fun h => ⟨hx, h⟩⟩
    · show s'.used = s.used - 1
      rw [e2.2.2.2.2, hr.2.2.2.2]
      have := congrArg List.length e3
      rw [List.length_map, List.length_erase_of_mem hm, List.length_map] at this
      rw [this]
      have hpos : 0 < ns.length := by
        cases ns with
        | nil => simp at hm
        | cons _ _ => simp
      omega
    · rw [e2.elements, e3]
  · intro hc
    rw [hr.contains e] at hc
    have hm : e ∉ ns.map Prod.snd := of_decide_eq_false (Except.ok.inj hc)
    exact (hr.erase e).1 hm

/-- C33 at the set {1, 2, 3}: erasing 2 leaves 1 and 3, erasing 5 changes nothing. -/
theorem erase_removes_exactly_witness :
    Built (sample_set [1, 2, 3]) ∧ (sample_set [1, 2, 3]).contains 2 = .ok true ∧
    (sample_set [1, 2, 3]).contains 5 = .ok false ∧
    (∃ s' vs, (sample_set [1, 2, 3]).erase 2 = .ok (1, s') ∧ s'.contains 2 = .ok false ∧
      (∀ x, x ≠ 2 → s'.contains x = (sample_set [1, 2, 3]).contains x) ∧
      s'.size = (sample_set [1, 2, 3]).size - 1 ∧
      (sample_set [1, 2, 3]).elements = .ok vs ∧ s'.elements = .ok (vs.erase 2)) ∧
    (sample_set [1, 2, 3]).erase 5 = .ok (0, sample_set [1, 2, 3]) :=
  ⟨sample_set_built [1, 2, 3] 3 rfl, by rfl, by rfl,
    (erase_removes_exactly (sample_set [1, 2, 3]) (sample_set_built [1, 2, 3] 3 rfl) 2).2.1 (by rfl),
    (erase_removes_exactly (sample_set [1, 2, 3]) (sample_set_built [1, 2, 3] 3 rfl) 5).2.2 (by rfl)⟩

/-- C34 at the sets {1} and {2}, and {1} and {2, 3}: `{1} <= {2}` and `{1} < {2, 3}` are
true although 1 is in neither right-hand set (so are `{2} >= {1}` and `{2, 3} > {1}`); the
operators compare the sizes only, as their loops test the elements of the right-hand set
against that set itself. -/
theorem subset_operators_compare_sizes :
    (sample_set [1]).contains 1 = .ok true ∧ (sample_set [2]).contains 1 = .ok false ∧
    (sample_set [2, 3]).contains 1 = .ok false ∧
    (sample_set [1]).le (sample_set [2]) = .ok true ∧
    (sample_set [2]).ge (sample_set [1]) = .ok true ∧
    (sample_set [1]).lt (sample_set [2, 3]) = .ok true ∧
    (sample_set [2, 3]).gt (sample_set [1]) = .ok true ∧
    LinkedSet.of_list [1] = .ok (sample_set [1]) ∧
    LinkedSet.of_list [2] = .ok (sample_set [2]) ∧
    LinkedSet.of_list [2, 3] = .ok (sample_set [2, 3]) :=
  ⟨by rfl, by rfl, by rfl, by rfl, by rfl, by rfl, by rfl, by rfl, by rfl, by rfl⟩

end LinkedSet

/-! ## LinkedQueue: representation and the first-in first-out list -/

namespace LinkedQueue
variable {T : Type}
open Heap

theorem rep_new : Rep (LinkedQueue.new : LinkedQueue T) [] :=
  ⟨rfl, List.nodup_nil, rfl, fun pre x h => by simp at h⟩

theorem Rep.length_le {q : LinkedQueue T} {ns : List (Nat × T)} (hr : Rep q ns) :
    ns.length ≤ q.heap.length := by
  obtain ⟨hs, hna, _, _⟩ := hr
  have := length_le_of_nodup_lt _ q.heap.length hna (seg_lt hs)
  simpa using this

theorem Rep.enqueue {q : LinkedQueue T} {ns : List (Nat × T)} (hr : Rep q ns) (e : T) :
    ∃ q', q.enqueue e = .ok (1, q') ∧ Rep q' (ns ++ [(q.heap.length, e)]) ∧
      q'.mod_count = q.mod_count + 1 := by
  obtain ⟨hs, hna, hu, hrear⟩ := hr
  have hlast : ∀ (l : List (Nat × T)) (y : Nat × T) (pre : List (Nat × T)) (x : Nat × T),
      l ++ [y] = pre ++ [x] → y = x := by
    intro l y pre x h
    have := List.append_inj_right' h rfl
    exact (List.cons.inj this).1
  have hfresh : q.heap.length ∉ ns.map Prod.fst := fun hm =>
    absurd (seg_lt hs _ hm) (lt_irrefl _)
  have hnodup : ((ns ++ [(q.heap.length, e)]).map Prod.fst).Nodup := by
    rw [List.map_append]
    refine List.nodup_append.2 ⟨hna, by simp, ?_⟩
    intro a ha hb
    simp at hb
    exact hfresh (hb ▸ ha)
  rcases List.eq_nil_or_concat ns with hnil | ⟨pre, ⟨a, v⟩, hcat⟩
  · subst hnil
    have hf : q.front = none := hs
    refine ⟨⟨alloc q.heap ⟨e, none⟩, some q.heap.length, some q.heap.length, q.used + 1,
      q.mod_count + 1⟩, ?_, ⟨?_, hnodup, ?_, ?_⟩, rfl⟩
    · simp only [LinkedQueue.enqueue, hf]
    · exact ⟨rfl, none, cell_alloc_new _ _, rfl⟩
    · show q.used + 1 = _
      rw [hu]; simp
    · intro pre x h
      have := hlast [] _ pre x h
      rw [← this]
  · rw [List.concat_eq_append] at hcat
    subst hcat
    obtain ⟨r, h1, hra, nx, hca, hnx⟩ := seg_append_iff.1 hs
    subst hra
    have hnx' : nx = none := hnx
    subst hnx'
    have hrear' : q.rear = some a := hrear pre (a, v) rfl
    obtain ⟨f, hf⟩ : ∃ f, q.front = some f := by
      cases pre with
      | nil => exact ⟨a, h1⟩
      | cons y pre => exact ⟨y.1, h1.1⟩
    have hal := cell_lt hca
    have hapre : a ∉ pre.map Prod.fst := by
      intro hm
      rw [List.map_append] at hna
      exact (List.nodup_append.1 hna).2.2 hm (by simp)
    refine ⟨⟨alloc (write q.heap a ⟨v, some q.heap.length⟩) ⟨e, none⟩, q.front,
      some q.heap.length, q.used + 1, q.mod_count + 1⟩, ?_, ⟨?_, hnodup, ?_, ?_⟩, rfl⟩
    · simp only [LinkedQueue.enqueue, hf, hrear', hca]
    · show Seg _ q.front _ none
      rw [List.append_assoc]
      refine seg_append_iff.2 ⟨some a, seg_alloc _ (seg_write a _ hapre h1), rfl, _, ?_,
        rfl, none, ?_, rfl⟩
      · rw [cell_alloc_old _ _ (by rw [length_write]; exact hal), cell_write_self _ _ _ hal]
      · have := cell_alloc_new (write q.heap a ⟨v, some q.heap.length⟩) (⟨e, none⟩ : LN T)
        rw [length_write] at this
        exact this
    · show q.used + 1 = _
      rw [hu]
      simp only [List.length_append, List.length_cons, List.length_nil, Nat.cast_add,
        Nat.cast_one, Nat.cast_zero]
      omega
    · intro pre' x h
      have := hlast _ _ pre' x h
      rw [← this]

theorem Rep.dequeue {q : LinkedQueue T} {a : Nat} {v : T} {rest : List (Nat × T)}
    (hr : Rep q ((a, v) :: rest)) :
    ∃ q', q.dequeue = .ok (v, q') ∧ Rep q' rest ∧ q'.used = q.used - 1 := by
  obtain ⟨hs, hna, hu, hrear⟩ := hr
  obtain ⟨hf, nx, hca, hnx⟩ := hs
  rw [List.map_cons, List.nodup_cons] at hna
  refine ⟨⟨delete q.heap a, nx, q.rear, q.used - 1, q.mod_count + 1⟩, ?_, ⟨?_, hna.2, ?_, ?_⟩,
    rfl⟩
  · simp only [LinkedQueue.dequeue, hf, hca]
  · exact seg_delete a hna.1 hnx
  · show q.used - 1 = _
    rw [hu]; simp
  · intro pre x h
    exact hrear ((a, v) :: pre) x (by rw [h]; rfl)

theorem Rep.peek {q : LinkedQueue T} {a : Nat} {v : T} {rest : List (Nat × T)}
    (hr : Rep q ((a, v) :: rest)) : q.peek = .ok v := by
  obtain ⟨hs, _, hu, _⟩ := hr
  obtain ⟨hf, nx, hca, _⟩ := hs
  have hne : q.used ≠ 0 := by
    rw [hu]; simp only [List.length_cons, Nat.cast_add, Nat.cast_one]; omega
  simp only [LinkedQueue.peek, LinkedQueue.empty, hne, decide_False, Bool.false_eq_true,
    if_false, hf, deref, hca]

theorem queue_iterate_loop_spec (h : Heap T) (ns : List (Nat × T)) :
    ∀ (fuel : Nat) (p : Option Nat), Seg h p ns none → ns.length ≤ fuel →
      iterate_loop h fuel p = .ok (ns.map Prod.snd) := by
  induction ns with
  | nil =>
    intro fuel p hs _
    have hp : p = none := hs
    subst hp
    cases fuel <;> rfl
  | cons x ns ih =>
    obtain ⟨a, v⟩ := x
    intro fuel p hs hf
    obtain ⟨hp, nx, hca, hr⟩ := hs
    subst hp
    obtain ⟨fuel, rfl⟩ : ∃ k, fuel = k + 1 := ⟨fuel - 1, by simp at hf; omega⟩
    simp only [iterate_loop, hca, ih fuel nx hr (by simp at hf; omega), List.map_cons]

theorem Rep.queue_elements {q : LinkedQueue T} {ns : List (Nat × T)} (hr : Rep q ns) :
    q.elements = .ok (ns.map Prod.snd) := by
  have hlen := hr.length_le
  exact queue_iterate_loop_spec q.heap ns _ _ hr.1 (by omega)

theorem run_spec (ops : List (Op T)) :
    ∀ (q : LinkedQueue T) (ns : List (Nat × T)) (outs pend : List T), Rep q ns →
      fifo_spec (ns.map Prod.snd) ops = some (outs, pend) →
      ∃ q' ns', run q ops = .ok (outs, q') ∧ Rep q' ns' ∧ ns'.map Prod.snd = pend := by
  induction ops with
  | nil =>
    intro q ns outs pend hr hf
    simp only [fifo_spec, Option.some.injEq, Prod.mk.injEq] at hf
    obtain ⟨h1, h2⟩ := hf
    subst h1
    exact ⟨q, ns, rfl, hr, h2⟩
  | cons op ops ih =>
    intro q ns outs pend hr hf
    cases op with
    | enqueue e =>
      obtain ⟨q1, e1, e2, _⟩ := hr.enqueue e
      have hf' : fifo_spec ((ns ++ [(q.heap.length, e)]).map Prod.snd) ops =
          some (outs, pend) := by
        rw [List.map_append]
        simp only [fifo_spec] at hf
        exact hf
      obtain ⟨q', ns', f1, f2, f3⟩ := ih q1 _ outs pend e2 hf'
      exact ⟨q', ns', by simp only [run, e1, f1], f2, f3⟩
    | dequeue =>
      cases ns with
      | nil => simp [fifo_spec] at hf
      | cons x ns =>
        obtain ⟨a, v⟩ := x
        obtain ⟨q1, e1, e2, _⟩ := hr.dequeue
        simp only [List.map_cons, fifo_spec] at hf
        cases hrec : fifo_spec (ns.map Prod.snd) ops with
        | none => rw [hrec] at hf; cases hf
        | some r =>
          rw [hrec] at hf
          simp only [Option.some.injEq, Prod.mk.injEq] at hf
          obtain ⟨h1, h2⟩ := hf
          obtain ⟨q', ns', f1, f2, f3⟩ := ih q1 ns r.1 r.2 e2 hrec
          refine ⟨q', ns', ?_, f2, f3.trans h2⟩
          simp only [run, e1, f1, h1]

theorem fifo_spec_count (ops : List (Op T)) :
    ∀ (pending outs pend : List T), fifo_spec pending ops = some (outs, pend) →
      pend.length + ops.countP (fun o => !o.is_enqueue) =
        pending.length + ops.countP Op.is_enqueue ∧
      outs.length = ops.countP (fun o => !o.is_enqueue) := by
  induction ops with
  | nil =>
    intro pending outs pend hf
    simp only [fifo_spec, Option.some.injEq, Prod.mk.injEq] at hf
    obtain ⟨h1, h2⟩ := hf
    subst h1 h2
    simp
  | cons op ops ih =>
    intro pending outs pend hf
    cases op with
    | enqueue e =>
      simp only [fifo_spec] at hf
      obtain ⟨h1, h2⟩ := ih _ outs pend hf
      simp only [List.length_append, List.length_singleton] at h1
      have he : (Op.enqueue e : Op T).is_enqueue = true := rfl
      simp only [List.countP_cons, he, Bool.not_true, Bool.false_eq_true, if_false, if_true]
      exact ⟨by omega, by simpa using h2⟩
    | dequeue =>
      cases pending with
      | nil => simp [fifo_spec] at hf
      | cons x pending =>
        simp only [fifo_spec] at hf
        cases hrec : fifo_spec pending ops with
        | none => rw [hrec] at hf; cases hf
        | some r =>
          rw [hrec] at hf
          simp only [Option.some.injEq, Prod.mk.injEq] at hf
          obtain ⟨h1, h2⟩ := hf
          obtain ⟨g1, g2⟩ := ih pending r.1 r.2 hrec
          subst h1 h2
          have hd : (Op.dequeue : Op T).is_enqueue = false := rfl
          simp only [List.countP_cons, hd, Bool.not_false, if_true,
            Bool.false_eq_true, if_false, List.length_cons]
          exact ⟨by omega, by omega⟩

end LinkedQueue

namespace LinkedQueue
variable {T : Type}
open Heap

/-! ## LinkedQueue: first-in first-out order, assignment and the empty queue -/

/-- C35: starting from an empty queue, for every sequence of `enqueue` and `dequeue` calls
in which `dequeue` is never called on an empty queue (the first-in first-out list `fifo_spec`
has a result), every call returns, the `dequeue` calls return the values that the list
yields, oldest first, and afterwards iteration yields the values left, oldest first, and
`size()` is their number, which is the number of `enqueue` calls minus the number of
`dequeue` calls.  When a value is left, `peek` returns the oldest one (it is a query, so the
queue is as it was) and a further `dequeue` returns that value and removes it. -/
theorem fifo_order (ops : List (Op T)) (outs pend : List T)
    (h : fifo_spec [] ops = some (outs, pend)) :
    ∃ q, run LinkedQueue.new ops = .ok (outs, q) ∧ q.elements = .ok pend ∧
      q.size = (pend.length : Int) ∧
      q.size = (ops.countP Op.is_enqueue : Int) - (ops.countP (fun o => !o.is_enqueue) : Int) ∧
      (∀ x rest, pend = x :: rest →
        q.peek = .ok x ∧
        ∃ q', q.dequeue = .ok (x, q') ∧ q'.elements = .ok rest ∧ q'.size = q.size - 1) := by
  obtain ⟨q, ns, e1, e2, e3⟩ := run_spec ops LinkedQueue.new [] outs pend rep_new h
  obtain ⟨c1, _⟩ := fifo_spec_count ops [] outs pend h
  have hsize : q.size = (pend.length : Int) := by
    show q.used = _
    rw [e2.2.2.1, ← e3, List.length_map]
  refine ⟨q, e1, by rw [e2.queue_elements, e3], hsize, ?_, ?_⟩
  · rw [hsize]
    simp only [List.length_nil, Nat.zero_add] at c1
    omega
  · intro x rest hp
    cases ns with
    | nil => rw [hp] at e3; cases e3
    | cons y ns =>
      obtain ⟨a, v⟩ := y
      rw [hp, List.map_cons, List.cons.injEq] at e3
      obtain ⟨hv, hrest⟩ := e3
      simp only at hv
      subst hv
      obtain ⟨q', f1, f2, f3⟩ := e2.dequeue
      exact ⟨e2.peek, q', f1, by rw [f2.queue_elements, hrest], f3⟩

/-- C35 at the calls enqueue 1, enqueue 2, dequeue, dequeue, enqueue 3, enqueue 4, dequeue:
the values returned are 1, 2, 3 and the value 4 is left. -/
theorem fifo_order_witness :
    fifo_spec [] sample_queue_ops = some ([1, 2, 3], [4]) ∧
    ∃ q, run LinkedQueue.new sample_queue_ops = .ok ([1, 2, 3], q) ∧ q.elements = .ok [4] ∧
      q.size = (([4] : List Nat).length : Int) ∧
      q.size = (sample_queue_ops.countP Op.is_enqueue : Int) -
        (sample_queue_ops.countP (fun o => !o.is_enqueue) : Int) ∧
      (∀ x rest, [4] = x :: rest →
        q.peek = .ok x ∧
        ∃ q', q.dequeue = .ok (x, q') ∧ q'.elements = .ok rest ∧ q'.size = q.size - 1) :=
  ⟨by decide, fifo_order sample_queue_ops [1, 2, 3] [4] (by decide)⟩

/-- C36 at the queues [1] and [2], and [1, 2, 3] and [9]: after `q = r` with both queues
not empty, `rear` is null, so a following `enqueue(3)` follows a null pointer; and when `q`
is longer than `r`, a node of `q` with its old value stays in the list after the copied
values (iteration yields 9, 2 while `size()` is 1).  With `q` empty the assignment gives the
values of `r` and a `rear` that points to the last node. -/
theorem queue_assign_breaks_rear :
    (∃ q, (sample_queue [1]).assign (sample_queue [2]) = .ok q ∧ q.elements = .ok [2] ∧
      q.size = 1 ∧ q.front = some 0 ∧ q.rear = none ∧ q.enqueue 3 = .error .bad_pointer) ∧
    (∃ q, (sample_queue [1, 2, 3]).assign (sample_queue [9]) = .ok q ∧
      q.elements = .ok [9, 2] ∧ q.size = 1 ∧ q.rear = none) ∧
    (∃ q, (sample_queue []).assign (sample_queue [7, 8]) = .ok q ∧
      q.elements = .ok [7, 8] ∧ q.size = 2 ∧ q.rear = some 1 ∧
      ∃ r, q.enqueue 3 = .ok r ∧ r.2.elements = .ok [7, 8, 3]) :=
  ⟨⟨⟨[some ⟨2, none⟩], some 0, none, 1, 2⟩, by rfl, by rfl, by rfl, by rfl, by rfl, by rfl⟩,
    ⟨⟨[some ⟨9, some 1⟩, some ⟨2, none⟩, none], some 0, none, 1, 4⟩, by rfl, by rfl, by rfl,
      by rfl⟩,
    ⟨⟨[some ⟨7, some 1⟩, some ⟨8, none⟩], some 0, some 1, 2, 1⟩, by rfl, by rfl, by rfl, by rfl,
      ⟨_, by rfl, by rfl⟩⟩⟩

/-- C37 at the empty queue: `peek` throws `EmptyError`, but `dequeue` has no test of
`empty()` and reads through the null `front`; so it does on a queue emptied by `dequeue`.
Both `peek` and `dequeue` of `LinkedPriorityQueue` throw `EmptyError` and leave the queue as
it was. -/
theorem dequeue_empty_reads_null :
    (LinkedQueue.new : LinkedQueue Nat).empty = true ∧
    (LinkedQueue.new : LinkedQueue Nat).peek = .error (.thrown .EmptyError) ∧
    (LinkedQueue.new : LinkedQueue Nat).dequeue = .error .bad_pointer ∧
    (∃ q, run LinkedQueue.new [.enqueue 1, .dequeue] = .ok ([1], q) ∧ q.empty = true ∧
      q.peek = .error (.thrown .EmptyError) ∧ q.dequeue = .error .bad_pointer) ∧
    sample_empty_queue.peek = .error .EmptyError ∧
    sample_empty_queue.dequeue = (.error .EmptyError, sample_empty_queue) :=
  ⟨by rfl, by rfl, by rfl, ⟨⟨[none], none, some 0, 0, 2⟩, by rfl, by rfl, by rfl, by rfl⟩,
    by rfl, by rfl⟩

end LinkedQueue

end ics
